import Mathlib

/-!
# Verification development for `filelock` and `algs` (go-play)

A shallow embedding of `src/filelock/filelock.go` (namespace `filelock`), of
`src/comparable` (namespace `comparable`), of `src/algs` (namespace `algs`) and
of `src/algs/graph` (namespace `graph`); the definitions of all four come first,
the theorems follow.

Package `filelock`.  The operating system, the clock, the random source and the
Go scheduler are not part of the program, so they enter the model as explicit
arguments (the answer of each system call, the raw draw of the random source,
the order of the concurrent steps), and every function returns, next to its Go
result, the list of system calls it issued.  Durations and instants are
nanoseconds (`Int`); `int64` wrap-around is made explicit by `wrap64` where the
source does arithmetic on durations.

Package `algs`.  Slices are lists and an index out of range is an explicit
failure (`Option`, or the outcome `Ret.panic`), never a default value.  An `int`
has 64 bits; the arithmetic of `backtrack.go` and `dp.go` stays far from that
range and is done in `Int`; allocation is taken to succeed.  The keys of the
binary search tree are compared by the method `CompareTo` of their type, as the
package `comparable` implements it: with the wrap-around of the subtraction for
`Int`, and with the comparisons of a NaN for `Float64`.
Loops that the source bounds by the data (`find`, the backtracking recursion)
take a fuel argument, and the theorems show that the fuel given suffices.

Package `graph`.  The counters `e` and `indegree[w]` are `int`s and their
increments are reduced to 64 bits by `wrapInt`.
-/

namespace filelock

/-! ## Errors -/

/-- The `errno` values a system call can answer with. -/
inductive Errno
  | EAGAIN | EACCES | EBADF | EINTR | EINVAL | ENOLCK | ENOENT | EDEADLK
  | other (code : Nat)
  deriving DecidableEq, Repr

/-- The two values of `ctx.Err()` of a finished context. -/
inductive CtxErr
  | Canceled | DeadlineExceeded
  deriving DecidableEq, Repr

/-- Go `error` values the package can return.  `wrap msg e` is
`fmt.Errorf(msg + ": %w", e)`; `join1`/`join2` are the `errors.Join` values
holding one or two non-nil errors. -/
inductive Error
  | ErrTimeout
  | ErrNotAbsolutePath
  | ctx (e : CtxErr)
  | sys (e : Errno)
  | wrap (msg : String) (inner : Error)
  | join1 (a : Error)
  | join2 (a b : Error)
  deriving DecidableEq, Repr

/-- The call `errors.Join(a, b)`: nil when both are nil, otherwise an error
holding the non-nil arguments in order. -/
def errorsJoin : Option Error → Option Error → Option Error
  | none, none => none
  | some a, none => some (Error.join1 a)
  | none, some b => some (Error.join1 b)
  | some a, some b => some (Error.join2 a b)

/-- Go `errors.Is(e, target)` restricted to the error values of this package. -/
def errorsIs : Error → Error → Bool
  | Error.wrap msg inner, target =>
      decide (Error.wrap msg inner = target) || errorsIs inner target
  | Error.join1 a, target => decide (Error.join1 a = target) || errorsIs a target
  | Error.join2 a b, target =>
      decide (Error.join2 a b = target) || errorsIs a target || errorsIs b target
  | e, target => decide (e = target)

/-! ## System calls -/

/-- The values of the `Type` field of `unix.Flock_t`. -/
inductive LockType
  | F_RDLCK | F_WRLCK | F_UNLCK
  deriving DecidableEq, Repr

/-- The structure `unix.Flock_t` (the fields the package sets; `Type_` is Go `Type`). -/
structure Flock_t where
  Type_ : LockType
  Whence : Int
  Start : Int
  Len : Int
  deriving DecidableEq, Repr

/-- The `fcntl` commands used: `F_SETLK` does not wait, `F_SETLKW` waits. -/
inductive FcntlCmd
  | F_SETLK | F_SETLKW
  deriving DecidableEq, Repr

/-- One system call (or sleep) issued by the package, in program order. -/
inductive Sys
  | openFile (path : String) (flags : Nat) (perm : Nat)
  | fcntl (fd : Nat) (cmd : FcntlCmd) (lock : Flock_t)
  | close (fd : Nat)
  | remove (path : String)
  | sleep (d : Int)
  deriving DecidableEq, Repr

/-- Linux value of `os.O_CREATE`. -/
def O_CREATE : Nat := 0x40

/-- Linux value of `os.O_RDWR`. -/
def O_RDWR : Nat := 0x2

/-! ## Configuration and handle -/

/-- A `context.Context` as the package sees it: the instant from which
`Done()` is ready (`none`: never, as for `context.Background()`), and the value
of `Err()` from then on. -/
structure Context where
  doneAt : Option Int
  err : CtxErr
  deriving DecidableEq, Repr

/-- The value `context.Background()`. -/
def Context.Background : Context := ⟨none, CtxErr.Canceled⟩

/-- Whether `<-ctx.Done()` is ready at instant `now`. -/
def Context.done (c : Context) (now : Int) : Bool :=
  match c.doneAt with
  | none => false
  | some t => decide (t ≤ now)

/-- The struct `config`. -/
structure config where
  ctx : Context
  timeout : Int
  block : Bool
  remove : Bool
  deriving DecidableEq, Repr

/-- The type `Option` of the package: `func(*config)`. -/
abbrev LockOption := config → config

/-- The option `WithContext(ctx)`. -/
def WithContext (ctx : Context) : LockOption := fun o => { o with ctx := ctx }

/-- The option `WithTimeout(timeout)`. -/
def WithTimeout (timeout : Int) : LockOption := fun c => { c with timeout := timeout }

/-- The option `WithBlock()`. -/
def WithBlock : LockOption := fun c => { c with block := true }

/-- The option `WithRemove()`. -/
def WithRemove : LockOption := fun c => { c with remove := true }

/-- The loop `for _, opt := range opts { opt(l.config) }`. -/
def applyOpts (c : config) (opts : List LockOption) : config :=
  opts.foldl (fun acc opt => opt acc) c

/-- One millisecond in nanoseconds (`time.Millisecond`). -/
def Millisecond : Int := 1000000

/-- One second in nanoseconds (`time.Second`). -/
def Second : Int := 1000 * Millisecond

/-- The constant `defaultLockTimeout`. -/
def defaultLockTimeout : Int := 30 * Second

/-- The constant `minWaitDuration`. -/
def minWaitDuration : Int := 200 * Millisecond

/-- The constant `maxWaitDuration`. -/
def maxWaitDuration : Int := 600 * Millisecond

/-- The struct `FileLock`; `file` is the descriptor number of the open lock
file (the mutex `mu` is represented in the concurrent model below). -/
structure FileLock where
  config : config
  path : String
  file : Nat
  deriving DecidableEq, Repr

/-! ## `path/filepath` on Unix (the build tag of the package) -/

/-- The function `os.IsPathSeparator` on Unix. -/
def isSep (c : Char) : Bool := c == '/'

/-- The function `filepath.IsAbs` on Unix: `strings.HasPrefix(path, "/")`. -/
def IsAbs (path : String) : Bool :=
  match path.data with
  | c :: _ => isSep c
  | [] => false

/-- The backtracking step of `Clean` at a `..` element: `out.w--`, then
`for out.w > dotdot && !sep(out[out.w]) { out.w-- }`; the argument is `out.w`
after the first decrement and the result the final `out.w`. -/
def cleanBacktrack (buf : List Char) (dotdot : Nat) : Nat → Nat
  | 0 => 0
  | w + 1 =>
      if dotdot < w + 1 && !isSep (buf.getD (w + 1) '/') then cleanBacktrack buf dotdot w
      else w + 1

/-- The main loop `for r < n` of `filepath.Clean`: `rest` is `path[r:]`, `out`
is the written part of the buffer (`out.w = out.length`). -/
def cleanLoop : Nat → List Char → Bool → List Char → Nat → List Char
  | 0, _, _, out, _ => out
  | _ + 1, [], _, out, _ => out
  | fuel + 1, c :: cs, rooted, out, dotdot =>
      if isSep c then
        -- empty path element
        cleanLoop fuel cs rooted out dotdot
      else if c == '.' && (cs.isEmpty || isSep (cs.headD 'x')) then
        -- . element
        cleanLoop fuel cs rooted out dotdot
      else if c == '.' && cs.head? == some '.'
          && (cs.tail.isEmpty || isSep (cs.tail.headD 'x')) then
        -- .. element: remove to last separator
        if dotdot < out.length then
          cleanLoop fuel cs.tail rooted
            (out.take (cleanBacktrack out dotdot (out.length - 1))) dotdot
        else if !rooted then
          let out1 := if 0 < out.length then out ++ ['/'] else out
          let out2 := out1 ++ ['.', '.']
          cleanLoop fuel cs.tail rooted out2 out2.length
        else
          cleanLoop fuel cs.tail rooted out dotdot
      else
        -- real path element: add slash if needed, copy element
        let out1 :=
          if (rooted && out.length != 1) || (!rooted && out.length != 0) then out ++ ['/']
          else out
        cleanLoop fuel ((c :: cs).dropWhile (fun x => !isSep x)) rooted
          (out1 ++ (c :: cs).takeWhile (fun x => !isSep x)) dotdot

/-- The function `filepath.Clean` on Unix, on the characters of the path. -/
def cleanChars (path : List Char) : List Char :=
  match path with
  | [] => ['.']
  | c :: cs =>
      let rooted := isSep c
      let out :=
        if rooted then cleanLoop (cs.length + 1) cs true ['/'] 1
        else cleanLoop (cs.length + 2) (c :: cs) false [] 0
      if out.isEmpty then ['.'] else out

/-- The function `filepath.Clean`. -/
def Clean (path : String) : String := String.mk (cleanChars path.data)

/-- The function `filepath.Dir` on Unix: drop the last element (everything after
the final separator), then `Clean`. -/
def Dir (path : String) : String :=
  String.mk (cleanChars (path.data.reverse.dropWhile (fun x => !isSep x)).reverse)

/-- The function `filepath.Base` on Unix. -/
def Base (path : String) : String :=
  if path.data.isEmpty then "."
  else
    -- strip trailing slashes
    let stripped := path.data.reverse.dropWhile isSep
    -- find the last element
    let last := (stripped.takeWhile (fun x => !isSep x)).reverse
    -- if empty now, it had only slashes
    if last.isEmpty then "/" else String.mk last

/-- The function `filepath.Join` on Unix: skip leading empty elements, join the
rest with the separator, `Clean`. -/
def Join : List String → String
  | [] => ""
  | e :: es =>
      if e.data.isEmpty then Join es
      else Clean (String.intercalate "/" (e :: es))

/-! ## `New` -/

/-- The function `New`; `openFile` is the answer of `os.OpenFile` (a descriptor
or an OS error) for a path. -/
def New (openFile : String → Except Errno Nat) (path : String) :
    Except Error FileLock × List Sys :=
  if !IsAbs path then (Except.error Error.ErrNotAbsolutePath, [])
  else
    let dir := Dir path
    let name := Base path
    let target := Join [dir, name ++ ".lock"]
    let call := Sys.openFile target (O_CREATE ||| O_RDWR) 0o600
    match openFile target with
    | Except.error e => (Except.error (Error.sys e), [call])
    | Except.ok file =>
        (Except.ok
          { config :=
              { ctx := Context.Background, timeout := defaultLockTimeout,
                block := false, remove := false },
            path := path, file := file },
         [call])

/-! ## `Unlock` -/

/-- The whole-file request `Flock_t{Type: t, Whence: 0, Start: 0, Len: 0}`. -/
def wholeFile (t : LockType) : Flock_t := ⟨t, 0, 0, 0⟩

/-- The function `Unlock`; `unlockRes`, `closeRes`, `removeRes` are the answers
of the `fcntl` unlock request, of `l.file.Close()` and of `os.Remove` (`none`
is success).  Returns the Go result and the system calls issued. -/
def Unlock (l : FileLock) (unlockRes closeRes removeRes : Option Errno) :
    Option Error × List Sys :=
  let lock := wholeFile LockType.F_UNLCK
  let t1 := [Sys.fcntl l.file FcntlCmd.F_SETLK lock]
  match unlockRes with
  | some e => (some (Error.wrap "releasing lock" (Error.sys e)), t1)
  | none =>
      let err := closeRes.map Error.sys
      let t2 := t1 ++ [Sys.close l.file]
      if l.config.remove then
        let removeErr := removeRes.map Error.sys
        (errorsJoin err removeErr, t2 ++ [Sys.remove (l.path ++ ".lock")])
      else
        (err, t2)

/-! ## `randomDuration` -/

/-- Reduction of an integer to the range of `int64` (two's complement). -/
def wrap64 (x : Int) : Int := (x + 2 ^ 63) % 2 ^ 64 - 2 ^ 63

/-- The largest `int64`. -/
def maxInt64 : Int := 2 ^ 63 - 1

/-- The smallest `int64`. -/
def minInt64 : Int := -(2 ^ 63)

/-- The method `(*rand.Rand).Int63n(n)`: it panics (`none`) when `n <= 0` and
otherwise returns a value of `[0, n)`; `draw` is the raw value produced by the
source, so every value of `[0, n)` is returned for some draw. -/
def Int63n (draw : Nat) (n : Int) : Option Int :=
  if n ≤ 0 then none else some ((draw : Int) % n)

/-- The function `randomDuration`:
`minDuration + time.Duration(randomGenerator.Int63n(int64(maxDuration-minDuration)))`,
`none` when `Int63n` panics. -/
def randomDuration (draw : Nat) (minDuration maxDuration : Int) : Option Int :=
  match Int63n draw (wrap64 (maxDuration - minDuration)) with
  | none => none
  | some r => some (wrap64 (minDuration + r))

/-! ## The polling strategy `acquireLock` -/

/-- How a call ended: it returned an error value (`none` is nil), it panicked,
or it is still running when the fuel of the model is used up. -/
inductive Ret
  | returned (err : Option Error)
  | panicked
  | running
  deriving DecidableEq, Repr

/-- What the polling strategy cannot decide itself: the answer of the OS to the
`i`-th non-blocking lock request (`none` is success), the raw draw of the random
source before the `i`-th sleep, and the choice of `select` at iteration `i` when
both channels are ready (`true`: the first case, `timeoutC`). -/
structure PollEnv where
  attempt : Nat → Option Errno
  draw : Nat → Nat
  pick : Nat → Bool

/-- Result of a polling call: how it ended, the system calls issued, and the
time elapsed since the call started. -/
structure Outcome where
  ret : Ret
  trace : List Sys
  now : Int
  deriving DecidableEq, Repr

/-- The error `fmt.Errorf("acquiring lock context canceled: %w", ctx.Err())`. -/
def canceledError (c : Context) : Error :=
  Error.wrap "acquiring lock context canceled" (Error.ctx c.err)

/-- The `for { select { ... } }` loop of `acquireLock`, started at iteration `i`
at instant `now` (time elapsed since `time.After` was called) with the calls
`tr` issued so far.  System calls take no time, `time.Sleep(d)` takes `d`, and
`timeoutC` is ready from the instant `timeout` on. -/
def acquireLockLoop (l : FileLock) (lock : Flock_t) (env : PollEnv) :
    Nat → Nat → Int → List Sys → Outcome
  | 0, _, now, tr => ⟨Ret.running, tr, now⟩
  | fuel + 1, i, now, tr =>
      let timeoutReady := decide (l.config.timeout ≤ now)
      let ctxReady := l.config.ctx.done now
      if timeoutReady && (!ctxReady || env.pick i) then
        ⟨Ret.returned (some Error.ErrTimeout), tr, now⟩
      else if ctxReady then
        ⟨Ret.returned (some (canceledError l.config.ctx)), tr, now⟩
      else
        -- default: acquire the lock
        let tr1 := tr ++ [Sys.fcntl l.file FcntlCmd.F_SETLK lock]
        match env.attempt i with
        | none => ⟨Ret.returned none, tr1, now⟩
        | some _ =>
            -- sleep for a while for the next retry
            match randomDuration (env.draw i) minWaitDuration maxWaitDuration with
            | none => ⟨Ret.panicked, tr1, now⟩
            | some d => acquireLockLoop l lock env fuel (i + 1) (now + d) (tr1 ++ [Sys.sleep d])

/-- The method `acquireLock`. -/
def acquireLock (l : FileLock) (lock : Flock_t) (env : PollEnv) (fuel : Nat) : Outcome :=
  acquireLockLoop l lock env fuel 0 0 []

/-- Whether a system call is a lock request (`fcntl` with a lock type other than
`F_UNLCK`). -/
def isLockRequest : Sys → Bool
  | Sys.fcntl _ _ lock => decide (lock.Type_ ≠ LockType.F_UNLCK)
  | _ => false

/-- Whether a system call is an `fcntl` call. -/
def isFcntl : Sys → Bool
  | Sys.fcntl _ _ _ => true
  | _ => false

/-- Number of `fcntl` calls in a trace: the lock attempts of a polling call. -/
def attemptCount (tr : List Sys) : Nat := tr.countP isFcntl

/-- Whether a system call closes descriptor `fd`. -/
def isClose (fd : Nat) : Sys → Bool
  | Sys.close fd1 => decide (fd1 = fd)
  | _ => false

/-! ## The blocking strategy `acquireLockWait`

The caller and the goroutine it starts run concurrently.  The model is a
transition system; a run is the list of the steps taken, in the order the
scheduler, the OS, the timer and the context make them happen. -/

/-- Where the calling goroutine is. -/
inductive CallerPc
  | selecting
  | returned (err : Option Error)
  | panicked
  deriving DecidableEq, Repr

/-- Where the background goroutine is: inside the blocking `fcntl`; after
`errC <- ...`, before its `select`; in the `default` case before
`close(destroyC)`; in the `<-destroyC` case before `l.Unlock()`; finished; or
panicked. -/
inductive BgPc
  | blocked
  | sent
  | atDefault
  | atDestroy
  | finished
  | panicked
  deriving DecidableEq, Repr

/-- State shared by the two goroutines of one `acquireLockWait` call. -/
structure WaitState where
  /-- `<-l.config.ctx.Done()` is ready -/
  ctxDone : Bool
  /-- `<-timeoutC` is ready -/
  timerFired : Bool
  /-- content of the buffered channel `errC` -/
  errC : Option (Option Errno)
  /-- number of `close(destroyC)` statements executed -/
  closes : Nat
  caller : CallerPc
  bg : BgPc
  /-- the OS lock is held by this process -/
  held : Bool
  /-- number of calls of `l.Unlock()` made by the goroutine -/
  unlocks : Nat
  trace : List Sys
  deriving DecidableEq, Repr

/-- The steps of a run. -/
inductive Event
  /-- the context is cancelled -/
  | ctxCancel
  /-- the timer of `time.After` fires -/
  | timerFire
  /-- the blocking `fcntl` returns `res` and the goroutine sends it on `errC` -/
  | fcntlReturns (res : Option Errno)
  /-- the caller's `select` takes `case <-l.config.ctx.Done()` -/
  | callerCtxArm
  /-- the caller's `select` takes `case <-timeoutC` -/
  | callerTimeoutArm
  /-- the caller's `select` takes `case err := <-errC` -/
  | callerResultArm
  /-- the goroutine evaluates its `select` -/
  | bgSelect
  /-- the goroutine executes `close(destroyC)` of its `default` case -/
  | bgClose
  /-- the goroutine executes `l.Unlock()`, the OS answering as given -/
  | bgUnlock (unlockRes closeRes removeRes : Option Errno)
  deriving DecidableEq, Repr

/-- The statement `close(destroyC); return err` of the caller: closing a closed
channel panics. -/
def callerAbandon (s : WaitState) (err : Error) : WaitState :=
  if s.closes = 0 then { s with closes := 1, caller := CallerPc.returned (some err) }
  else { s with closes := s.closes + 1, caller := CallerPc.panicked }

/-- One step of the transition system; `none` when the step is not enabled. -/
def step (l : FileLock) (s : WaitState) : Event → Option WaitState
  | Event.ctxCancel =>
      if l.config.ctx.doneAt.isSome then some { s with ctxDone := true } else none
  | Event.timerFire => some { s with timerFired := true }
  | Event.fcntlReturns res =>
      if s.bg = BgPc.blocked then
        some { s with errC := some res, bg := BgPc.sent, held := res.isNone }
      else none
  | Event.callerCtxArm =>
      if s.caller = CallerPc.selecting ∧ s.ctxDone = true then
        some (callerAbandon s (canceledError l.config.ctx))
      else none
  | Event.callerTimeoutArm =>
      if s.caller = CallerPc.selecting ∧ s.timerFired = true then
        some (callerAbandon s Error.ErrTimeout)
      else none
  | Event.callerResultArm =>
      if s.caller = CallerPc.selecting then
        match s.errC with
        | none => none
        | some none => some { s with errC := none, caller := CallerPc.returned none }
        | some (some e) =>
            some { s with
              errC := none,
              caller := CallerPc.returned (some (Error.wrap "acquiring lock" (Error.sys e))) }
      else none
  | Event.bgSelect =>
      if s.bg = BgPc.sent then
        if 0 < s.closes then some { s with bg := BgPc.atDestroy }
        else some { s with bg := BgPc.atDefault }
      else none
  | Event.bgClose =>
      if s.bg = BgPc.atDefault then
        if s.closes = 0 then some { s with closes := 1, bg := BgPc.finished }
        else some { s with closes := s.closes + 1, bg := BgPc.panicked }
      else none
  | Event.bgUnlock unlockRes closeRes removeRes =>
      -- `Unlock` takes `l.mu`, which the caller holds until it has returned
      if s.bg = BgPc.atDestroy ∧ s.caller ≠ CallerPc.selecting ∧ s.caller ≠ CallerPc.panicked then
        some { s with
          bg := BgPc.finished,
          held := s.held && unlockRes.isSome,
          unlocks := s.unlocks + 1,
          trace := s.trace ++ (Unlock l unlockRes closeRes removeRes).2 }
      else none

/-- The steps of a run, one after the other. -/
def run (l : FileLock) : WaitState → List Event → Option WaitState
  | s, [] => some s
  | s, e :: es =>
      match step l s e with
      | none => none
      | some s1 => run l s1 es

/-- The state in which `acquireLockWait` reaches its `select`: the timer is
armed, both channels are made, and the goroutine is inside
`unix.FcntlFlock(l.file.Fd(), unix.F_SETLKW, &lock)` with the exclusive
whole-file request. -/
def waitInit (l : FileLock) : WaitState :=
  { ctxDone := l.config.ctx.done 0,
    timerFired := decide (l.config.timeout ≤ 0),
    errC := none,
    closes := 0,
    caller := CallerPc.selecting,
    bg := BgPc.blocked,
    held := false,
    unlocks := 0,
    trace := [Sys.fcntl l.file FcntlCmd.F_SETLKW (wholeFile LockType.F_WRLCK)] }

/-- The method `acquireLockWait` along the run `sched`. -/
def acquireLockWait (l : FileLock) (sched : List Event) : Option WaitState :=
  run l (waitInit l) sched

/-! ## `RLock` and `WLock` -/

/-- Result of an acquisition: which strategy ran, and what it did. -/
inductive Acquisition
  | polling (o : Outcome)
  | blocking (s : Option WaitState)
  deriving DecidableEq, Repr

/-- The method `RLock`: returns the handle with the options applied and the
acquisition. -/
def RLock (l : FileLock) (opts : List LockOption) (env : PollEnv) (fuel : Nat)
    (_sched : List Event) : FileLock × Acquisition :=
  let l1 := { l with config := applyOpts l.config opts }
  let lock := wholeFile LockType.F_RDLCK
  (l1, Acquisition.polling (acquireLock l1 lock env fuel))

/-- The method `WLock`. -/
def WLock (l : FileLock) (opts : List LockOption) (env : PollEnv) (fuel : Nat)
    (sched : List Event) : FileLock × Acquisition :=
  let l1 := { l with config := applyOpts l.config opts }
  if l1.config.block then
    (l1, Acquisition.blocking (acquireLockWait l1 sched))
  else
    let lock := wholeFile LockType.F_WRLCK
    (l1, Acquisition.polling (acquireLock l1 lock env fuel))

/-- The system calls issued by an acquisition. -/
def Acquisition.trace : Acquisition → List Sys
  | Acquisition.polling o => o.trace
  | Acquisition.blocking (some s) => s.trace
  | Acquisition.blocking none => []

/-! ## Concrete handles and environments used in the evaluations -/

/-- A handle on `/tmp/foo` with descriptor 3, `remove` set, default timeout. -/
def handleRemove : FileLock :=
  { config := { ctx := Context.Background, timeout := defaultLockTimeout,
                block := false, remove := true },
    path := "/tmp/foo", file := 3 }

/-- A handle on `/tmp/foo` with descriptor 3 and a timeout of one second. -/
def handleOneSecond : FileLock :=
  { config := { ctx := Context.Background, timeout := 1 * Second,
                block := false, remove := false },
    path := "/tmp/foo", file := 3 }

/-- An environment in which every lock request is answered `EBADF` and every
draw of the random source is 0. -/
def envBadDescriptor : PollEnv :=
  { attempt := fun _ => some Errno.EBADF, draw := fun _ => 0, pick := fun _ => true }

/-- An `os.OpenFile` that always succeeds with descriptor 3. -/
def openAlways : String → Except Errno Nat := fun _ => Except.ok 3

/-- A handle on `/tmp/foo` with descriptor 3 in blocking mode, whose context is
already cancelled when the call starts, with the default timeout of 30s. -/
def handleCancelled : FileLock :=
  { config := { ctx := { doneAt := some 0, err := CtxErr.Canceled },
                timeout := defaultLockTimeout, block := true, remove := false },
    path := "/tmp/foo", file := 3 }

/-- An environment in which every lock request is answered `EAGAIN` (the lock
is held elsewhere) and every draw of the random source is 0. -/
def envHeldElsewhere : PollEnv :=
  { attempt := fun _ => some Errno.EAGAIN, draw := fun _ => 0, pick := fun _ => true }

/-- Invariant of the blocking strategy while the caller is still at its
`select`: an empty `errC` means the goroutine is still inside `fcntl`, and
then `destroyC` has not been closed. -/
def waitInv (s : WaitState) : Prop :=
  s.caller = CallerPc.selecting →
    (s.errC = none → s.bg = BgPc.blocked) ∧ (s.bg = BgPc.blocked → s.closes = 0)

/-- A handle on `/tmp/foo` with descriptor 3 in blocking mode with a timeout of
one second. -/
def handleBlocking : FileLock :=
  { config := { ctx := Context.Background, timeout := 1 * Second,
                block := true, remove := false },
    path := "/tmp/foo", file := 3 }

/-- Invariant of the blocking strategy about `l.Unlock()`: the goroutine calls it
at most once, and not at all as long as the caller is at its `select` or has
returned nil. -/
def unlockInv (s : WaitState) : Prop :=
  s.unlocks ≤ 1 ∧ (s.unlocks = 1 → s.bg = BgPc.finished)
    ∧ (s.caller = CallerPc.selecting ∨ s.caller = CallerPc.returned none →
        s.unlocks = 0 ∧ s.bg ≠ BgPc.atDestroy
          ∧ (s.bg = BgPc.blocked ∨ s.bg = BgPc.sent → s.closes = 0))

end filelock

namespace comparable

/-! ## `comparable/comparable.go` -/

/-- The interface `Comparable`: the method `CompareTo` of a key, applied to
another key of the same dynamic type (the type assertion `other.(T)` of every
implementation panics on any other). -/
class Comparable (K : Type) where
  CompareTo : K → K → Int

/-- Reduction of an integer to the range of `int` (64 bits, two's complement). -/
def wrapInt (x : Int) : Int := (x + 2 ^ 63) % 2 ^ 64 - 2 ^ 63

/-- The method `Int.CompareTo`; a key of type `Int` is its value, an integer in
the range of `int`.  The subtraction `i - other.(Int)` wraps around. -/
def Int.CompareTo (i other : Int) : Int :=
  let delta := wrapInt (i - other)
  if delta < 0 then -1 else if delta > 0 then 1 else 0

/-- The keys of type `Int`. -/
instance instComparableInt : Comparable Int := ⟨Int.CompareTo⟩

/-- A value of type `Float64`: a NaN, an infinity, or a finite number (the two
zeros are not told apart; no comparison does). -/
inductive Float64 where
  | nan
  | negInf
  | posInf
  | finite (x : Rat)
  deriving DecidableEq, Repr

/-- The subtraction of two `float64` values.  The difference of two finite
numbers is kept exact: rounding it to a `float64`, or to an infinity on
overflow, changes neither its sign nor whether it is zero, which is all that
`CompareTo` reads. -/
def Float64.sub : Float64 → Float64 → Float64
  | Float64.nan, _ => Float64.nan
  | _, Float64.nan => Float64.nan
  | Float64.posInf, Float64.posInf => Float64.nan
  | Float64.negInf, Float64.negInf => Float64.nan
  | Float64.posInf, _ => Float64.posInf
  | Float64.negInf, _ => Float64.negInf
  | Float64.finite _, Float64.posInf => Float64.negInf
  | Float64.finite _, Float64.negInf => Float64.posInf
  | Float64.finite a, Float64.finite b => Float64.finite (a - b)

/-- The comparison `delta < 0` of a `float64`; false on NaN. -/
def Float64.ltZero : Float64 → Bool
  | Float64.negInf => true
  | Float64.finite x => decide (x < 0)
  | _ => false

/-- The comparison `delta > 0` of a `float64`; false on NaN. -/
def Float64.gtZero : Float64 → Bool
  | Float64.posInf => true
  | Float64.finite x => decide (0 < x)
  | _ => false

/-- The method `Float64.CompareTo`. -/
def Float64.CompareTo (f other : Float64) : Int :=
  let delta := Float64.sub f other
  if delta.ltZero then -1 else if delta.gtZero then 1 else 0

/-- The keys of type `Float64`. -/
instance instComparableFloat64 : Comparable Float64 := ⟨Float64.CompareTo⟩

end comparable

namespace algs

/-! ## `backtrack.go` -/

/-- The loop of `accept`: `rest` is `state[i:]` and `N` is `len(state)`; the
queen of row `i` in column `x` rules out column `k` of row `N` when it is in the
same column or on a common diagonal. -/
def acceptLoop (N k : Int) : List Int → Int → Bool
  | [], _ => true
  | x :: rest, i =>
      if x = k ∨ x - k = N - i ∨ k - x = N - i then false
      else acceptLoop N k rest (i + 1)

/-- The function `accept`. -/
def accept (state : List Int) (k : Int) : Bool :=
  acceptLoop state.length k state 0

/-- The function `nQueensBT`; `res` is the slice behind the pointer `res`, and
the value returned is that slice after the call.  The recursion depth is
bounded by the fuel. -/
def nQueensBT : Nat → List Int → Int → List (List Int) → List (List Int)
  | 0, _, _, res => res
  | fuel + 1, state, n, res =>
      if (state.length : Int) = n then res ++ [state]
      else
        (List.range n.toNat).foldl
          (fun (acc : List (List Int)) (i : Nat) =>
            if accept state (i : Int) then nQueensBT fuel (state ++ [(i : Int)]) n acc
            else acc)
          res

/-- The function `nQueens`: the recursion is at most `n + 1` calls deep. -/
def nQueens (n : Int) : List (List Int) :=
  nQueensBT (n.toNat + 1) [] n []

/-- No two queens of the placement threaten each other: the queens of rows
`i < j` are in different columns and on no common diagonal. -/
def NoThreat (sol : List Int) : Prop :=
  ∀ i j : Nat, i < j → j < sol.length →
    sol.getD i 0 ≠ sol.getD j 0 ∧ |sol.getD i 0 - sol.getD j 0| ≠ (j : Int) - (i : Int)

/-- A valid placement of `n` queens: one column of `[0, n)` per row, no two
queens threatening each other. -/
def ValidPlacement (n : Int) (sol : List Int) : Prop :=
  (sol.length : Int) = n ∧ (∀ x ∈ sol, 0 ≤ x ∧ x < n) ∧ NoThreat sol

/-- Strict lexicographic order on column vectors. -/
def lexLt : List Int → List Int → Prop
  | [], [] => False
  | [], _ :: _ => True
  | _ :: _, [] => False
  | a :: as, b :: bs => a < b ∨ (a = b ∧ lexLt as bs)

/-- Sum of `next bit` over the set bits `bit` of `free`, lowest first: the lowest
set bit is `free &&& (free ^^^ (free - 1))`, and `free &&& (free - 1)` clears
it. -/
def countFree (next : Nat → Nat) : Nat → Nat → Nat
  | 0, _ => 0
  | fuel + 1, free =>
      if free = 0 then 0
      else next (free &&& (free ^^^ (free - 1))) + countFree next fuel (free &&& (free - 1))

/-- Number of ways to complete a partial placement on a board of width `w`
(`mask = 2^w - 1`) with `rem` rows left, the placement being given by the set
`cols` of the columns used and the sets `ld`, `rd` of the columns of the next
row that lie on a diagonal of a queen already placed.  Used to count the
results of `nQueensBT` without listing them. -/
def countBT (w mask : Nat) : Nat → Nat → Nat → Nat → Nat
  | 0, _, _, _ => 1
  | rem + 1, cols, ld, rd =>
      countFree
        (fun bit =>
          countBT w mask rem (cols ||| bit) (((ld ||| bit) <<< 1) &&& mask) ((rd ||| bit) >>> 1))
        (w + 1) (mask ^^^ (cols ||| ld ||| rd))

/-- The bit sets `cols`, `ld`, `rd` describe the partial placement `state` on a
board of width `N`. -/
def MaskRep (N : Nat) (state : List Int) (cols ld rd : Nat) : Prop :=
  (∀ x ∈ state, 0 ≤ x ∧ x < (N : Int))
    ∧ (∀ j : Nat, cols.testBit j = true ↔ (j : Int) ∈ state)
    ∧ (∀ j : Nat, ld.testBit j = true ↔
        j < N ∧ ∃ i : Nat, i < state.length
          ∧ state.getD i 0 + ((state.length : Int) - (i : Int)) = (j : Int))
    ∧ (∀ j : Nat, rd.testBit j = true ↔
        ∃ i : Nat, i < state.length
          ∧ state.getD i 0 = (j : Int) + ((state.length : Int) - (i : Int)))

/-! ## `dp.go` -/

/-- The table `dp`: a slice of rows. -/
abbrev Table := List (List Int)

/-- The read `dp[i][j]`; `none` when an index is out of range. -/
def tableGet (dp : Table) (i j : Nat) : Option Int :=
  match dp[i]? with
  | none => none
  | some row => row[j]?

/-- The write `dp[i][j] = v`; `none` when an index is out of range. -/
def tableSet (dp : Table) (i j : Nat) (v : Int) : Option Table :=
  match dp[i]? with
  | none => none
  | some row => if j < row.length then some (dp.set i (row.set j v)) else none

/-- The body of the inner loop of `editDistanceDP` at `(i, j)`. -/
def editStep (s t : List UInt8) (i : Nat) (dp : Table) (j : Nat) : Option Table :=
  match s[i - 1]?, t[j - 1]? with
  | some a, some b =>
      if a = b then
        match tableGet dp (i - 1) (j - 1) with
        | some v => tableSet dp i j v
        | none => none
      else
        match tableGet dp (i - 1) j, tableGet dp (i - 1) (j - 1), tableGet dp i (j - 1) with
        | some x, some y, some z => tableSet dp i j (min x (min y z) + 1)
        | _, _, _ => none
  | _, _ => none

/-- The function `editDistanceDP` on the bytes of `s` and `t`; `none` when an
index is out of range. -/
def editDistanceDP (s t : List UInt8) : Option Int :=
  let dp0 : Table := List.replicate (s.length + 1) (List.replicate (t.length + 1) 0)
  match (List.range' 1 s.length).foldlM (fun dp i => tableSet dp i 0 (i : Int)) dp0 with
  | none => none
  | some dp1 =>
      match (List.range' 1 t.length).foldlM (fun dp j => tableSet dp 0 j (j : Int)) dp1 with
      | none => none
      | some dp2 =>
          match (List.range' 1 s.length).foldlM
              (fun dp i => (List.range' 1 t.length).foldlM (editStep s t i) dp) dp2 with
          | none => none
          | some dp3 => tableGet dp3 s.length t.length

/-- The bytes of a string (its UTF-8 encoding), as Go indexes them. -/
def bytes (s : String) : List UInt8 := s.data.flatMap String.utf8EncodeChar

/-- Row `i + 1` of the recurrence of the doc comment, from row `i`. -/
def levenshteinRow (s t : List UInt8) (prev : Nat → Int) (i : Nat) : Nat → Int
  | 0 => (i : Int) + 1
  | j + 1 =>
      if s[i]? = t[j]? then prev j
      else 1 + min (prev (j + 1)) (min (prev j) (levenshteinRow s t prev i j))

/-- The distance `d(i, j)` between the first `i` bytes of `s` and the first `j`
bytes of `t`, by the recurrence: `d(0, j) = j`, `d(i, 0) = i`,
`d(i, j) = d(i-1, j-1)` when `s[i-1] = t[j-1]` and
`1 + min(d(i-1, j), d(i-1, j-1), d(i, j-1))` otherwise. -/
def levenshteinRec (s t : List UInt8) : Nat → Nat → Int
  | 0 => fun j => (j : Int)
  | i + 1 => levenshteinRow s t (levenshteinRec s t i) i

/-- The table has `m + 1` rows of `n + 1` entries. -/
def TableDims (m n : Nat) (dp : Table) : Prop :=
  dp.length = m + 1 ∧ ∀ row ∈ dp, row.length = n + 1

/-- Invariant of the loops of `editDistanceDP` before the entry `(i, j)` is
written: the table has its dimensions, and the first row, the first column, the
rows before `i` and the entries of row `i` before `j` hold the recurrence. -/
def EditInv (s t : List UInt8) (i j : Nat) (dp : Table) : Prop :=
  TableDims s.length t.length dp
    ∧ ∀ i1 j1, i1 ≤ s.length → j1 ≤ t.length →
        (i1 < i ∨ (i1 = i ∧ j1 < j) ∨ i1 = 0 ∨ j1 = 0) →
        tableGet dp i1 j1 = some (levenshteinRec s t i1 j1)

/-- One single-byte edit of a byte string: the insertion of `b` before position
`pos`, the deletion of the byte at `pos`, the substitution of `b` for the byte at
`pos`. -/
inductive EditOp where
  | insert (pos : Nat) (b : UInt8)
  | delete (pos : Nat)
  | substitute (pos : Nat) (b : UInt8)
  deriving DecidableEq, Repr

/-- The byte string after one edit; `none` when the position is not in the
string. -/
def applyEdit : EditOp → List UInt8 → Option (List UInt8)
  | EditOp.insert pos b, s =>
      if pos ≤ s.length then some (s.take pos ++ b :: s.drop pos) else none
  | EditOp.delete pos, s =>
      if pos < s.length then some (s.take pos ++ s.drop (pos + 1)) else none
  | EditOp.substitute pos b, s =>
      if pos < s.length then some (s.take pos ++ b :: s.drop (pos + 1)) else none

/-- The byte string after a sequence of edits, each applied to the result of the
previous one. -/
def applyEdits : List EditOp → List UInt8 → Option (List UInt8)
  | [], s => some s
  | e :: es, s =>
      match applyEdit e s with
      | some s1 => applyEdits es s1
      | none => none

/-- An alignment of two byte strings read from the left, and the number of edits
it uses: the last bytes are kept when equal, or one is substituted for the
other, or the last byte of the first string is deleted, or the last byte of the
second is inserted. -/
inductive Align : List UInt8 → List UInt8 → Nat → Prop where
  | nil : Align [] [] 0
  | keep (s t : List UInt8) (a : UInt8) (k : Nat) :
      Align s t k → Align (s ++ [a]) (t ++ [a]) k
  | sub (s t : List UInt8) (a b : UInt8) (k : Nat) :
      Align s t k → Align (s ++ [a]) (t ++ [b]) (k + 1)
  | del (s t : List UInt8) (a : UInt8) (k : Nat) :
      Align s t k → Align (s ++ [a]) t (k + 1)
  | ins (s t : List UInt8) (b : UInt8) (k : Nat) :
      Align s t k → Align s (t ++ [b]) (k + 1)

/-- The second byte string is the first after one edit, somewhere in the
string. -/
inductive Edit1 : List UInt8 → List UInt8 → Prop where
  | ins (s : List UInt8) (b : UInt8) : Edit1 s (s ++ [b])
  | del (s : List UInt8) (a : UInt8) : Edit1 (s ++ [a]) s
  | sub (s : List UInt8) (a b : UInt8) : Edit1 (s ++ [a]) (s ++ [b])
  | snoc (s s1 : List UInt8) (c : UInt8) : Edit1 s s1 → Edit1 (s ++ [c]) (s1 ++ [c])

/-! ## `tree.go`

The keys implement `comparable.Comparable`; a tree holds keys of one key type
`K`, and `comparable.Comparable.CompareTo` is the method of that type. -/

/-- A `*TreeNode`: `nil`, or a node with its two subtrees, key, value and the
field `n`. -/
inductive TreeNode (K V : Type) where
  | nil : TreeNode K V
  | node (left right : TreeNode K V) (key : K) (value : V) (n : Int) : TreeNode K V
  deriving DecidableEq, Repr

/-- The struct `BST`. -/
structure BST (K V : Type) where
  root : TreeNode K V
  deriving DecidableEq, Repr

section

variable {K V : Type} [comparable.Comparable K] [LinearOrder K]

/-- The function `NewTreeNode`. -/
def NewTreeNode (key : K) (value : V) : TreeNode K V :=
  TreeNode.node TreeNode.nil TreeNode.nil key value 1

/-- The function `size`. -/
def size : TreeNode K V → Int
  | TreeNode.nil => 0
  | TreeNode.node _ _ _ _ n => n

/-- The function `contains`. -/
def contains : TreeNode K V → K → Bool
  | TreeNode.nil, _ => false
  | TreeNode.node left right k _ _, key =>
      if comparable.Comparable.CompareTo key k < 0 then contains left key
      else if comparable.Comparable.CompareTo key k > 0 then contains right key
      else true

/-- The function `get`; `none` is the nil result. -/
def get : TreeNode K V → K → Option V
  | TreeNode.nil, _ => none
  | TreeNode.node left right k value _, key =>
      if comparable.Comparable.CompareTo key k < 0 then get left key
      else if comparable.Comparable.CompareTo key k > 0 then get right key
      else some value

/-- The function `put`. -/
def put : TreeNode K V → K → V → TreeNode K V
  | TreeNode.nil, key, value => NewTreeNode key value
  | TreeNode.node left right k v _, key, value =>
      if comparable.Comparable.CompareTo key k < 0 then
        let left1 := put left key value
        TreeNode.node left1 right k v (size left1 + size right + 1)
      else if comparable.Comparable.CompareTo key k > 0 then
        let right1 := put right key value
        TreeNode.node left right1 k v (size left + size right1 + 1)
      else
        TreeNode.node left right k value (size left + size right + 1)

/-- The function `deleteMin`; its callers pass a node that is not nil. -/
def deleteMin : TreeNode K V → TreeNode K V
  | TreeNode.nil => TreeNode.nil
  | TreeNode.node TreeNode.nil right _ _ _ => right
  | TreeNode.node (TreeNode.node ll lr lk lv ln) right k v _ =>
      let left1 := deleteMin (TreeNode.node ll lr lk lv ln)
      TreeNode.node left1 right k v (size left1 + size right + 1)

/-- The function `deleteMax`; its callers pass a node that is not nil. -/
def deleteMax : TreeNode K V → TreeNode K V
  | TreeNode.nil => TreeNode.nil
  | TreeNode.node left TreeNode.nil _ _ _ => left
  | TreeNode.node left (TreeNode.node rl rr rk rv rn) k v _ =>
      let right1 := deleteMax (TreeNode.node rl rr rk rv rn)
      TreeNode.node left right1 k v (size left + size right1 + 1)

/-- The function `minTreeNode`; its caller passes a node that is not nil. -/
def minTreeNode : TreeNode K V → TreeNode K V
  | TreeNode.nil => TreeNode.nil
  | TreeNode.node TreeNode.nil right k v n => TreeNode.node TreeNode.nil right k v n
  | TreeNode.node (TreeNode.node ll lr lk lv ln) _ _ _ _ =>
      minTreeNode (TreeNode.node ll lr lk lv ln)

/-- The function `deleteKey`.  In the case of two children the node is replaced
by the minimum node `m` of the right subtree: `m.right` is set to
`deleteMin(t.right)`, `m.left` is left as it is, and `m.n` is recomputed. -/
def deleteKey : TreeNode K V → K → TreeNode K V
  | TreeNode.nil, _ => TreeNode.nil
  | TreeNode.node left right k v _, key =>
      if comparable.Comparable.CompareTo key k < 0 then
        let left1 := deleteKey left key
        TreeNode.node left1 right k v (size left1 + size right + 1)
      else if comparable.Comparable.CompareTo key k > 0 then
        let right1 := deleteKey right key
        TreeNode.node left right1 k v (size left + size right1 + 1)
      else
        match left, right with
        | TreeNode.nil, _ => right
        | _, TreeNode.nil => left
        | _, _ =>
            match minTreeNode right with
            | TreeNode.nil => TreeNode.nil
            | TreeNode.node ml _ mk mv _ =>
                let right1 := deleteMin right
                TreeNode.node ml right1 mk mv (size ml + size right1 + 1)

/-- The function `choose`. -/
def choose : TreeNode K V → Int → TreeNode K V
  | TreeNode.nil, _ => TreeNode.nil
  | TreeNode.node left right k v n, i =>
      if i < size left then choose left i
      else if i > size left then choose right (i - size left - 1)
      else TreeNode.node left right k v n

/-- The function `rank`. -/
def rank : TreeNode K V → K → Int
  | TreeNode.nil, _ => 0
  | TreeNode.node left right k _ _, key =>
      if comparable.Comparable.CompareTo key k < 0 then rank left key
      else if comparable.Comparable.CompareTo key k > 0 then rank right key + size left + 1
      else size left

/-- The method `BST.Size`. -/
def BST.Size (t : BST K V) : Int := size t.root

/-- The method `BST.Contains`. -/
def BST.Contains (t : BST K V) (key : K) : Bool := contains t.root key

/-- The method `BST.Get`. -/
def BST.Get (t : BST K V) (key : K) : Option V := get t.root key

/-- The method `BST.Put`. -/
def BST.Put (t : BST K V) (key : K) (value : V) : BST K V := ⟨put t.root key value⟩

/-- The method `BST.Delete`. -/
def BST.Delete (t : BST K V) (key : K) : BST K V := ⟨deleteKey t.root key⟩

/-- The method `BST.DeleteMin`. -/
def BST.DeleteMin (t : BST K V) : BST K V :=
  match t.root with
  | TreeNode.nil => t
  | root => ⟨deleteMin root⟩

/-- The method `BST.DeleteMax`. -/
def BST.DeleteMax (t : BST K V) : BST K V :=
  match t.root with
  | TreeNode.nil => t
  | root => ⟨deleteMax root⟩

/-- The method `BST.Choose`. -/
def BST.Choose (t : BST K V) (i : Int) : TreeNode K V :=
  let n := t.Size
  if i < 0 ∨ i ≥ n then TreeNode.nil else choose t.root i

/-- The method `BST.Rank`. -/
def BST.Rank (t : BST K V) (key : K) : Int := rank t.root key

/-- The empty tree (the zero value of `BST`). -/
def BST.empty : BST K V := ⟨TreeNode.nil⟩

/-- The keys of a tree, in order (left subtree, node, right subtree). -/
def keys : TreeNode K V → List K
  | TreeNode.nil => []
  | TreeNode.node left right k _ _ => keys left ++ k :: keys right

/-- The number of nodes of a tree. -/
def numNodes : TreeNode K V → Nat
  | TreeNode.nil => 0
  | TreeNode.node left right _ _ _ => numNodes left + numNodes right + 1

/-- Every node's field `n` is the number of nodes of the subtree rooted at it. -/
def CountsOk : TreeNode K V → Prop
  | TreeNode.nil => True
  | TreeNode.node left right _ _ n =>
      CountsOk left ∧ CountsOk right ∧ n = (numNodes left + numNodes right + 1 : Nat)

/-- The keys are ordered: the in-order sequence of keys is strictly increasing. -/
def Ordered (t : TreeNode K V) : Prop := (keys t).Pairwise (fun a b => a < b)

/-- A well-formed binary search tree: ordered keys and correct subtree counts. -/
def WellFormed (t : TreeNode K V) : Prop := Ordered t ∧ CountsOk t

/-- The key of a node, `none` for nil. -/
def nodeKey : TreeNode K V → Option K
  | TreeNode.nil => none
  | TreeNode.node _ _ k _ _ => some k

/-- An operation that changes a tree. -/
inductive TreeOp (K V : Type) where
  | put (key : K) (value : V)
  | delete (key : K)
  | deleteMin
  | deleteMax

/-- Applies an operation. -/
def BST.apply (t : BST K V) : TreeOp K V → BST K V
  | TreeOp.put key value => t.Put key value
  | TreeOp.delete key => t.Delete key
  | TreeOp.deleteMin => t.DeleteMin
  | TreeOp.deleteMax => t.DeleteMax

/-- The tree built from the empty tree by a sequence of operations. -/
def BST.build (ops : List (TreeOp K V)) : BST K V :=
  ops.foldl BST.apply BST.empty

/-- The comparison of `a` with `b` agrees with the order of the keys: it is
negative exactly when `a < b` and positive exactly when `b < a`. -/
def Agrees (a b : K) : Prop :=
  (comparable.Comparable.CompareTo a b < 0 ↔ a < b)
    ∧ (comparable.Comparable.CompareTo a b > 0 ↔ b < a)

/-- The comparison of `a` with `b` is zero exactly when the keys are equal. -/
def ZeroIffEq (a b : K) : Prop :=
  comparable.Comparable.CompareTo a b = 0 ↔ a = b

end

/-- The tree with keys 2, 1, 3 put in this order. -/
def tree213 : BST Int String :=
  ((BST.empty.Put 2 "two").Put 1 "one").Put 3 "three"

/-- The tree with the single key 1. -/
def treeOne : BST Int String := BST.empty.Put 1 "one"

/-- The tree with root key 1 and the least `int` as the key of its left child. -/
def treeMinOne : BST Int String :=
  ⟨TreeNode.node (TreeNode.node TreeNode.nil TreeNode.nil (-9223372036854775808) "min" 1)
    TreeNode.nil 1 "one" 2⟩

/-- The tree after `Put(Float64(1.0), "one")` and `Put(Float64(NaN), "nan")`. -/
def treeOneNaN : BST comparable.Float64 String :=
  (BST.empty.Put (comparable.Float64.finite 1) "one").Put comparable.Float64.nan "nan"

/-! ## `uf.go` -/

/-- The errors of the union-find: `errors.New("n must be positive")`, and
`fmt.Errorf("index %d is not between 0 and %d: %w", p, n-1, ErrIndexOutOfRange)`. -/
inductive UFError where
  | nMustBePositive
  | indexOutOfRange (p : Int) (last : Int)
  deriving DecidableEq, Repr

/-- The struct `UF`.  The entries of `parent` are indices and are kept as
natural numbers; the entries of `rank` are `uint8` values; `count` is an `int`. -/
structure UF where
  parent : List Nat
  rank : List Nat
  count : Int
  deriving DecidableEq, Repr

/-- How a call ended: it returned `val` and the error `err` (`none` is nil)
leaving the structure as `u`; or it panicked on an index out of range; or it is
still running when the fuel of the model is used up. -/
inductive Ret (α : Type) where
  | returned (val : α) (err : Option UFError) (u : UF)
  | panic
  | running
  deriving DecidableEq, Repr

/-- The function `NewUF`. -/
def NewUF (n : Int) : Except UFError UF :=
  if n < 0 then Except.error UFError.nMustBePositive
  else
    Except.ok
      { parent := List.range n.toNat, rank := List.replicate n.toNat 0, count := n }

/-- The method `validate`. -/
def UF.validate (u : UF) (p : Int) : Option UFError :=
  let n : Int := u.parent.length
  if p < 0 ∨ p ≥ n then some (UFError.indexOutOfRange p (n - 1)) else none

/-- The method `Count`. -/
def UF.Count (u : UF) : Int := u.count

/-- The loop of `find`:
`for p != u.parent[p] { u.parent[p] = u.parent[u.parent[p]]; p = u.parent[p] }`.
Returns the root and the slice `parent` after the path halving; an index out of
range panics. -/
def findLoop : Nat → List Nat → Nat → Option (Option (Nat × List Nat))
  | 0, _, _ => none
  | fuel + 1, parent, p =>
      match parent[p]? with
      | none => some none
      | some pp =>
          if p = pp then some (some (p, parent))
          else
            match parent[pp]? with
            | none => some none
            | some gp => findLoop fuel (parent.set p gp) gp

/-- The method `find`. -/
def UF.find (fuel : Nat) (u : UF) (p : Int) : Ret Nat :=
  match u.validate p with
  | some err => Ret.returned 0 (some err) u
  | none =>
      match findLoop fuel u.parent p.toNat with
      | none => Ret.running
      | some none => Ret.panic
      | some (some (root, parent)) => Ret.returned root none { u with parent := parent }

/-- The method `Connected`. -/
def UF.Connected (fuel : Nat) (u : UF) (p q : Int) : Ret Bool :=
  match u.find fuel p with
  | Ret.running => Ret.running
  | Ret.panic => Ret.panic
  | Ret.returned _ (some err) u1 => Ret.returned false (some err) u1
  | Ret.returned rootP none u1 =>
      match u1.find fuel q with
      | Ret.running => Ret.running
      | Ret.panic => Ret.panic
      | Ret.returned _ (some err) u2 => Ret.returned false (some err) u2
      | Ret.returned rootQ none u2 => Ret.returned (decide (rootP = rootQ)) none u2

/-- The method `Union`; the increment of the `uint8` rank wraps at 256. -/
def UF.Union (fuel : Nat) (u : UF) (p q : Int) : Ret Unit :=
  match u.find fuel p with
  | Ret.running => Ret.running
  | Ret.panic => Ret.panic
  | Ret.returned _ (some err) u1 => Ret.returned () (some err) u1
  | Ret.returned rootP none u1 =>
      match u1.find fuel q with
      | Ret.running => Ret.running
      | Ret.panic => Ret.panic
      | Ret.returned _ (some err) u2 => Ret.returned () (some err) u2
      | Ret.returned rootQ none u2 =>
          if rootP = rootQ then Ret.returned () none u2
          else
            match u2.rank[rootP]?, u2.rank[rootQ]? with
            | some rp, some rq =>
                if rootP < u2.parent.length ∧ rootQ < u2.parent.length then
                  if rp < rq then
                    Ret.returned () none
                      { u2 with parent := u2.parent.set rootP rootQ, count := u2.count - 1 }
                  else if rp > rq then
                    Ret.returned () none
                      { u2 with parent := u2.parent.set rootQ rootP, count := u2.count - 1 }
                  else
                    Ret.returned () none
                      { parent := u2.parent.set rootQ rootP,
                        rank := u2.rank.set rootP ((rp + 1) % 256),
                        count := u2.count - 1 }
                else Ret.panic
            | _, _ => Ret.panic

/-- A sequence of `Union` calls, each on the structure the previous one left,
whether it returned nil or an error; `none` when a call panics or runs out of
fuel. -/
def UF.unions (fuel : Nat) : UF → List (Int × Int) → Option UF
  | u, [] => some u
  | u, (p, q) :: rest =>
      match u.Union fuel p q with
      | Ret.returned _ _ u1 => UF.unions fuel u1 rest
      | _ => none

/-- The root of `i`: following the parent links from `i`, without changing
them. -/
def rootFuel : Nat → List Nat → Nat → Nat
  | 0, _, i => i
  | fuel + 1, parent, i =>
      if parent.getD i 0 = i then i else rootFuel fuel parent (parent.getD i 0)

/-- The root of `i` (ranks are below 256 and grow along the parent links, so
256 steps reach it). -/
def UF.root (u : UF) (i : Nat) : Nat := rootFuel 256 u.parent i

/-- The number of connected components: the number of distinct roots of the
elements `0, ..., n-1`, two elements being connected when they have the same
root. -/
def UF.components (u : UF) : Nat :=
  ((Finset.range u.parent.length).image u.root).card

/-- The number of elements of the tree rooted at `r`. -/
def UF.treeSize (u : UF) (r : Nat) : Nat :=
  ((Finset.range u.parent.length).filter (fun i => u.root i = r)).card

/-- The parent links form a forest ordered by rank: the slices have the same
length, every parent is an index, the rank grows strictly from a node to its
parent, and every rank is a `uint8`. -/
def Forest (pa rk : List Nat) : Prop :=
  rk.length = pa.length
    ∧ (∀ i, i < pa.length → pa.getD i 0 < pa.length)
    ∧ (∀ i, i < pa.length → pa.getD i 0 ≠ i → rk.getD i 0 < rk.getD (pa.getD i 0) 0)
    ∧ (∀ i, i < pa.length → rk.getD i 0 < 256)

/-- The number of elements that are their own parent. -/
def UF.numRoots (u : UF) : Nat :=
  ((Finset.range u.parent.length).filter (fun i => u.parent.getD i 0 = i)).card

/-- Invariant of the union-find: the links form a forest ordered by rank, the
number of elements fits an `int`, the tree of a root of rank `k` has at least
`2^k` elements, and `count` is the number of roots. -/
def UF.Inv (u : UF) : Prop :=
  Forest u.parent u.rank
    ∧ u.parent.length < 2 ^ 63
    ∧ (∀ r, r < u.parent.length → u.parent.getD r 0 = r → 2 ^ u.rank.getD r 0 ≤ u.treeSize r)
    ∧ u.count = (u.numRoots : Int)

/-- The calls that build a tree of rank `k` out of the `2^k` singletons
`base, ..., base + 2^k - 1`: build a tree of rank `k-1` on each half, then link
the two roots. -/
def binomialCalls : Nat → Nat → List (Int × Int)
  | 0, _ => []
  | k + 1, base =>
      binomialCalls k base ++ binomialCalls k (base + 2 ^ k)
        ++ [(((base : Nat) : Int), ((base + 2 ^ k : Nat) : Int))]

end algs

namespace graph

/-! ## `graph/digraph.go` -/

/-- Go `error` values of the package: the variable `ErrVertexOutOfRange`,
`fmt.Errorf("number of vertices %d is negative", v)`, and
`fmt.Errorf("vertex %d is not between 0 and %d: %w", v, last, inner)`. -/
inductive Error where
  | ErrVertexOutOfRange
  | negativeVertices (v : Int)
  | vertexNotBetween (v last : Int) (inner : Error)
  deriving DecidableEq, Repr

/-- Go `errors.Is(e, target)` restricted to the error values of this package. -/
def errorsIs : Error → Error → Bool
  | Error.vertexNotBetween v last inner, target =>
      decide (Error.vertexNotBetween v last inner = target) || errorsIs inner target
  | e, target => decide (e = target)

/-- Reduction of an integer to the range of `int` (64 bits, two's complement). -/
def wrapInt (x : Int) : Int := (x + 2 ^ 63) % 2 ^ 64 - 2 ^ 63

/-- The read `l[i]` of a slice; `none` when the index is out of range. -/
def sliceGet {α : Type} (l : List α) (i : Int) : Option α :=
  if i < 0 then none else l[i.toNat]?

/-- The struct `Digraph`. -/
structure Digraph where
  v : Int
  e : Int
  adj : List (List Int)
  indegree : List Int
  deriving DecidableEq, Repr

/-- How a call of `AddEdge` ended: it returned `err` (`none` is nil) leaving the
graph as `g`, or it panicked on an index out of range. -/
inductive Ret where
  | returned (err : Option Error) (g : Digraph)
  | panic
  deriving DecidableEq, Repr

/-- The function `NewDigraph`. -/
def NewDigraph (v : Int) : Except Error Digraph :=
  if v < 0 then Except.error (Error.negativeVertices v)
  else
    Except.ok
      { v := v, e := 0, adj := List.replicate v.toNat [],
        indegree := List.replicate v.toNat 0 }

/-- The method `validateVertex`. -/
def Digraph.validateVertex (g : Digraph) (x : Int) : Option Error :=
  if x < 0 ∨ x ≥ g.v then
    some (Error.vertexNotBetween x (wrapInt (g.v - 1)) Error.ErrVertexOutOfRange)
  else none

/-- The method `AddEdge`. -/
def Digraph.AddEdge (g : Digraph) (v w : Int) : Ret :=
  match g.validateVertex v with
  | some err => Ret.returned (some err) g
  | none =>
      match g.validateVertex w with
      | some err => Ret.returned (some err) g
      | none =>
          match sliceGet g.adj v with
          | none => Ret.panic
          | some row =>
              match sliceGet g.indegree w with
              | none => Ret.panic
              | some d =>
                  Ret.returned none
                    { v := g.v, e := wrapInt (g.e + 1),
                      adj := g.adj.set v.toNat (row ++ [w]),
                      indegree := g.indegree.set w.toNat (wrapInt (d + 1)) }

/-- The method `V`. -/
def Digraph.V (g : Digraph) : Int := g.v

/-- The method `E`. -/
def Digraph.E (g : Digraph) : Int := g.e

/-- A sequence of `AddEdge` calls, each on the graph the previous one left; the
result is the last graph and what each call returned, `none` when a call
panics. -/
def Digraph.addEdges : Digraph → List (Int × Int) → Option (Digraph × List (Option Error))
  | g, [] => some (g, [])
  | g, (v, w) :: rest =>
      match g.AddEdge v w with
      | Ret.panic => none
      | Ret.returned err g1 =>
          match Digraph.addEdges g1 rest with
          | none => none
          | some (g2, errs) => some (g2, err :: errs)

/-- Both endpoints of the call `AddEdge(c.1, c.2)` are vertices of a graph with
`v` vertices. -/
def inRange (v : Int) (c : Int × Int) : Bool :=
  decide (0 ≤ c.1 ∧ c.1 < v ∧ 0 ≤ c.2 ∧ c.2 < v)

/-- The number of calls that returned nil. -/
def nilCount (errs : List (Option Error)) : Nat := (errs.filter Option.isNone).length

/-- Invariant of a digraph: the slices have `v` entries, `e` is the number of
adjacency entries, and `indegree[w]` is the number of occurrences of `w` in the
adjacency lists. -/
def Digraph.Inv (g : Digraph) : Prop :=
  0 ≤ g.v ∧ g.adj.length = g.v.toNat ∧ g.indegree.length = g.v.toNat
    ∧ g.e = (g.adj.flatten.length : Int)
    ∧ ∀ w : Nat, w < g.v.toNat → g.indegree[w]? = some ((g.adj.flatten.count (w : Int) : Nat) : Int)

end graph

/-! ## Theorems -/

namespace filelock

/-- What `Unlock` does once the OS unlock request has succeeded: the
descriptor is closed, the lock file is removed exactly when `remove` is set,
and the result joins the close and remove errors. -/
theorem Unlock_after_released (l : FileLock) (closeRes removeRes : Option Errno) :
    Unlock l none closeRes removeRes =
      if l.config.remove then
        (errorsJoin (closeRes.map Error.sys) (removeRes.map Error.sys),
          [Sys.fcntl l.file FcntlCmd.F_SETLK (wholeFile LockType.F_UNLCK),
           Sys.close l.file, Sys.remove (l.path ++ ".lock")])
      else
        (closeRes.map Error.sys,
          [Sys.fcntl l.file FcntlCmd.F_SETLK (wholeFile LockType.F_UNLCK), Sys.close l.file]) := by
  unfold Unlock
  by_cases h : l.config.remove = true <;> simp [h]

/-- What `Unlock` does when the OS unlock request fails with `e`, whatever the
close and the remove would have answered: it returns the wrapped error at once,
and the only system call issued is the unlock request. -/
theorem Unlock_after_failed_release (l : FileLock) (e : Errno)
    (closeRes removeRes : Option Errno) :
    Unlock l (some e) closeRes removeRes =
      (some (Error.wrap "releasing lock" (Error.sys e)),
        [Sys.fcntl l.file FcntlCmd.F_SETLK (wholeFile LockType.F_UNLCK)]) := by
  rfl

/-- C1 (the code departs from the claim): on the handle `handleRemove`
(`remove` set, descriptor 3), when the OS unlock request fails with `ENOLCK`,
`Unlock` returns only the wrapped unlock error and its only system call is the
unlock request: the descriptor is not closed and the removal of
`/tmp/foo.lock` is not attempted, although both would have succeeded. -/
theorem Unlock_failed_release_skips_close_and_remove :
    Unlock handleRemove (some Errno.ENOLCK) none none =
        (some (Error.wrap "releasing lock" (Error.sys Errno.ENOLCK)),
          [Sys.fcntl 3 FcntlCmd.F_SETLK (wholeFile LockType.F_UNLCK)])
      ∧ Sys.close 3 ∉ (Unlock handleRemove (some Errno.ENOLCK) none none).2
      ∧ Sys.remove "/tmp/foo.lock" ∉ (Unlock handleRemove (some Errno.ENOLCK) none none).2
      ∧ Sys.close 3 ∈ (Unlock handleRemove none none none).2
      ∧ Sys.remove "/tmp/foo.lock" ∈ (Unlock handleRemove none none none).2 := by
  decide

/-- C2 (the code departs from the claim): with a timeout of one second and
every non-blocking lock request answered `EBADF` (not a "would block" error),
the polling strategy does not return that error: it sleeps and retries, makes
five requests, and returns `ErrTimeout` after one second. -/
theorem acquireLock_retries_after_other_os_error :
    acquireLock handleOneSecond (wholeFile LockType.F_WRLCK) envBadDescriptor 6 =
        { ret := Ret.returned (some Error.ErrTimeout),
          trace :=
            [Sys.fcntl 3 FcntlCmd.F_SETLK (wholeFile LockType.F_WRLCK), Sys.sleep 200000000,
             Sys.fcntl 3 FcntlCmd.F_SETLK (wholeFile LockType.F_WRLCK), Sys.sleep 200000000,
             Sys.fcntl 3 FcntlCmd.F_SETLK (wholeFile LockType.F_WRLCK), Sys.sleep 200000000,
             Sys.fcntl 3 FcntlCmd.F_SETLK (wholeFile LockType.F_WRLCK), Sys.sleep 200000000,
             Sys.fcntl 3 FcntlCmd.F_SETLK (wholeFile LockType.F_WRLCK), Sys.sleep 200000000],
          now := 1000000000 }
      ∧ attemptCount
          (acquireLock handleOneSecond (wholeFile LockType.F_WRLCK) envBadDescriptor 6).trace = 5 := by
  decide

/-- C3 (the code departs from the claim): for the absolute path `/tmp/foo/`
(trailing separator), `New` creates and opens `/tmp/foo/foo.lock`, and `Unlock`
with `remove` set on the handle it returned removes `/tmp/foo/.lock`, a
different file: the lock file created by `New` stays on disk. -/
theorem Unlock_removes_other_file_than_New_created :
    IsAbs "/tmp/foo/" = true
      ∧ (New openAlways "/tmp/foo/").2 = [Sys.openFile "/tmp/foo/foo.lock" 0x42 0o600]
      ∧ (∃ l, (New openAlways "/tmp/foo/").1 = Except.ok l
          ∧ (Unlock { l with config := WithRemove l.config } none none none).2 =
              [Sys.fcntl 3 FcntlCmd.F_SETLK (wholeFile LockType.F_UNLCK), Sys.close 3,
               Sys.remove "/tmp/foo/.lock"])
      ∧ Join [Dir "/tmp/foo/", Base "/tmp/foo/" ++ ".lock"] ≠ "/tmp/foo/" ++ ".lock" := by
  refine ⟨by decide, by decide, ⟨_, rfl, by decide⟩, by decide⟩

/-- On the clean path `/tmp/foo` the file `New` opens and the file `Unlock`
removes are the same. -/
theorem lock_file_agrees_on_clean_path :
    Join [Dir "/tmp/foo", Base "/tmp/foo" ++ ".lock"] = "/tmp/foo" ++ ".lock" := by
  decide

/-- C4: for every answer of the OS and every path, `New` on a path that is not
absolute returns `ErrNotAbsolutePath`, no handle, and issues no system call (no
file is created or opened); on an absolute path its result is never
`ErrNotAbsolutePath`. -/
theorem New_ErrNotAbsolutePath_iff_not_absolute (openFile : String → Except Errno Nat)
    (path : String) :
    (IsAbs path = false →
        New openFile path = (Except.error Error.ErrNotAbsolutePath, []))
      ∧ (IsAbs path = true →
        (New openFile path).1 ≠ Except.error Error.ErrNotAbsolutePath
          ∧ (New openFile path).2 =
              [Sys.openFile (Join [Dir path, Base path ++ ".lock"]) (O_CREATE ||| O_RDWR) 0o600]) := by
  constructor
  · intro h
    simp [New, h]
  · intro h
    unfold New
    simp only [h, Bool.not_true, Bool.false_eq_true, if_false]
    cases openFile (Join [Dir path, Base path ++ ".lock"]) <;> simp

/-- C4 at concrete inputs: the relative path `tmp/foo` and the absolute path
`/tmp/foo`. -/
theorem New_ErrNotAbsolutePath_iff_not_absolute_witness :
    New openAlways "tmp/foo" = (Except.error Error.ErrNotAbsolutePath, [])
      ∧ (New openAlways "/tmp/foo").1 ≠ Except.error Error.ErrNotAbsolutePath :=
  ⟨(New_ErrNotAbsolutePath_iff_not_absolute openAlways "tmp/foo").1 (by decide),
   ((New_ErrNotAbsolutePath_iff_not_absolute openAlways "/tmp/foo").2 (by decide)).1⟩

/-! ### `int64` arithmetic and `randomDuration` -/

/-- On the `int64` range `wrap64` is the identity. -/
theorem wrap64_of_range (x : Int) (h1 : minInt64 ≤ x) (h2 : x ≤ maxInt64) : wrap64 x = x := by
  unfold wrap64
  unfold minInt64 at h1
  unfold maxInt64 at h2
  omega

/-- Just above the `int64` range `wrap64` subtracts `2^64`. -/
theorem wrap64_of_above (x : Int) (h1 : maxInt64 < x) (h2 : x < 2 ^ 64) :
    wrap64 x = x - 2 ^ 64 := by
  unfold wrap64
  unfold maxInt64 at h1
  omega

/-- Every value of `[0, n)` is returned by `Int63n(n)` for some draw. -/
theorem Int63n_surjective (n r : Int) (h0 : 0 ≤ r) (h1 : r < n) :
    Int63n r.toNat n = some r := by
  unfold Int63n
  have hn : ¬ (n ≤ 0) := by omega
  rw [if_neg hn, Int.toNat_of_nonneg h0, Int.emod_eq_of_lt h0 h1]

/-- Whatever `randomDuration` returns on `int64` durations `min < max` lies in
`[min, max)`. -/
theorem randomDuration_bounds (draw : Nat) (minDuration maxDuration d : Int)
    (hmin : minInt64 ≤ minDuration) (hmax : maxDuration ≤ maxInt64)
    (hlt : minDuration < maxDuration)
    (h : randomDuration draw minDuration maxDuration = some d) :
    minDuration ≤ d ∧ d < maxDuration := by
  unfold randomDuration Int63n at h
  by_cases hbig : maxDuration - minDuration ≤ maxInt64
  · have hw : wrap64 (maxDuration - minDuration) = maxDuration - minDuration :=
      wrap64_of_range _ (by unfold minInt64; omega) hbig
    rw [hw] at h
    have hpos : ¬ (maxDuration - minDuration ≤ 0) := by omega
    simp only [hpos, if_false] at h
    have hr0 : 0 ≤ (draw : Int) % (maxDuration - minDuration) :=
      Int.emod_nonneg _ (by omega)
    have hr1 : (draw : Int) % (maxDuration - minDuration) < maxDuration - minDuration :=
      Int.emod_lt_of_pos _ (by omega)
    have hw2 : wrap64 (minDuration + (draw : Int) % (maxDuration - minDuration)) =
        minDuration + (draw : Int) % (maxDuration - minDuration) :=
      wrap64_of_range _ (by omega) (by omega)
    rw [hw2] at h
    injection h with h
    omega
  · have hw : wrap64 (maxDuration - minDuration) = maxDuration - minDuration - 2 ^ 64 :=
      wrap64_of_above _ (by omega) (by unfold minInt64 at hmin; unfold maxInt64 at hmax; omega)
    rw [hw] at h
    have hneg : maxDuration - minDuration - 2 ^ 64 ≤ 0 := by
      unfold minInt64 at hmin; unfold maxInt64 at hmax; omega
    rw [if_pos hneg] at h
    simp at h

/-- When `max - min` does not overflow, `randomDuration` returns. -/
theorem randomDuration_returns (draw : Nat) (minDuration maxDuration : Int)
    (hlt : minDuration < maxDuration) (hbig : maxDuration - minDuration ≤ maxInt64) :
    ∃ d, randomDuration draw minDuration maxDuration = some d := by
  unfold randomDuration Int63n
  have hw : wrap64 (maxDuration - minDuration) = maxDuration - minDuration :=
    wrap64_of_range _ (by unfold minInt64; omega) hbig
  rw [hw]
  have hpos : ¬ (maxDuration - minDuration ≤ 0) := by omega
  simp only [hpos, if_false]
  exact ⟨_, rfl⟩

/-- With the package constants the backoff is returned and lies in
`[200ms, 600ms)`. -/
theorem randomDuration_constants (draw : Nat) :
    ∃ d, randomDuration draw minWaitDuration maxWaitDuration = some d
      ∧ minWaitDuration ≤ d ∧ d < maxWaitDuration := by
  obtain ⟨d, hd⟩ := randomDuration_returns draw minWaitDuration maxWaitDuration
    (by decide) (by decide)
  exact ⟨d, hd, randomDuration_bounds draw _ _ d (by decide) (by decide) (by decide) hd⟩

/-- C10: for every draw of the random source and all `int64` durations
`min < max`, every value `randomDuration(min, max)` returns lies in
`[min, max)`, and it does return when `max - min` fits `int64`; with the
package constants the argument passed to `Int63n` is positive (400ms, so the
call does not panic) and the backoff returned is at least 200ms and less than
600ms. -/
theorem randomDuration_in_half_open_interval (draw : Nat) (minDuration maxDuration : Int)
    (hmin : minInt64 ≤ minDuration) (hmax : maxDuration ≤ maxInt64)
    (hlt : minDuration < maxDuration) :
    (∀ d, randomDuration draw minDuration maxDuration = some d →
        minDuration ≤ d ∧ d < maxDuration)
      ∧ (maxDuration - minDuration ≤ maxInt64 →
          ∃ d, randomDuration draw minDuration maxDuration = some d)
      ∧ wrap64 (maxWaitDuration - minWaitDuration) = 400 * Millisecond
      ∧ Int63n draw (wrap64 (maxWaitDuration - minWaitDuration)) ≠ none
      ∧ (∃ d, randomDuration draw minWaitDuration maxWaitDuration = some d
          ∧ 200 * Millisecond ≤ d ∧ d < 600 * Millisecond) := by
  refine ⟨fun d h => randomDuration_bounds draw _ _ d hmin hmax hlt h,
    fun hbig => randomDuration_returns draw _ _ hlt hbig, by decide, ?_,
    randomDuration_constants draw⟩
  have hw : wrap64 (maxWaitDuration - minWaitDuration) = 400000000 := by decide
  rw [hw]
  simp [Int63n]

/-- C10 at the package constants with the draw 123456789012. -/
theorem randomDuration_in_half_open_interval_witness :
    randomDuration 123456789012 minWaitDuration maxWaitDuration = some 456789012
      ∧ minWaitDuration ≤ 456789012 ∧ (456789012 : Int) < maxWaitDuration :=
  ⟨by decide,
   (randomDuration_in_half_open_interval 123456789012 minWaitDuration maxWaitDuration
      (by decide) (by decide) (by decide)).1 456789012 (by decide)⟩

/-! ### The polling loop -/

/-- Appending a lock request and a sleep adds one attempt. -/
theorem attemptCount_append_attempt (tr : List Sys) (fd : Nat) (cmd : FcntlCmd)
    (lock : Flock_t) (d : Int) :
    attemptCount (tr ++ [Sys.fcntl fd cmd lock] ++ [Sys.sleep d]) = attemptCount tr + 1 := by
  simp [attemptCount, List.countP_append, isFcntl]

/-- Appending a lock request adds one attempt. -/
theorem attemptCount_append_fcntl (tr : List Sys) (fd : Nat) (cmd : FcntlCmd)
    (lock : Flock_t) :
    attemptCount (tr ++ [Sys.fcntl fd cmd lock]) = attemptCount tr + 1 := by
  simp [attemptCount, List.countP_append, isFcntl]

/-- An iteration that finds the context cancelled before the deadline returns
the context error and issues no system call. -/
theorem acquireLockLoop_cancelled (l : FileLock) (lock : Flock_t) (env : PollEnv)
    (fuel i : Nat) (now : Int) (tr : List Sys)
    (hd : l.config.ctx.done now = true) (ht : now < l.config.timeout) :
    acquireLockLoop l lock env (fuel + 1) i now tr =
      ⟨Ret.returned (some (canceledError l.config.ctx)), tr, now⟩ := by
  have h1 : decide (l.config.timeout ≤ now) = false := by
    rw [decide_eq_false_iff_not]; omega
  simp [acquireLockLoop, h1, hd]

/-- An iteration before the deadline with a live context makes one lock request;
when the OS refuses it, with whatever error, the loop sleeps and goes on. -/
theorem acquireLockLoop_refused (l : FileLock) (lock : Flock_t) (env : PollEnv)
    (fuel i : Nat) (now d : Int) (tr : List Sys) (e : Errno)
    (hd : l.config.ctx.done now = false) (ht : now < l.config.timeout)
    (he : env.attempt i = some e)
    (hr : randomDuration (env.draw i) minWaitDuration maxWaitDuration = some d) :
    acquireLockLoop l lock env (fuel + 1) i now tr =
      acquireLockLoop l lock env fuel (i + 1) (now + d)
        (tr ++ [Sys.fcntl l.file FcntlCmd.F_SETLK lock] ++ [Sys.sleep d]) := by
  have h1 : decide (l.config.timeout ≤ now) = false := by
    rw [decide_eq_false_iff_not]; omega
  simp [acquireLockLoop, h1, hd, he, hr]

/-- The polling loop returns nothing but nil, `ErrTimeout` or the context
error. -/
theorem acquireLockLoop_results (l : FileLock) (lock : Flock_t) (env : PollEnv) :
    ∀ (fuel i : Nat) (now : Int) (tr : List Sys) (err : Error),
      (acquireLockLoop l lock env fuel i now tr).ret = Ret.returned (some err) →
      err = Error.ErrTimeout ∨ err = canceledError l.config.ctx := by
  intro fuel
  induction fuel with
  | zero => intro i now tr err h; simp [acquireLockLoop] at h
  | succ fuel ih =>
      intro i now tr err h
      rw [acquireLockLoop] at h
      simp only at h
      split at h
      · simp at h; exact Or.inl h.symm
      · split at h
        · simp at h; exact Or.inr h.symm
        · split at h
          · simp at h
          · split at h
            · simp at h
            · exact ih _ _ _ _ h

/-- The loop of a call whose every request is refused and whose context is never
cancelled: started `k` minimal backoffs or less before the deadline with more
than `k` units of fuel, it returns `ErrTimeout`, at or after the deadline and
less than one maximal backoff after it, having slept at least one minimal
backoff per attempt. -/
theorem acquireLockLoop_times_out (l : FileLock) (lock : Flock_t) (env : PollEnv)
    (hctx : l.config.ctx.doneAt = none) (href : ∀ i, env.attempt i ≠ none) :
    ∀ (k fuel i : Nat) (now : Int) (tr : List Sys),
      k < fuel →
      l.config.timeout - now ≤ minWaitDuration * k →
      now < l.config.timeout + maxWaitDuration →
      (attemptCount tr : Int) * minWaitDuration ≤ now →
      (acquireLockLoop l lock env fuel i now tr).ret = Ret.returned (some Error.ErrTimeout)
        ∧ l.config.timeout ≤ (acquireLockLoop l lock env fuel i now tr).now
        ∧ (acquireLockLoop l lock env fuel i now tr).now < l.config.timeout + maxWaitDuration
        ∧ (attemptCount (acquireLockLoop l lock env fuel i now tr).trace : Int) * minWaitDuration
            ≤ (acquireLockLoop l lock env fuel i now tr).now := by
  have hdone : ∀ t, l.config.ctx.done t = false := by
    intro t; simp [Context.done, hctx]
  intro k
  induction k with
  | zero =>
      intro fuel i now tr hf hk hlt hcnt
      obtain ⟨f, rfl⟩ : ∃ f, fuel = f + 1 := ⟨fuel - 1, by omega⟩
      have h1 : decide (l.config.timeout ≤ now) = true := by
        rw [decide_eq_true_iff]; simp at hk; omega
      simp [acquireLockLoop, h1, hdone]
      refine ⟨?_, hlt, hcnt⟩
      simp at hk; omega
  | succ k ih =>
      intro fuel i now tr hf hk hlt hcnt
      obtain ⟨f, rfl⟩ : ∃ f, fuel = f + 1 := ⟨fuel - 1, by omega⟩
      by_cases ht : l.config.timeout ≤ now
      · have h1 : decide (l.config.timeout ≤ now) = true := by
          rw [decide_eq_true_iff]; exact ht
        simp [acquireLockLoop, h1, hdone]
        exact ⟨ht, hlt, hcnt⟩
      · obtain ⟨e, he⟩ : ∃ e, env.attempt i = some e := by
          cases h : env.attempt i with
          | none => exact absurd h (href i)
          | some e => exact ⟨e, rfl⟩
        obtain ⟨d, hd, hd1, hd2⟩ := randomDuration_constants (env.draw i)
        rw [acquireLockLoop_refused l lock env f i now d tr e (hdone now) (by omega) he hd]
        apply ih
        · omega
        · have : minWaitDuration * ((k + 1 : Nat) : Int) = minWaitDuration * (k : Int) + minWaitDuration := by
            push_cast; ring
          rw [this] at hk
          omega
        · omega
        · rw [attemptCount_append_attempt]
          push_cast
          have : ((attemptCount tr : Int) + 1) * minWaitDuration
              = (attemptCount tr : Int) * minWaitDuration + minWaitDuration := by ring
          rw [this]
          omega

/-- The loop returns nil only after a lock request that the OS granted: the
request number `j` was answered with success and is the last system call. -/
theorem acquireLockLoop_nil (l : FileLock) (lock : Flock_t) (env : PollEnv) :
    ∀ (fuel i : Nat) (now : Int) (tr : List Sys),
      attemptCount tr = i →
      (acquireLockLoop l lock env fuel i now tr).ret = Ret.returned none →
      ∃ j, env.attempt j = none
        ∧ attemptCount (acquireLockLoop l lock env fuel i now tr).trace = j + 1
        ∧ (acquireLockLoop l lock env fuel i now tr).trace.getLast? =
            some (Sys.fcntl l.file FcntlCmd.F_SETLK lock) := by
  intro fuel
  induction fuel with
  | zero => intro i now tr _ h; simp [acquireLockLoop] at h
  | succ fuel ih =>
      intro i now tr hi h
      rw [acquireLockLoop] at h ⊢
      simp only at h ⊢
      split at h
      · simp at h
      · split at h
        · simp at h
        · rename_i h1 h2
          rw [if_neg h1, if_neg h2]
          split at h
          · rename_i h3
            simp only [h3]
            exact ⟨i, h3, by rw [attemptCount_append_fcntl, hi], by simp⟩
          · split at h
            · simp at h
            · exact ih _ _ _ (by rw [List.append_assoc] ; simp [attemptCount, List.countP_append, isFcntl]; exact hi) h

/-! ### The blocking strategy -/

/-- The invariant `waitInv` holds when the caller reaches its `select`. -/
theorem waitInv_init (l : FileLock) : waitInv (waitInit l) := by
  intro _
  simp [waitInit]

/-- Every step keeps `waitInv`. -/
theorem waitInv_step (l : FileLock) (s s1 : WaitState) (e : Event)
    (h : step l s e = some s1) (hi : waitInv s) : waitInv s1 := by
  unfold waitInv at hi ⊢
  cases e with
  | ctxCancel =>
      simp only [step] at h
      split at h
      · injection h with h; subst h; simpa using hi
      · simp at h
  | timerFire =>
      simp only [step] at h
      injection h with h; subst h; simpa using hi
  | fcntlReturns res =>
      simp only [step] at h
      split at h
      · injection h with h; subst h; simp
      · simp at h
  | callerCtxArm =>
      simp only [step] at h
      split at h
      · injection h with h; subst h
        unfold callerAbandon
        split <;> simp
      · simp at h
  | callerTimeoutArm =>
      simp only [step] at h
      split at h
      · injection h with h; subst h
        unfold callerAbandon
        split <;> simp
      · simp at h
  | callerResultArm =>
      simp only [step] at h
      split at h
      · split at h
        · simp at h
        · injection h with h; subst h; simp
        · injection h with h; subst h; simp
      · simp at h
  | bgSelect =>
      simp only [step] at h
      split at h
      · rename_i hb
        split at h <;>
        · injection h with h; subst h
          intro hc
          have := hi hc
          simp [hb] at this ⊢
          exact this
      · simp at h
  | bgClose =>
      simp only [step] at h
      split at h
      · rename_i hb
        split at h <;>
        · injection h with h; subst h
          intro hc
          have := hi hc
          simp [hb] at this ⊢
          exact this
      · simp at h
  | bgUnlock u c r =>
      simp only [step] at h
      split at h
      · rename_i hb
        injection h with h; subst h
        intro hc
        exact absurd hc hb.2.1
      · simp at h

/-- Every run keeps `waitInv`. -/
theorem waitInv_run (l : FileLock) :
    ∀ (sched : List Event) (s s1 : WaitState), run l s sched = some s1 → waitInv s → waitInv s1 := by
  intro sched
  induction sched with
  | nil => intro s s1 h hi; simp [run] at h; subst h; exact hi
  | cons e es ih =>
      intro s s1 h hi
      simp only [run] at h
      split at h
      · simp at h
      · rename_i s2 hs
        exact ih s2 s1 h (waitInv_step l s s2 e hs hi)

/-- No step taken while the timer has not fired makes the caller return
`ErrTimeout`. -/
theorem step_no_timeout_before_deadline (l : FileLock) (s s1 : WaitState) (e : Event)
    (hc : s.caller = CallerPc.selecting) (ht : s.timerFired = false)
    (h : step l s e = some s1) :
    s1.caller ≠ CallerPc.returned (some Error.ErrTimeout) := by
  cases e with
  | ctxCancel =>
      simp only [step] at h
      split at h
      · injection h with h; subst h; simp [hc]
      · simp at h
  | timerFire =>
      simp only [step] at h
      injection h with h; subst h; simp [hc]
  | fcntlReturns res =>
      simp only [step] at h
      split at h
      · injection h with h; subst h; simp [hc]
      · simp at h
  | callerCtxArm =>
      simp only [step] at h
      split at h
      · injection h with h; subst h
        unfold callerAbandon
        split <;> simp [canceledError]
      · simp at h
  | callerTimeoutArm =>
      simp [step, hc, ht] at h
  | callerResultArm =>
      simp only [step] at h
      split at h
      · split at h
        · simp at h
        · injection h with h; subst h; simp
        · injection h with h; subst h; simp
      · rename_i hn; exact absurd hc hn
  | bgSelect =>
      simp only [step] at h
      split at h
      · split at h <;>
        · injection h with h; subst h; simp [hc]
      · simp at h
  | bgClose =>
      simp only [step] at h
      split at h
      · split at h <;>
        · injection h with h; subst h; simp [hc]
      · simp at h
  | bgUnlock u c r =>
      simp only [step] at h
      split at h
      · injection h with h; subst h; simp [hc]
      · simp at h

/-! ### Cancellation before the deadline -/

/-- C5 (amended): if the context is already cancelled when the wait is
evaluated and the deadline has not elapsed, the polling loop returns the
context error (wrapping `ctx.Err()`) and issues no system call in that
iteration; the blocking strategy takes no step that returns `ErrTimeout`, and
as long as the background request has not delivered its result its only
enabled caller step is the context case, which returns the context error. -/
theorem cancelled_before_deadline (l : FileLock) :
    (∀ (lock : Flock_t) (env : PollEnv) (fuel i : Nat) (now : Int) (tr : List Sys),
        l.config.ctx.done now = true → now < l.config.timeout →
        acquireLockLoop l lock env (fuel + 1) i now tr =
          ⟨Ret.returned (some (Error.wrap "acquiring lock context canceled"
              (Error.ctx l.config.ctx.err))), tr, now⟩)
      ∧ (∀ (sched : List Event) (s : WaitState),
          acquireLockWait l sched = some s → s.caller = CallerPc.selecting →
          s.ctxDone = true → s.timerFired = false →
          (∀ e s1, step l s e = some s1 →
              s1.caller ≠ CallerPc.returned (some Error.ErrTimeout))
            ∧ (s.errC = none →
                step l s Event.callerCtxArm =
                    some { s with
                      closes := 1,
                      caller := CallerPc.returned (some (Error.wrap
                        "acquiring lock context canceled" (Error.ctx l.config.ctx.err))) }
                  ∧ step l s Event.callerTimeoutArm = none
                  ∧ step l s Event.callerResultArm = none)) := by
  constructor
  · intro lock env fuel i now tr hd ht
    exact acquireLockLoop_cancelled l lock env fuel i now tr hd ht
  · intro sched s hrun hc hctx ht
    refine ⟨fun e s1 h => step_no_timeout_before_deadline l s s1 e hc ht h, ?_⟩
    intro herr
    have hinv : waitInv s := waitInv_run l sched _ s hrun (waitInv_init l)
    have hb := (hinv hc).1 herr
    have hz := (hinv hc).2 hb
    refine ⟨?_, ?_, ?_⟩
    · simp [step, hc, hctx, callerAbandon, hz, canceledError]
    · simp [step, ht]
    · simp [step, hc, herr]

/-- C5 (amended) at concrete inputs: the handle `handleCancelled`, polled from
instant 0, and the same handle at the start of a blocking wait. -/
theorem cancelled_before_deadline_witness :
    acquireLockLoop handleCancelled (wholeFile LockType.F_RDLCK) envHeldElsewhere 1 0 0 [] =
        ⟨Ret.returned (some (Error.wrap "acquiring lock context canceled"
          (Error.ctx CtxErr.Canceled))), [], 0⟩
      ∧ step handleCancelled (waitInit handleCancelled) Event.callerTimeoutArm = none :=
  ⟨(cancelled_before_deadline handleCancelled).1 (wholeFile LockType.F_RDLCK)
      envHeldElsewhere 0 0 0 [] (by decide) (by decide),
   (((cancelled_before_deadline handleCancelled).2 [] (waitInit handleCancelled) rfl rfl
      (by decide) (by decide)).2 rfl).2.1⟩

/-- C5 (the claim as stated fails for the blocking strategy): on
`handleCancelled` the context is cancelled when the wait starts and the 30s
timer has not fired; when the blocking request is granted before the caller's
`select` is evaluated, the `select` finds both the context case and the result
case ready, and taking the result case the call returns nil, not the context
error. -/
theorem result_case_taken_despite_cancellation :
    (acquireLockWait handleCancelled [Event.fcntlReturns none]).map
        (fun s => (s.ctxDone, s.timerFired, s.caller)) =
        some (true, false, CallerPc.selecting)
      ∧ (acquireLockWait handleCancelled [Event.fcntlReturns none, Event.callerResultArm]).map
          (fun s => s.caller) = some (CallerPc.returned none)
      ∧ CallerPc.returned none ≠
          CallerPc.returned (some (canceledError handleCancelled.config.ctx)) := by
  decide

/-! ### Termination of polling -/

/-- C6: when every non-blocking request is refused and the context is never
cancelled, the polling acquisition with timeout `T > 0`, given fuel for
`T / 200ms + 2` iterations or more, returns `ErrTimeout`, not before `T` and
less than `T + 600ms` after the call started, after finitely many attempts (at
most one per 200ms elapsed), and with no amount of fuel does it return nil;
and in any environment it returns nil only if some lock request was answered
with success, that request being its last system call. -/
theorem acquireLock_refused_times_out (l : FileLock) (lock : Flock_t) (env : PollEnv)
    (hT : 0 < l.config.timeout) (hctx : l.config.ctx.doneAt = none)
    (href : ∀ i, env.attempt i ≠ none) (fuel : Nat)
    (hfuel : (l.config.timeout / minWaitDuration).toNat + 2 ≤ fuel) :
    (acquireLock l lock env fuel).ret = Ret.returned (some Error.ErrTimeout)
      ∧ l.config.timeout ≤ (acquireLock l lock env fuel).now
      ∧ (acquireLock l lock env fuel).now < l.config.timeout + maxWaitDuration
      ∧ (attemptCount (acquireLock l lock env fuel).trace : Int) * minWaitDuration
          ≤ (acquireLock l lock env fuel).now
      ∧ (∀ fuel1, (acquireLock l lock env fuel1).ret ≠ Ret.returned none)
      ∧ (∀ (env1 : PollEnv) (fuel1 : Nat),
          (acquireLock l lock env1 fuel1).ret = Ret.returned none →
          ∃ j, env1.attempt j = none
            ∧ attemptCount (acquireLock l lock env1 fuel1).trace = j + 1
            ∧ (acquireLock l lock env1 fuel1).trace.getLast? =
                some (Sys.fcntl l.file FcntlCmd.F_SETLK lock)) := by
  have hconv : ∀ (env1 : PollEnv) (fuel1 : Nat),
      (acquireLock l lock env1 fuel1).ret = Ret.returned none →
      ∃ j, env1.attempt j = none
        ∧ attemptCount (acquireLock l lock env1 fuel1).trace = j + 1
        ∧ (acquireLock l lock env1 fuel1).trace.getLast? =
            some (Sys.fcntl l.file FcntlCmd.F_SETLK lock) := by
    intro env1 fuel1 h
    exact acquireLockLoop_nil l lock env1 fuel1 0 0 [] rfl h
  have hmain := acquireLockLoop_times_out l lock env hctx href
    ((l.config.timeout / minWaitDuration).toNat + 1) fuel 0 0 [] (by omega)
    (by
      have h0 : 0 ≤ l.config.timeout / minWaitDuration :=
        Int.ediv_nonneg (le_of_lt hT) (by decide)
      have h1 : l.config.timeout < (l.config.timeout / minWaitDuration + 1) * minWaitDuration :=
        Int.lt_ediv_add_one_mul_self _ (by decide)
      push_cast
      rw [Int.toNat_of_nonneg h0]
      rw [mul_comm] at h1
      omega)
    (by have : (0 : Int) < maxWaitDuration := by decide
        omega)
    (by simp [attemptCount])
  refine ⟨hmain.1, hmain.2.1, hmain.2.2.1, hmain.2.2.2, ?_, hconv⟩
  intro fuel1 h
  obtain ⟨j, hj, _⟩ := hconv env fuel1 h
  exact href j hj

/-- C6 at a concrete input: a timeout of one second, every request answered
`EAGAIN`, fuel 7. -/
theorem acquireLock_refused_times_out_witness :
    (acquireLock handleOneSecond (wholeFile LockType.F_WRLCK) envHeldElsewhere 7).ret =
        Ret.returned (some Error.ErrTimeout)
      ∧ (acquireLock handleOneSecond (wholeFile LockType.F_WRLCK) envHeldElsewhere 7).now <
          1 * Second + maxWaitDuration :=
  have h := acquireLock_refused_times_out handleOneSecond (wholeFile LockType.F_WRLCK)
    envHeldElsewhere (by decide) rfl (fun i => by simp [envHeldElsewhere]) 7 (by decide)
  ⟨h.1, h.2.2.1⟩

/-! ### Shape of the traces -/

/-- Every system call of the polling loop is the non-blocking request for
`lock` on the handle's descriptor, or a sleep. -/
theorem acquireLockLoop_trace (l : FileLock) (lock : Flock_t) (env : PollEnv) :
    ∀ (fuel i : Nat) (now : Int) (tr : List Sys) (c : Sys),
      c ∈ (acquireLockLoop l lock env fuel i now tr).trace →
      c ∈ tr ∨ c = Sys.fcntl l.file FcntlCmd.F_SETLK lock ∨ ∃ d, c = Sys.sleep d := by
  intro fuel
  induction fuel with
  | zero => intro i now tr c h; simp [acquireLockLoop] at h; exact Or.inl h
  | succ fuel ih =>
      intro i now tr c h
      rw [acquireLockLoop] at h
      simp only at h
      split at h
      · exact Or.inl h
      · split at h
        · exact Or.inl h
        · split at h
          · simp at h
            rcases h with h | h
            · exact Or.inl h
            · exact Or.inr (Or.inl h)
          · split at h
            · simp at h
              rcases h with h | h
              · exact Or.inl h
              · exact Or.inr (Or.inl h)
            · rename_i d _
              rcases ih _ _ _ _ h with h | h | h
              · simp at h
                rcases h with h | h | h
                · exact Or.inl h
                · exact Or.inr (Or.inl h)
                · exact Or.inr (Or.inr ⟨d, h⟩)
              · exact Or.inr (Or.inl h)
              · exact Or.inr (Or.inr h)

/-- A polling call that returns an error was refused at every request it
made. -/
theorem acquireLockLoop_error_refused (l : FileLock) (lock : Flock_t) (env : PollEnv) :
    ∀ (fuel i : Nat) (now : Int) (tr : List Sys) (err : Error),
      attemptCount tr = i → (∀ j, j < i → env.attempt j ≠ none) →
      (acquireLockLoop l lock env fuel i now tr).ret = Ret.returned (some err) →
      ∀ j, j < attemptCount (acquireLockLoop l lock env fuel i now tr).trace →
        env.attempt j ≠ none := by
  intro fuel
  induction fuel with
  | zero => intro i now tr err _ _ h; simp [acquireLockLoop] at h
  | succ fuel ih =>
      intro i now tr err hi hall h
      rw [acquireLockLoop] at h ⊢
      simp only at h ⊢
      split at h
      · rename_i h1
        rw [if_pos h1]
        intro j hj
        exact hall j (by simpa [hi] using hj)
      · split at h
        · rename_i h1 h2
          rw [if_neg h1, if_pos h2]
          intro j hj
          exact hall j (by simpa [hi] using hj)
        · rename_i h1 h2
          rw [if_neg h1, if_neg h2]
          split at h
          · simp at h
          · rename_i e h3
            split at h
            · simp at h
            · refine ih _ _ _ _ (by rw [attemptCount_append_attempt, hi]) ?_ h
              intro j hj
              by_cases hji : j < i
              · exact hall j hji
              · have : j = i := by omega
                subst this
                rw [h3]; simp

/-- No system call of `Unlock` is a lock request. -/
theorem Unlock_trace_no_lock_request (l : FileLock) (u cr rr : Option Errno) (c : Sys)
    (h : c ∈ (Unlock l u cr rr).2) : isLockRequest c = false := by
  unfold Unlock at h
  cases u with
  | some e =>
      simp at h
      subst h
      simp [isLockRequest, wholeFile]
  | none =>
      simp only at h
      split at h
      · simp at h
        rcases h with h | h | h <;> subst h <;> simp [isLockRequest, wholeFile]
      · simp at h
        rcases h with h | h <;> subst h <;> simp [isLockRequest, wholeFile]

/-- A step of the blocking strategy adds no lock request to the trace. -/
theorem step_trace (l : FileLock) (s s1 : WaitState) (e : Event)
    (h : step l s e = some s1) (c : Sys) (hc : c ∈ s1.trace) :
    c ∈ s.trace ∨ isLockRequest c = false := by
  cases e with
  | ctxCancel =>
      simp only [step] at h
      split at h
      · injection h with h; subst h; exact Or.inl hc
      · simp at h
  | timerFire =>
      simp only [step] at h
      injection h with h; subst h; exact Or.inl hc
  | fcntlReturns res =>
      simp only [step] at h
      split at h
      · injection h with h; subst h; exact Or.inl hc
      · simp at h
  | callerCtxArm =>
      simp only [step] at h
      split at h
      · injection h with h; subst h
        unfold callerAbandon at hc
        split at hc <;> exact Or.inl hc
      · simp at h
  | callerTimeoutArm =>
      simp only [step] at h
      split at h
      · injection h with h; subst h
        unfold callerAbandon at hc
        split at hc <;> exact Or.inl hc
      · simp at h
  | callerResultArm =>
      simp only [step] at h
      split at h
      · split at h
        · simp at h
        · injection h with h; subst h; exact Or.inl hc
        · injection h with h; subst h; exact Or.inl hc
      · simp at h
  | bgSelect =>
      simp only [step] at h
      split at h
      · split at h <;>
        · injection h with h; subst h; exact Or.inl hc
      · simp at h
  | bgClose =>
      simp only [step] at h
      split at h
      · split at h <;>
        · injection h with h; subst h; exact Or.inl hc
      · simp at h
  | bgUnlock u cr rr =>
      simp only [step] at h
      split at h
      · injection h with h; subst h
        simp only [List.mem_append] at hc
        rcases hc with hc | hc
        · exact Or.inl hc
        · exact Or.inr (Unlock_trace_no_lock_request l u cr rr c hc)
      · simp at h

/-- A run of the blocking strategy adds no lock request to the trace. -/
theorem run_trace (l : FileLock) :
    ∀ (sched : List Event) (s s1 : WaitState), run l s sched = some s1 →
      ∀ c, c ∈ s1.trace → c ∈ s.trace ∨ isLockRequest c = false := by
  intro sched
  induction sched with
  | nil => intro s s1 h c hc; simp [run] at h; subst h; exact Or.inl hc
  | cons e es ih =>
      intro s s1 h c hc
      simp only [run] at h
      split at h
      · simp at h
      · rename_i s2 hs
        rcases ih s2 s1 h c hc with h2 | h2
        · exact step_trace l s s2 e hs c h2
        · exact Or.inr h2

/-! ### After a failed acquisition -/

/-- A polling acquisition that returns an error leaves the handle as it was:
it never closes the descriptor (its system calls are lock requests and sleeps),
and every request it made was refused, so no lock is held. -/
theorem acquireLock_error_keeps_handle (l : FileLock) (lock : Flock_t) (env : PollEnv)
    (fuel : Nat) (err : Error)
    (h : (acquireLock l lock env fuel).ret = Ret.returned (some err)) :
    (∀ c ∈ (acquireLock l lock env fuel).trace, isClose l.file c = false)
      ∧ (∀ j, j < attemptCount (acquireLock l lock env fuel).trace → env.attempt j ≠ none) := by
  constructor
  · intro c hc
    rcases acquireLockLoop_trace l lock env fuel 0 0 [] c hc with h1 | h1 | ⟨d, h1⟩
    · simp at h1
    · subst h1; rfl
    · subst h1; rfl
  · exact acquireLockLoop_error_refused l lock env fuel 0 0 [] err rfl
      (fun j hj => absurd hj (Nat.not_lt_zero j)) h

/-- C7 (the code departs from the claim): `WLock(WithBlock())` on a handle with
a timeout of one second.  The timer fires first and the call returns
`ErrTimeout`, having issued only the blocking request; the descriptor is open.
When the OS later grants the pending request, the goroutine started by the
failed call finds `destroyC` closed and runs `l.Unlock()`, which releases the
lock and closes descriptor 3: the handle is left with a closed descriptor. -/
theorem failed_blocking_wait_closes_descriptor_later :
    (WLock handleOneSecond [WithBlock] envHeldElsewhere 0
        [Event.timerFire, Event.callerTimeoutArm]).2 =
        Acquisition.blocking (some
          { ctxDone := false, timerFired := true, errC := none, closes := 1,
            caller := CallerPc.returned (some Error.ErrTimeout), bg := BgPc.blocked,
            held := false, unlocks := 0,
            trace := [Sys.fcntl 3 FcntlCmd.F_SETLKW (wholeFile LockType.F_WRLCK)] })
      ∧ (WLock handleOneSecond [WithBlock] envHeldElsewhere 0
          [Event.timerFire, Event.callerTimeoutArm, Event.fcntlReturns none, Event.bgSelect,
           Event.bgUnlock none none none]).2 =
          Acquisition.blocking (some
            { ctxDone := false, timerFired := true, errC := some none, closes := 1,
              caller := CallerPc.returned (some Error.ErrTimeout), bg := BgPc.finished,
              held := false, unlocks := 1,
              trace := [Sys.fcntl 3 FcntlCmd.F_SETLKW (wholeFile LockType.F_WRLCK),
                        Sys.fcntl 3 FcntlCmd.F_SETLK (wholeFile LockType.F_UNLCK),
                        Sys.close 3] }) := by
  decide

/-! ### Strategy selection -/

/-- C8: for every handle, options, environment and run, `RLock` applies its
options and runs the polling strategy with the shared whole-file request, all
its `fcntl` calls being `F_SETLK` with `F_RDLCK`, `Start` 0 and `Len` 0, also
when `block` is set; `WLock` runs the blocking strategy when `block` is set
after its options are applied, its only lock request being `F_SETLKW` with
`F_WRLCK`, and otherwise the polling strategy with the exclusive whole-file
request, all its `fcntl` calls being `F_SETLK` with `F_WRLCK`, `Start` 0,
`Len` 0. -/
theorem lock_strategy_selection (l : FileLock) (opts : List LockOption) (env : PollEnv)
    (fuel : Nat) (sched : List Event) :
    RLock l opts env fuel sched =
        ({ l with config := applyOpts l.config opts },
          Acquisition.polling
            (acquireLock { l with config := applyOpts l.config opts }
              ⟨LockType.F_RDLCK, 0, 0, 0⟩ env fuel))
      ∧ (∀ c ∈ (RLock l opts env fuel sched).2.trace, isFcntl c = true →
          c = Sys.fcntl l.file FcntlCmd.F_SETLK ⟨LockType.F_RDLCK, 0, 0, 0⟩)
      ∧ ((applyOpts l.config opts).block = true →
          WLock l opts env fuel sched =
              ({ l with config := applyOpts l.config opts },
                Acquisition.blocking
                  (acquireLockWait { l with config := applyOpts l.config opts } sched))
            ∧ ∀ c ∈ (WLock l opts env fuel sched).2.trace, isLockRequest c = true →
                c = Sys.fcntl l.file FcntlCmd.F_SETLKW ⟨LockType.F_WRLCK, 0, 0, 0⟩)
      ∧ ((applyOpts l.config opts).block = false →
          WLock l opts env fuel sched =
              ({ l with config := applyOpts l.config opts },
                Acquisition.polling
                  (acquireLock { l with config := applyOpts l.config opts }
                    ⟨LockType.F_WRLCK, 0, 0, 0⟩ env fuel))
            ∧ ∀ c ∈ (WLock l opts env fuel sched).2.trace, isFcntl c = true →
                c = Sys.fcntl l.file FcntlCmd.F_SETLK ⟨LockType.F_WRLCK, 0, 0, 0⟩) := by
  have hpoll : ∀ (l1 : FileLock) (lock : Flock_t) (c : Sys),
      c ∈ (acquireLock l1 lock env fuel).trace → isFcntl c = true →
      c = Sys.fcntl l1.file FcntlCmd.F_SETLK lock := by
    intro l1 lock c hc hf
    rcases acquireLockLoop_trace l1 lock env fuel 0 0 [] c hc with h1 | h1 | ⟨d, h1⟩
    · simp at h1
    · exact h1
    · subst h1; simp [isFcntl] at hf
  refine ⟨rfl, ?_, ?_, ?_⟩
  · intro c hc hf
    exact hpoll { l with config := applyOpts l.config opts } _ c hc hf
  · intro hb
    have hw : WLock l opts env fuel sched =
        ({ l with config := applyOpts l.config opts },
          Acquisition.blocking
            (acquireLockWait { l with config := applyOpts l.config opts } sched)) := by
      simp [WLock, hb]
    refine ⟨hw, ?_⟩
    rw [hw]
    intro c hc hreq
    simp only [Acquisition.trace] at hc
    cases hrun : acquireLockWait { l with config := applyOpts l.config opts } sched with
    | none => rw [hrun] at hc; simp [Acquisition.trace] at hc
    | some s1 =>
        rw [hrun] at hc
        simp only [Acquisition.trace] at hc
        rcases run_trace _ sched _ s1 hrun c hc with h1 | h1
        · simpa [waitInit, wholeFile] using h1
        · rw [h1] at hreq; simp at hreq
  · intro hb
    have hw : WLock l opts env fuel sched =
        ({ l with config := applyOpts l.config opts },
          Acquisition.polling
            (acquireLock { l with config := applyOpts l.config opts }
              ⟨LockType.F_WRLCK, 0, 0, 0⟩ env fuel)) := by
      simp [WLock, hb, wholeFile]
    refine ⟨hw, ?_⟩
    rw [hw]
    intro c hc hf
    exact hpoll { l with config := applyOpts l.config opts } _ c hc hf

/-- C8 at concrete inputs: `RLock(WithBlock())` polls, `WLock(WithBlock())` on a
handle created without `block` takes the blocking strategy, and `WLock()` on
that handle polls. -/
theorem lock_strategy_selection_witness :
    (RLock handleOneSecond [WithBlock] envHeldElsewhere 7 []).2 =
        Acquisition.polling
          (acquireLock { handleOneSecond with config := applyOpts handleOneSecond.config [WithBlock] }
            ⟨LockType.F_RDLCK, 0, 0, 0⟩ envHeldElsewhere 7)
      ∧ (WLock handleOneSecond [WithBlock] envHeldElsewhere 7 []).2 =
          Acquisition.blocking
            (acquireLockWait
              { handleOneSecond with config := applyOpts handleOneSecond.config [WithBlock] } [])
      ∧ (WLock handleOneSecond [] envHeldElsewhere 7 []).2 =
          Acquisition.polling
            (acquireLock { handleOneSecond with config := applyOpts handleOneSecond.config [] }
              ⟨LockType.F_WRLCK, 0, 0, 0⟩ envHeldElsewhere 7) :=
  ⟨congrArg Prod.snd (lock_strategy_selection handleOneSecond [WithBlock] envHeldElsewhere 7 []).1,
   congrArg Prod.snd
     ((lock_strategy_selection handleOneSecond [WithBlock] envHeldElsewhere 7 []).2.2.1 rfl).1,
   congrArg Prod.snd
     ((lock_strategy_selection handleOneSecond [] envHeldElsewhere 7 []).2.2.2 rfl).1⟩

/-! ### The coordination channel -/

/-- C9 (the code departs from the claim): `WLock(WithBlock())` with a context
that is already cancelled, on a free lock.  The blocking request is granted at
once; the goroutine sends the result, finds `destroyC` open, takes `default`.
In the first run it closes `destroyC` and the caller, whose `select` finds both
the context case and the result case ready, takes the context case and closes
`destroyC` a second time: the caller panics.  In the second run the caller
closes `destroyC` between the goroutine's `select` and its `close(destroyC)`:
the goroutine panics.  In both the lock is held and `Unlock` was never
called. -/
theorem destroyC_closed_twice :
    (WLock handleCancelled [] envHeldElsewhere 0
        [Event.fcntlReturns none, Event.bgSelect, Event.bgClose, Event.callerCtxArm]).2 =
        Acquisition.blocking (some
          { ctxDone := true, timerFired := false, errC := some none, closes := 2,
            caller := CallerPc.panicked, bg := BgPc.finished,
            held := true, unlocks := 0,
            trace := [Sys.fcntl 3 FcntlCmd.F_SETLKW (wholeFile LockType.F_WRLCK)] })
      ∧ (WLock handleCancelled [] envHeldElsewhere 0
          [Event.fcntlReturns none, Event.bgSelect, Event.callerCtxArm, Event.bgClose]).2 =
          Acquisition.blocking (some
            { ctxDone := true, timerFired := false, errC := some none, closes := 2,
              caller := CallerPc.returned (some (canceledError handleCancelled.config.ctx)),
              bg := BgPc.panicked,
              held := true, unlocks := 0,
              trace := [Sys.fcntl 3 FcntlCmd.F_SETLKW (wholeFile LockType.F_WRLCK)] }) := by
  decide

/-- The invariant `unlockInv` holds when the caller reaches its `select`. -/
theorem unlockInv_init (l : FileLock) : unlockInv (waitInit l) := by
  simp [unlockInv, waitInit]

/-- Every step keeps `unlockInv`. -/
theorem unlockInv_step (l : FileLock) (s s1 : WaitState) (e : Event)
    (h : step l s e = some s1) (hi : unlockInv s) : unlockInv s1 := by
  unfold unlockInv at hi ⊢
  obtain ⟨h1, h2, h3⟩ := hi
  cases e with
  | ctxCancel =>
      simp only [step] at h
      split at h
      · injection h with h; subst h; exact ⟨h1, h2, h3⟩
      · simp at h
  | timerFire =>
      simp only [step] at h
      injection h with h; subst h; exact ⟨h1, h2, h3⟩
  | fcntlReturns res =>
      simp only [step] at h
      split at h
      · rename_i hb
        injection h with h; subst h
        simp only [hb] at h2 h3
        refine ⟨h1, fun hu => absurd (h2 hu) (by simp), fun hc => ?_⟩
        have := h3 hc
        simp at this ⊢
        exact this
      · simp at h
  | callerCtxArm =>
      simp only [step] at h
      split at h
      · injection h with h; subst h
        unfold callerAbandon
        split <;> simp [h1] <;> exact h2
      · simp at h
  | callerTimeoutArm =>
      simp only [step] at h
      split at h
      · injection h with h; subst h
        unfold callerAbandon
        split <;> simp [h1] <;> exact h2
      · simp at h
  | callerResultArm =>
      simp only [step] at h
      split at h
      · rename_i hc
        have := h3 (Or.inl hc)
        split at h
        · simp at h
        · injection h with h; subst h; simp [h1]; exact ⟨h2, this⟩
        · injection h with h; subst h; simp [h1]; exact h2
      · simp at h
  | bgSelect =>
      simp only [step] at h
      split at h
      · rename_i hb
        have hnf : s.unlocks ≠ 1 := fun hu => by
          have := h2 hu
          rw [hb] at this
          simp at this
        split at h
        · rename_i hpos
          injection h with h; subst h
          refine ⟨h1, fun hu => absurd hu hnf, fun hc => ?_⟩
          have := (h3 hc).2.2 (Or.inr hb)
          omega
        · injection h with h; subst h
          refine ⟨h1, fun hu => absurd hu hnf, fun hc => ?_⟩
          exact ⟨(h3 hc).1, by simp, by simp⟩
      · simp at h
  | bgClose =>
      simp only [step] at h
      split at h
      · rename_i hb
        have hnf : s.unlocks ≠ 1 := fun hu => by
          have := h2 hu
          rw [hb] at this
          simp at this
        split at h <;>
        · injection h with h; subst h
          refine ⟨h1, fun hu => absurd hu hnf, fun hc => ?_⟩
          exact ⟨(h3 hc).1, by simp, by simp⟩
      · simp at h
  | bgUnlock u c r =>
      simp only [step] at h
      split at h
      · rename_i hb
        injection h with h; subst h
        have hnf : s.unlocks ≠ 1 := fun hu => by
          have := h2 hu
          rw [hb.1] at this
          simp at this
        have hz : s.unlocks = 0 := by omega
        refine ⟨by simp [hz], fun _ => rfl, fun hc => ?_⟩
        exact absurd hb.1 (h3 hc).2.1
      · simp at h

/-- Every run keeps `unlockInv`. -/
theorem unlockInv_run (l : FileLock) :
    ∀ (sched : List Event) (s s1 : WaitState),
      run l s sched = some s1 → unlockInv s → unlockInv s1 := by
  intro sched
  induction sched with
  | nil => intro s s1 h hi; simp [run] at h; subst h; exact hi
  | cons e es ih =>
      intro s s1 h hi
      simp only [run] at h
      split at h
      · simp at h
      · rename_i s2 hs
        exact ih s2 s1 h (unlockInv_step l s s2 e hs hi)

/-- In every run of the blocking strategy the goroutine calls `l.Unlock()` at
most once, and never when the caller has returned nil. -/
theorem goroutine_unlocks_at_most_once (l : FileLock) (sched : List Event) (s : WaitState)
    (h : acquireLockWait l sched = some s) :
    s.unlocks ≤ 1 ∧ (s.caller = CallerPc.returned none → s.unlocks = 0) := by
  have hi := unlockInv_run l sched _ s h (unlockInv_init l)
  exact ⟨hi.1, fun hc => (hi.2.2 (Or.inr hc)).1⟩

end filelock

namespace algs

/-- What the loop of `accept` computes. -/
theorem acceptLoop_eq_true (N k : Int) :
    ∀ (rest : List Int) (i0 : Int),
      acceptLoop N k rest i0 = true ↔
        ∀ j : Nat, j < rest.length →
          rest.getD j 0 ≠ k ∧ rest.getD j 0 - k ≠ N - (i0 + j) ∧ k - rest.getD j 0 ≠ N - (i0 + j) := by
  intro rest
  induction rest with
  | nil => intro i0; simp [acceptLoop]
  | cons x rest ih =>
      intro i0
      simp only [acceptLoop]
      constructor
      · intro h
        split at h
        · simp at h
        · rename_i hx
          rw [ih] at h
          intro j hj
          cases j with
          | zero =>
              simp only [List.getD_cons_zero, Nat.cast_zero, add_zero]
              exact ⟨fun h1 => hx (Or.inl h1), fun h1 => hx (Or.inr (Or.inl h1)),
                fun h1 => hx (Or.inr (Or.inr h1))⟩
          | succ j =>
              have := h j (by simpa using hj)
              simp only [List.getD_cons_succ]
              push_cast
              have e : i0 + ((j : Int) + 1) = i0 + 1 + j := by ring
              rw [e]
              exact this
      · intro h
        have h0 := h 0 (by simp)
        simp only [List.getD_cons_zero, Nat.cast_zero, add_zero] at h0
        have hx : ¬ (x = k ∨ x - k = N - i0 ∨ k - x = N - i0) := by
          rintro (h1 | h1 | h1)
          · exact h0.1 h1
          · exact h0.2.1 h1
          · exact h0.2.2 h1
        rw [if_neg hx, ih]
        intro j hj
        have := h (j + 1) (by simpa using hj)
        simp only [List.getD_cons_succ] at this
        push_cast at this
        have e : i0 + ((j : Int) + 1) = i0 + 1 + j := by ring
        rw [e] at this
        exact this

/-- What `accept` computes: column `k` of the next row is not threatened by
any queen of `state`. -/
theorem accept_eq_true (state : List Int) (k : Int) :
    accept state k = true ↔
      ∀ i : Nat, i < state.length →
        state.getD i 0 ≠ k ∧ |state.getD i 0 - k| ≠ (state.length : Int) - (i : Int) := by
  unfold accept
  rw [acceptLoop_eq_true]
  constructor
  · intro h i hi
    obtain ⟨h1, h2, h3⟩ := h i hi
    refine ⟨h1, ?_⟩
    intro habs
    rcases abs_cases (state.getD i 0 - k) with ⟨e, _⟩ | ⟨e, _⟩
    · rw [e] at habs; apply h2; omega
    · rw [e] at habs; apply h3; omega
  · intro h i hi
    obtain ⟨h1, h2⟩ := h i hi
    have hpos : (0 : Int) < (state.length : Int) - (i : Int) := by omega
    refine ⟨h1, ?_, ?_⟩
    · intro e
      apply h2
      rw [show state.getD i 0 - k = (state.length : Int) - (i : Int) by omega]
      exact abs_of_pos hpos
    · intro e
      apply h2
      rw [show state.getD i 0 - k = -((state.length : Int) - (i : Int)) by omega, abs_neg]
      exact abs_of_pos hpos

/-- Appending a queen keeps the placement free of threats exactly when `accept`
says so. -/
theorem noThreat_append_iff (state : List Int) (k : Int) :
    NoThreat (state ++ [k]) ↔ NoThreat state ∧ accept state k = true := by
  rw [accept_eq_true]
  constructor
  · intro h
    constructor
    · intro i j hij hj
      have := h i j hij (by simp; omega)
      rw [List.getD_append _ _ _ _ (by omega), List.getD_append _ _ _ _ hj] at this
      exact this
    · intro i hi
      have := h i state.length hi (by simp)
      rw [List.getD_append _ _ _ _ hi, List.getD_append_right _ _ _ _ (le_refl _)] at this
      simpa using this
  · rintro ⟨h1, h2⟩ i j hij hj
    simp only [List.length_append, List.length_singleton] at hj
    by_cases hjl : j < state.length
    · rw [List.getD_append _ _ _ _ (by omega), List.getD_append _ _ _ _ hjl]
      exact h1 i j hij hjl
    · have hje : j = state.length := by omega
      subst hje
      rw [List.getD_append _ _ _ _ hij, List.getD_append_right _ _ _ _ (le_refl _)]
      simpa using h2 i hij

/-- A placement without threats has no threats among its first rows. -/
theorem noThreat_of_append (a b : List Int) (h : NoThreat (a ++ b)) : NoThreat a := by
  intro i j hij hj
  have := h i j hij (by simp; omega)
  rw [List.getD_append _ _ _ _ (by omega), List.getD_append _ _ _ _ hj] at this
  exact this

/-- A fold whose step appends to the accumulator is a `flatMap`. -/
theorem foldl_append_eq_flatMap {α β : Type} (f : List β → α → List β)
    (hf : ∀ acc i, f acc i = acc ++ f [] i) :
    ∀ (l : List α) (res : List β), l.foldl f res = res ++ l.flatMap (f []) := by
  intro l
  induction l with
  | nil => intro res; simp
  | cons i l ih =>
      intro res
      rw [List.foldl_cons, ih, hf res i, List.flatMap_cons, List.append_assoc]

/-- The search only appends to the results recorded so far. -/
theorem nQueensBT_append (n : Int) :
    ∀ (fuel : Nat) (state : List Int) (res : List (List Int)),
      nQueensBT fuel state n res = res ++ nQueensBT fuel state n [] := by
  intro fuel
  induction fuel with
  | zero => intro state res; simp [nQueensBT]
  | succ fuel ih =>
      intro state res
      simp only [nQueensBT]
      split
      · simp
      · have hf : ∀ (acc : List (List Int)) (i : Nat),
            (fun (acc : List (List Int)) (i : Nat) =>
              if accept state (i : Int) then nQueensBT fuel (state ++ [(i : Int)]) n acc
              else acc) acc i =
            acc ++ (fun (acc : List (List Int)) (i : Nat) =>
              if accept state (i : Int) then nQueensBT fuel (state ++ [(i : Int)]) n acc
              else acc) [] i := by
          intro acc i
          simp only
          split
          · exact ih _ _
          · simp
        rw [foldl_append_eq_flatMap _ hf, foldl_append_eq_flatMap _ hf (List.range n.toNat) []]
        simp

/-- The search from a partial placement, unfolded once: a complete placement
is recorded; otherwise the columns `0, 1, ..., n-1` are tried in order and the
results of the accepted ones follow each other. -/
theorem nQueensBT_succ (n : Int) (fuel : Nat) (state : List Int) :
    nQueensBT (fuel + 1) state n [] =
      if (state.length : Int) = n then [state]
      else (List.range n.toNat).flatMap (fun i =>
        if accept state (i : Int) then nQueensBT fuel (state ++ [(i : Int)]) n [] else []) := by
  simp only [nQueensBT]
  split
  · simp
  · have hf : ∀ (acc : List (List Int)) (i : Nat),
        (fun (acc : List (List Int)) (i : Nat) =>
          if accept state (i : Int) then nQueensBT fuel (state ++ [(i : Int)]) n acc
          else acc) acc i =
        acc ++ (fun (acc : List (List Int)) (i : Nat) =>
          if accept state (i : Int) then nQueensBT fuel (state ++ [(i : Int)]) n acc
          else acc) [] i := by
      intro acc i
      simp only
      split
      · exact nQueensBT_append n _ _ _
      · simp
    rw [foldl_append_eq_flatMap _ hf]
    simp

/-- Every recorded placement extends the partial placement searched from. -/
theorem nQueensBT_isPrefix (n : Int) :
    ∀ (fuel : Nat) (state sol : List Int), sol ∈ nQueensBT fuel state n [] → state <+: sol := by
  intro fuel
  induction fuel with
  | zero => intro state sol h; simp [nQueensBT] at h
  | succ fuel ih =>
      intro state sol h
      rw [nQueensBT_succ] at h
      split at h
      · simp at h; subst h; exact List.prefix_refl _
      · rw [List.mem_flatMap] at h
        obtain ⟨i, _, hi⟩ := h
        split at hi
        · exact (List.prefix_append state [(i : Int)]).trans (ih _ _ hi)
        · simp at hi

/-- The placements recorded from a partial placement without threats, with
enough fuel, are exactly the valid placements that extend it. -/
theorem mem_nQueensBT (n : Int) (hn : 0 ≤ n) :
    ∀ (fuel : Nat) (state sol : List Int),
      state.length ≤ n.toNat → n.toNat - state.length < fuel →
      (∀ x ∈ state, 0 ≤ x ∧ x < n) → NoThreat state →
      (sol ∈ nQueensBT fuel state n [] ↔ state <+: sol ∧ ValidPlacement n sol) := by
  intro fuel
  induction fuel with
  | zero => intro state sol _ hf; omega
  | succ fuel ih =>
      intro state sol hlen hfuel hrange hsafe
      rw [nQueensBT_succ]
      by_cases hfull : (state.length : Int) = n
      · rw [if_pos hfull]
        simp only [List.mem_singleton]
        constructor
        · intro h; subst h
          exact ⟨List.prefix_refl _, hfull, hrange, hsafe⟩
        · rintro ⟨hp, hv⟩
          have : sol.length = state.length := by
            have := hv.1; omega
          exact (List.IsPrefix.eq_of_length hp this.symm).symm
      · rw [if_neg hfull, List.mem_flatMap]
        have hlt : state.length < n.toNat := by omega
        constructor
        · rintro ⟨i, hi, hmem⟩
          rw [List.mem_range] at hi
          split at hmem
          · rename_i hacc
            have hih := (ih (state ++ [(i : Int)]) sol (by simp; omega) (by simp; omega)
              (by
                intro x hx
                rw [List.mem_append] at hx
                rcases hx with hx | hx
                · exact hrange x hx
                · simp at hx; subst hx; omega)
              ((noThreat_append_iff state i).2 ⟨hsafe, hacc⟩)).1 hmem
            exact ⟨(List.prefix_append state [(i : Int)]).trans hih.1, hih.2⟩
          · simp at hmem
        · rintro ⟨⟨rest, hrest⟩, hv⟩
          have hsl : sol.length = n.toNat := by have := hv.1; omega
          cases rest with
          | nil =>
              rw [List.append_nil] at hrest
              subst hrest
              omega
          | cons x rest =>
              have hx : 0 ≤ x ∧ x < n := hv.2.1 x (by rw [← hrest]; simp)
              have hsol : sol = (state ++ [x]) ++ rest := by rw [← hrest]; simp
              have hsafe2 : NoThreat (state ++ [x]) := by
                apply noThreat_of_append _ rest
                rw [← hsol]; exact hv.2.2
              refine ⟨x.toNat, by rw [List.mem_range]; omega, ?_⟩
              have hcast : ((x.toNat : Nat) : Int) = x := Int.toNat_of_nonneg hx.1
              rw [hcast, if_pos ((noThreat_append_iff state x).1 hsafe2).2]
              apply (ih (state ++ [x]) sol (by simp; omega) (by simp; omega)
                (by
                  intro y hy
                  rw [List.mem_append] at hy
                  rcases hy with hy | hy
                  · exact hrange y hy
                  · simp at hy; subst hy; exact hx)
                hsafe2).2
              exact ⟨⟨rest, hsol.symm⟩, hv⟩

/-- A common beginning does not matter for the lexicographic order. -/
theorem lexLt_append_left (p a b : List Int) : lexLt (p ++ a) (p ++ b) ↔ lexLt a b := by
  induction p with
  | nil => simp
  | cons x p ih => simp [lexLt, ih]

/-- The lexicographic order is irreflexive. -/
theorem lexLt_irrefl (a : List Int) : ¬ lexLt a a := by
  induction a with
  | nil => simp [lexLt]
  | cons x a ih => simp [lexLt, ih]

/-- Blocks that are sorted and follow each other in increasing order form a
sorted list. -/
theorem pairwise_flatMap_blocks (g : Nat → List (List Int))
    (hg : ∀ i, (g i).Pairwise lexLt)
    (hcross : ∀ i j, i < j → ∀ a ∈ g i, ∀ b ∈ g j, lexLt a b) :
    ∀ l : List Nat, l.Pairwise (fun a b => a < b) → (l.flatMap g).Pairwise lexLt := by
  intro l
  induction l with
  | nil => intro _; simp
  | cons i l ih =>
      intro hl
      rw [List.pairwise_cons] at hl
      rw [List.flatMap_cons, List.pairwise_append]
      refine ⟨hg i, ih hl.2, ?_⟩
      intro a ha b hb
      rw [List.mem_flatMap] at hb
      obtain ⟨j, hj, hbj⟩ := hb
      exact hcross i j (hl.1 j hj) a ha b hbj

/-- The placements recorded by the search are in strictly increasing
lexicographic order. -/
theorem nQueensBT_sorted (n : Int) :
    ∀ (fuel : Nat) (state : List Int), (nQueensBT fuel state n []).Pairwise lexLt := by
  intro fuel
  induction fuel with
  | zero => intro state; simp [nQueensBT]
  | succ fuel ih =>
      intro state
      rw [nQueensBT_succ]
      split
      · simp
      · apply pairwise_flatMap_blocks
        · intro i
          split
          · exact ih _
          · simp
        · intro i j hij a ha b hb
          split at ha
          · split at hb
            · obtain ⟨ra, hra⟩ := nQueensBT_isPrefix n fuel _ a ha
              obtain ⟨rb, hrb⟩ := nQueensBT_isPrefix n fuel _ b hb
              rw [← hra, ← hrb, List.append_assoc, List.append_assoc, lexLt_append_left]
              simp only [List.singleton_append, lexLt]
              left
              exact_mod_cast hij
            · simp at hb
          · simp at ha
        · exact List.pairwise_lt_range n.toNat

/-- For a negative size nothing is searched. -/
theorem nQueens_neg (n : Int) (hn : n < 0) : nQueens n = [] := by
  have h0 : n.toNat = 0 := by omega
  have h1 : ¬ ((([] : List Int).length : Int) = n) := by simp; omega
  simp [nQueens, nQueensBT, h0]
  omega

/-- The results of `nQueens` are exactly the valid placements. -/
theorem mem_nQueens (n : Int) (sol : List Int) :
    sol ∈ nQueens n ↔ ValidPlacement n sol := by
  by_cases hn : 0 ≤ n
  · unfold nQueens
    rw [mem_nQueensBT n hn (n.toNat + 1) [] sol (by simp) (by simp) (by simp)
      (by intro i j _ hj; simp at hj)]
    simp
  · rw [nQueens_neg n (by omega)]
    simp only [List.not_mem_nil, false_iff]
    intro hv
    have := hv.1
    omega

/-- C11 (the code departs from the claim): `nQueens(0)` returns a list of length
1, holding the empty placement: with `n = 0` the first call of `nQueensBT` finds
`len(state) == n` and records the empty board. -/
theorem nQueens_zero_has_one_element :
    nQueens 0 = [[]] ∧ (nQueens 0).length = 1 := by
  decide

/-- C12: for every `n`, every element of `nQueens(n)` has length `n`, its
entries are columns of `[0, n)`, and for rows `i < j` the queens are in
different columns and on no common diagonal. -/
theorem nQueens_sound (n : Int) (sol : List Int) (h : sol ∈ nQueens n) :
    (sol.length : Int) = n
      ∧ (∀ x ∈ sol, 0 ≤ x ∧ x < n)
      ∧ (∀ i j : Nat, i < j → j < sol.length →
          sol.getD i 0 ≠ sol.getD j 0
            ∧ |sol.getD i 0 - sol.getD j 0| ≠ (j : Int) - (i : Int)) :=
  (mem_nQueens n sol).1 h

/-- C12 at a concrete input: the first placement found on the board of size 4. -/
theorem nQueens_sound_witness :
    (([1, 3, 0, 2] : List Int).length : Int) = 4
      ∧ (∀ x ∈ ([1, 3, 0, 2] : List Int), 0 ≤ x ∧ x < 4)
      ∧ (∀ i j : Nat, i < j → j < ([1, 3, 0, 2] : List Int).length →
          ([1, 3, 0, 2] : List Int).getD i 0 ≠ ([1, 3, 0, 2] : List Int).getD j 0
            ∧ |([1, 3, 0, 2] : List Int).getD i 0 - ([1, 3, 0, 2] : List Int).getD j 0|
                ≠ (j : Int) - (i : Int)) :=
  nQueens_sound 4 [1, 3, 0, 2] (by decide)

/-! ### Counting the placements with bit sets -/


theorem testBit_of_split (j m i : Nat) :
    (2 ^ j * (2 * m + 1)).testBit i = if i < j then false else (2 * m + 1).testBit (i - j) := by
  have := Nat.testBit_mul_pow_two_add (2 * m + 1) (Nat.two_pow_pos j) i
  simpa using this

theorem testBit_of_split_pred (j m i : Nat) :
    (2 ^ j * (2 * m + 1) - 1).testBit i = if i < j then true else (2 * m).testBit (i - j) := by
  have hp : 0 < 2 ^ j := Nat.two_pow_pos j
  have e : 2 ^ j * (2 * m + 1) - 1 = 2 ^ j * (2 * m) + (2 ^ j - 1) := by
    rw [Nat.mul_add, Nat.mul_one]; omega
  rw [e, Nat.testBit_mul_pow_two_add (2 * m) (by omega : 2 ^ j - 1 < 2 ^ j) i]
  by_cases h : i < j
  · simp [h, Nat.testBit_two_pow_sub_one]
  · simp [h]

theorem testBit_odd_even (m t : Nat) :
    (2 * m + 1).testBit t = if t = 0 then true else (2 * m).testBit t := by
  cases t with
  | zero => simp [Nat.testBit_zero]; omega
  | succ t =>
      simp only [Nat.testBit_succ]
      have h1 : (2 * m + 1) / 2 = m := by omega
      have h2 : (2 * m) / 2 = m := by omega
      simp [h1, h2]

theorem testBit_even_zero (m : Nat) : (2 * m).testBit 0 = false := by
  simp [Nat.testBit_zero]

/-- Splitting off the lowest set bit. -/
theorem exists_lowest_bit (x : Nat) (hx : x ≠ 0) :
    ∃ j m, x = 2 ^ j * (2 * m + 1) := by
  obtain ⟨i0, hi0⟩ := Nat.ne_zero_implies_bit_true hx
  induction x using Nat.strong_induction_on generalizing i0 with
  | _ x ih =>
    by_cases hodd : x % 2 = 1
    · exact ⟨0, x / 2, by omega⟩
    · have hx2 : x / 2 ≠ 0 := by omega
      have hlt : x / 2 < x := by omega
      obtain ⟨i1, hi1⟩ := Nat.ne_zero_implies_bit_true hx2
      obtain ⟨j, m, hjm⟩ := ih (x / 2) hlt hx2 i1 hi1
      refine ⟨j + 1, m, ?_⟩
      have : x = 2 * (x / 2) := by omega
      rw [this, hjm, pow_succ]
      ring

theorem lowbit_spec (x : Nat) (hx : x ≠ 0) :
    ∃ j, x.testBit j = true ∧ (∀ i, i < j → x.testBit i = false)
      ∧ x &&& (x ^^^ (x - 1)) = 2 ^ j
      ∧ ∀ i, (x &&& (x - 1)).testBit i = (x.testBit i && decide (i ≠ j)) := by
  obtain ⟨j, m, rfl⟩ := exists_lowest_bit x hx
  refine ⟨j, ?_, ?_, ?_, ?_⟩
  · rw [testBit_of_split]; simp [Nat.testBit_zero]; omega
  · intro i hi
    rw [testBit_of_split]; simp [hi]
  · apply Nat.eq_of_testBit_eq
    intro i
    rw [Nat.testBit_and, Nat.testBit_xor, testBit_of_split, testBit_of_split_pred,
      Nat.testBit_two_pow]
    by_cases h1 : i < j
    · have : ¬ j = i := by omega
      simp [h1, this]
    · by_cases h2 : i = j
      · subst h2
        simp [testBit_even_zero, Nat.testBit_zero]; omega
      · have h3 : ¬ j = i := fun h => h2 h.symm
        have h4 : i - j ≠ 0 := by omega
        rw [testBit_odd_even]
        simp [h1, h3, h4]
  · intro i
    rw [Nat.testBit_and, testBit_of_split, testBit_of_split_pred]
    by_cases h1 : i < j
    · simp [h1]
    · by_cases h2 : i = j
      · subst h2
        simp [testBit_even_zero]
      · have h4 : i - j ≠ 0 := by omega
        rw [testBit_odd_even]
        simp [h1, h2, h4]


/-- The loop over the set bits adds up `next` over the set bits. -/
theorem countFree_eq_sum (next : Nat → Nat) (N : Nat) :
    ∀ (fuel free t : Nat), (∀ i, free.testBit i = true → t ≤ i ∧ i < N) → N < fuel + t →
      countFree next fuel free =
        ∑ i in Finset.range N, if free.testBit i = true then next (2 ^ i) else 0 := by
  intro fuel
  induction fuel with
  | zero =>
      intro free t hbits hf
      simp only [countFree]
      symm
      apply Finset.sum_eq_zero
      intro i hi
      rw [Finset.mem_range] at hi
      have : ¬ free.testBit i = true := fun h => by
        have := hbits i h; omega
      simp [this]
  | succ fuel ih =>
      intro free t hbits hf
      simp only [countFree]
      by_cases h0 : free = 0
      · subst h0
        simp
      · rw [if_neg h0]
        obtain ⟨j, hj, hlow, hbit, hclear⟩ := lowbit_spec free h0
        have hjN := hbits j hj
        rw [hbit, ih (free &&& (free - 1)) (j + 1)
          (by
            intro i hi
            rw [hclear] at hi
            simp only [Bool.and_eq_true, decide_eq_true_eq] at hi
            have h1 := hbits i hi.1
            have h2 : ¬ i < j := fun h => by
              have := hlow i h; rw [hi.1] at this; simp at this
            omega)
          (by omega)]
        have hsplit : ∀ i ∈ Finset.range N,
            (if free.testBit i = true then next (2 ^ i) else 0) =
              (if j = i then next (2 ^ j) else 0)
                + (if (free &&& (free - 1)).testBit i = true then next (2 ^ i) else 0) := by
          intro i _
          rw [hclear]
          by_cases hij : j = i
          · subst hij; simp [hj]
          · have : i ≠ j := fun h => hij h.symm
            simp [hij, this]
        rw [Finset.sum_congr rfl hsplit, Finset.sum_add_distrib, Finset.sum_ite_eq]
        simp [hjN.2]

/-- Membership in a list through `getD`. -/
theorem mem_iff_getD (l : List Int) (x : Int) :
    x ∈ l ↔ ∃ i : Nat, i < l.length ∧ l.getD i 0 = x := by
  constructor
  · intro h
    obtain ⟨i, hi, hx⟩ := List.getElem_of_mem h
    exact ⟨i, hi, by rw [List.getD_eq_getElem _ _ hi]; exact hx⟩
  · rintro ⟨i, hi, hx⟩
    rw [List.getD_eq_getElem _ _ hi] at hx
    rw [← hx]
    exact List.getElem_mem hi

/-- The free columns of the next row, read off the bit sets, are the columns
`accept` accepts. -/
theorem maskRep_free (N : Nat) (state : List Int) (cols ld rd : Nat)
    (h : MaskRep N state cols ld rd) (k : Nat) :
    ((2 ^ N - 1) ^^^ (cols ||| ld ||| rd)).testBit k = (decide (k < N) && accept state (k : Int)) := by
  obtain ⟨hr, hc, hl, hd⟩ := h
  rw [Nat.testBit_xor, Nat.testBit_two_pow_sub_one, Nat.testBit_lor, Nat.testBit_lor]
  by_cases hk : k < N
  · have hacc : accept state (k : Int) = true ↔
        ¬ (cols.testBit k = true) ∧ ¬ (ld.testBit k = true) ∧ ¬ (rd.testBit k = true) := by
      unfold accept
      rw [acceptLoop_eq_true, hc, hl, hd, mem_iff_getD]
      constructor
      · intro h
        refine ⟨?_, ?_, ?_⟩
        · rintro ⟨i, hi, e⟩
          exact (h i hi).1 e
        · rintro ⟨_, i, hi, e⟩
          have := (h i hi).2.2
          apply this; omega
        · rintro ⟨i, hi, e⟩
          have := (h i hi).2.1
          apply this; omega
      · rintro ⟨h1, h2, h3⟩ i hi
        refine ⟨fun e => h1 ⟨i, hi, e⟩, fun e => h3 ⟨i, hi, by omega⟩,
          fun e => h2 ⟨hk, i, hi, by omega⟩⟩
    cases hA : accept state (k : Int)
    · have : ¬ (¬ (cols.testBit k = true) ∧ ¬ (ld.testBit k = true) ∧ ¬ (rd.testBit k = true)) :=
        fun h => by rw [← hacc, hA] at h; simp at h
      simp only [hk, decide_True, Bool.and_false]
      by_cases c1 : cols.testBit k = true
      · simp [c1]
      · by_cases c2 : ld.testBit k = true
        · simp [c2]
        · by_cases c3 : rd.testBit k = true
          · simp [c3]
          · exact absurd ⟨c1, c2, c3⟩ this
    · obtain ⟨c1, c2, c3⟩ := hacc.1 hA
      simp [hk, c1, c2, c3]
  · have c1 : cols.testBit k = false := by
      rw [← Bool.not_eq_true, hc]
      intro hm
      have := hr _ hm; omega
    have c2 : ld.testBit k = false := by
      rw [← Bool.not_eq_true, hl]
      rintro ⟨h1, _⟩; exact hk h1
    have c3 : rd.testBit k = false := by
      rw [← Bool.not_eq_true, hd]
      rintro ⟨i, hi, e⟩
      have hm : state.getD i 0 ∈ state := (mem_iff_getD state _).2 ⟨i, hi, rfl⟩
      have := hr _ hm; omega
    simp [hk, c1, c2, c3]

/-- Placing a queen in column `k` of the next row updates the bit sets as
`countBT` does. -/
theorem maskRep_step (N : Nat) (state : List Int) (cols ld rd : Nat)
    (h : MaskRep N state cols ld rd) (k : Nat) (hk : k < N) :
    MaskRep N (state ++ [(k : Int)]) (cols ||| 2 ^ k)
      (((ld ||| 2 ^ k) <<< 1) &&& (2 ^ N - 1)) ((rd ||| 2 ^ k) >>> 1) := by
  obtain ⟨hr, hc, hl, hd⟩ := h
  have hlast : (state ++ [(k : Int)]).getD state.length 0 = (k : Int) := by
    rw [List.getD_append_right _ _ _ _ (le_refl _)]; simp
  have hlen : ((state ++ [(k : Int)]).length : Int) = (state.length : Int) + 1 := by simp
  refine ⟨?_, ?_, ?_, ?_⟩
  · intro x hx
    rw [List.mem_append] at hx
    rcases hx with hx | hx
    · exact hr x hx
    · simp at hx; subst hx; omega
  · intro j
    rw [Nat.testBit_lor, Nat.testBit_two_pow, Bool.or_eq_true, hc, List.mem_append]
    simp only [decide_eq_true_eq, List.mem_singleton]
    constructor
    · rintro (h1 | h1)
      · exact Or.inl h1
      · exact Or.inr (by omega)
    · rintro (h1 | h1)
      · exact Or.inl h1
      · exact Or.inr (by omega)
  · intro j
    rw [Nat.testBit_and, Nat.testBit_two_pow_sub_one, Nat.testBit_shiftLeft, Nat.testBit_lor,
      Nat.testBit_two_pow]
    simp only [Bool.and_eq_true, Bool.or_eq_true, decide_eq_true_eq, hl, hlen]
    constructor
    · rintro ⟨⟨hj1, h1⟩, hjN⟩
      refine ⟨hjN, ?_⟩
      rcases h1 with ⟨_, i, hi, e⟩ | h1
      · refine ⟨i, by simp; omega, ?_⟩
        rw [List.getD_append _ _ _ _ hi]
        omega
      · refine ⟨state.length, by simp, ?_⟩
        rw [hlast]; omega
    · rintro ⟨hjN, i, hi, e⟩
      simp only [List.length_append, List.length_singleton] at hi
      by_cases hil : i < state.length
      · rw [List.getD_append _ _ _ _ hil] at e
        have hx := hr _ ((mem_iff_getD state _).2 ⟨i, hil, rfl⟩)
        refine ⟨⟨by omega, Or.inl ⟨by omega, i, hil, by omega⟩⟩, hjN⟩
      · have : i = state.length := by omega
        subst this
        rw [hlast] at e
        exact ⟨⟨by omega, Or.inr (by omega)⟩, hjN⟩
  · intro j
    rw [Nat.testBit_shiftRight, Nat.testBit_lor, Nat.testBit_two_pow]
    simp only [Bool.or_eq_true, decide_eq_true_eq, hd, hlen]
    constructor
    · rintro (⟨i, hi, e⟩ | h1)
      · refine ⟨i, by simp; omega, ?_⟩
        rw [List.getD_append _ _ _ _ hi]
        push_cast at e
        omega
      · refine ⟨state.length, by simp, ?_⟩
        rw [hlast]; omega
    · rintro ⟨i, hi, e⟩
      simp only [List.length_append, List.length_singleton] at hi
      by_cases hil : i < state.length
      · rw [List.getD_append _ _ _ _ hil] at e
        exact Or.inl ⟨i, hil, by push_cast; omega⟩
      · have : i = state.length := by omega
        subst this
        rw [hlast] at e
        exact Or.inr (by omega)

/-- The sum of a list over `0, ..., N-1` as a finite sum. -/
theorem sum_map_range (f : Nat → Nat) (N : Nat) :
    ((List.range N).map f).sum = ∑ i in Finset.range N, f i := by
  induction N with
  | zero => simp
  | succ N ih => rw [List.range_succ, List.map_append, List.sum_append, ih, Finset.sum_range_succ]; simp

/-- The number of placements `nQueensBT` records from a partial placement is
the number `countBT` computes from the bit sets that describe it. -/
theorem length_nQueensBT_eq_countBT (N : Nat) :
    ∀ (rem : Nat) (state : List Int) (cols ld rd : Nat),
      state.length + rem = N → MaskRep N state cols ld rd →
      (nQueensBT (rem + 1) state (N : Int) []).length = countBT N (2 ^ N - 1) rem cols ld rd := by
  intro rem
  induction rem with
  | zero =>
      intro state cols ld rd hlen _
      have : (state.length : Int) = (N : Int) := by omega
      rw [nQueensBT_succ, if_pos this]
      simp [countBT]
  | succ rem ih =>
      intro state cols ld rd hlen hrep
      have hne : ¬ ((state.length : Int) = (N : Int)) := by omega
      rw [nQueensBT_succ, if_neg hne, List.length_flatMap, Int.toNat_ofNat, sum_map_range]
      simp only [countBT]
      rw [countFree_eq_sum _ N (N + 1) _ 0
        (by
          intro i hi
          rw [maskRep_free N state cols ld rd hrep] at hi
          simp only [Bool.and_eq_true, decide_eq_true_eq] at hi
          exact ⟨Nat.zero_le _, hi.1⟩)
        (by omega)]
      apply Finset.sum_congr rfl
      intro i hi
      rw [Finset.mem_range] at hi
      rw [maskRep_free N state cols ld rd hrep]
      cases hA : accept state (i : Int)
      · simp [hA]
      · simp only [Function.comp_apply, hA, hi, decide_True, Bool.and_self, if_true]
        exact ih (state ++ [(i : Int)]) _ _ _ (by simp; omega)
          (maskRep_step N state cols ld rd hrep i hi)

/-- The number of results of `nQueens` on a board of width `N`. -/
theorem length_nQueens_eq_countBT (N : Nat) :
    (nQueens (N : Int)).length = countBT N (2 ^ N - 1) N 0 0 0 := by
  unfold nQueens
  rw [Int.toNat_ofNat]
  exact length_nQueensBT_eq_countBT N N [] 0 0 0 (by simp)
    ⟨by simp, by simp, by simp, by simp⟩

/-- The board of width 10 has 724 placements. -/
theorem countBT_ten : countBT 10 1023 10 0 0 0 = 724 := by
  decide!

/-- C13: for every `n` (in particular `n >= 1`), the results of `nQueens(n)` are
exactly the valid placements of `n` queens, listed in strictly increasing
lexicographic order and hence each once; `nQueens(4)` is
`[[1,3,0,2],[2,0,3,1]]`, `nQueens(2)` and `nQueens(3)` are empty, `nQueens(10)`
has 724 elements; and the search only appends to the results recorded before,
so a recorded placement is not changed by later backtracking. -/
theorem nQueens_complete_sorted (n : Int) :
    (∀ sol, sol ∈ nQueens n ↔ ValidPlacement n sol)
      ∧ (nQueens n).Pairwise lexLt
      ∧ (nQueens n).Nodup
      ∧ nQueens 4 = [[1, 3, 0, 2], [2, 0, 3, 1]]
      ∧ nQueens 2 = []
      ∧ nQueens 3 = []
      ∧ (nQueens 10).length = 724
      ∧ (∀ (fuel : Nat) (state : List Int) (res : List (List Int)),
          res <+: nQueensBT fuel state n res) := by
  have hs : (nQueens n).Pairwise lexLt := nQueensBT_sorted n _ _
  refine ⟨mem_nQueens n, hs, ?_, by decide, by decide, by decide, ?_, ?_⟩
  · refine hs.imp ?_
    intro a b hab e
    subst e
    exact lexLt_irrefl a hab
  · have h := length_nQueens_eq_countBT 10
    have e : (2 : Nat) ^ 10 - 1 = 1023 := by norm_num
    rw [e, countBT_ten] at h
    exact_mod_cast h
  · intro fuel state res
    rw [nQueensBT_append]
    exact List.prefix_append _ _

/-- A write inside the table succeeds, keeps the dimensions, and changes the
entry written only. -/
theorem tableSet_spec (m n : Nat) (dp : Table) (hd : TableDims m n dp) (i j : Nat)
    (hi : i ≤ m) (hj : j ≤ n) (v : Int) :
    ∃ dp1, tableSet dp i j v = some dp1 ∧ TableDims m n dp1
      ∧ ∀ i1 j1, tableGet dp1 i1 j1 =
          if i1 = i ∧ j1 = j then some v else tableGet dp i1 j1 := by
  obtain ⟨hlen, hrows⟩ := hd
  have hil : i < dp.length := by omega
  have hrow : dp[i]? = some dp[i] := List.getElem?_eq_getElem hil
  have hrl : dp[i].length = n + 1 := hrows _ (List.getElem_mem hil)
  refine ⟨dp.set i (dp[i].set j v), ?_, ⟨?_, ?_⟩, ?_⟩
  · simp only [tableSet, hrow]
    rw [if_pos (by omega)]
  · simp [hlen]
  · intro row hrow1
    rcases List.mem_or_eq_of_mem_set hrow1 with h | h
    · exact hrows row h
    · subst h; simp [hrl]
  · intro i1 j1
    simp only [tableGet]
    by_cases hii : i1 = i
    · subst hii
      rw [List.getElem?_set_self hil]
      simp only [true_and]
      by_cases hjj : j1 = j
      · subst hjj
        rw [if_pos rfl, List.getElem?_set_self (by omega)]
      · rw [if_neg hjj, List.getElem?_set_ne (fun h => hjj h.symm), hrow]
    · rw [List.getElem?_set_ne (fun h => hii h.symm)]
      simp [hii]

/-- A `for k := start; k < start + len; k++` loop over the table keeps an
invariant that each iteration keeps, and does not fail when no iteration
fails. -/
theorem foldlM_range_inv (f : Table → Nat → Option Table) (Inv : Nat → Table → Prop) :
    ∀ (len start : Nat) (dp : Table), Inv start dp →
      (∀ dp k, start ≤ k → k < start + len → Inv k dp →
        ∃ dp1, f dp k = some dp1 ∧ Inv (k + 1) dp1) →
      ∃ dp1, (List.range' start len).foldlM f dp = some dp1 ∧ Inv (start + len) dp1 := by
  intro len
  induction len with
  | zero => intro start dp h0 _; exact ⟨dp, by simp, by simpa using h0⟩
  | succ len ih =>
      intro start dp h0 hstep
      obtain ⟨dp1, h1, hI⟩ := hstep dp start (le_refl _) (by omega) h0
      obtain ⟨dp2, h2, hI2⟩ := ih (start + 1) dp1 hI
        (fun dp k hk1 hk2 hk => hstep dp k (by omega) (by omega) hk)
      refine ⟨dp2, ?_, ?_⟩
      · rw [List.range'_succ, List.foldlM_cons, h1]
        exact h2
      · have : start + (len + 1) = start + 1 + len := by omega
        rw [this]; exact hI2

/-- The recurrence in the first column. -/
theorem levenshteinRec_zero_right (s t : List UInt8) (i : Nat) :
    levenshteinRec s t i 0 = (i : Int) := by
  cases i with
  | zero => rfl
  | succ i => simp [levenshteinRec, levenshteinRow]

/-- The recurrence in the first row. -/
theorem levenshteinRec_zero_left (s t : List UInt8) (j : Nat) :
    levenshteinRec s t 0 j = (j : Int) := rfl

/-- The recurrence away from the first row and column. -/
theorem levenshteinRec_succ (s t : List UInt8) (i j : Nat) :
    levenshteinRec s t (i + 1) (j + 1) =
      if s[i]? = t[j]? then levenshteinRec s t i j
      else 1 + min (levenshteinRec s t i (j + 1))
        (min (levenshteinRec s t i j) (levenshteinRec s t (i + 1) j)) := rfl

/-- One iteration of the inner loop writes the recurrence at `(i, j)`. -/
theorem editStep_spec (s t : List UInt8) (i j : Nat) (hi1 : 1 ≤ i) (hi2 : i ≤ s.length)
    (hj1 : 1 ≤ j) (hj2 : j ≤ t.length) (dp : Table) (h : EditInv s t i j dp) :
    ∃ dp1, editStep s t i dp j = some dp1 ∧ EditInv s t i (j + 1) dp1 := by
  obtain ⟨hd, hv⟩ := h
  obtain ⟨i0, rfl⟩ : ∃ i0, i = i0 + 1 := ⟨i - 1, by omega⟩
  obtain ⟨j0, rfl⟩ : ∃ j0, j = j0 + 1 := ⟨j - 1, by omega⟩
  have hsa : s[i0]? = some s[i0] := List.getElem?_eq_getElem (by omega)
  have htb : t[j0]? = some t[j0] := List.getElem?_eq_getElem (by omega)
  have g1 := hv i0 j0 (by omega) (by omega) (Or.inl (by omega))
  have g2 := hv i0 (j0 + 1) (by omega) (by omega) (Or.inl (by omega))
  have g3 := hv (i0 + 1) j0 (by omega) (by omega) (Or.inr (Or.inl ⟨rfl, by omega⟩))
  have hrec := levenshteinRec_succ s t i0 j0
  have key : ∃ dp1, editStep s t (i0 + 1) dp (j0 + 1) = some dp1 ∧ TableDims s.length t.length dp1
      ∧ ∀ i1 j1, tableGet dp1 i1 j1 =
          if i1 = i0 + 1 ∧ j1 = j0 + 1 then some (levenshteinRec s t (i0 + 1) (j0 + 1))
          else tableGet dp i1 j1 := by
    simp only [editStep, Nat.add_sub_cancel, hsa, htb]
    by_cases hab : s[i0] = t[j0]
    · rw [if_pos hab, g1]
      simp only
      have e : levenshteinRec s t (i0 + 1) (j0 + 1) = levenshteinRec s t i0 j0 := by
        rw [hrec, hsa, htb, if_pos (by rw [hab])]
      rw [e]
      exact tableSet_spec _ _ dp hd _ _ hi2 hj2 _
    · rw [if_neg hab, g1, g2, g3]
      simp only
      have e : levenshteinRec s t (i0 + 1) (j0 + 1) =
          min (levenshteinRec s t i0 (j0 + 1))
            (min (levenshteinRec s t i0 j0) (levenshteinRec s t (i0 + 1) j0)) + 1 := by
        rw [hrec, hsa, htb, if_neg (by simpa using hab)]
        ring
      rw [e]
      exact tableSet_spec _ _ dp hd _ _ hi2 hj2 _
  obtain ⟨dp1, h1, hd1, hg⟩ := key
  refine ⟨dp1, h1, hd1, ?_⟩
  intro i1 j1 hi hj hr
  rw [hg]
  by_cases hc : i1 = i0 + 1 ∧ j1 = j0 + 1
  · rw [if_pos hc, hc.1, hc.2]
  · rw [if_neg hc]
    apply hv i1 j1 hi hj
    rcases hr with hr | hr | hr | hr
    · exact Or.inl hr
    · refine Or.inr (Or.inl ⟨hr.1, ?_⟩)
      rcases Nat.lt_or_ge j1 (j0 + 1) with h2 | h2
      · exact h2
      · exact absurd ⟨hr.1, by omega⟩ hc
    · exact Or.inr (Or.inr (Or.inl hr))
    · exact Or.inr (Or.inr (Or.inr hr))

/-- The inner loop fills row `i`. -/
theorem editRow_spec (s t : List UInt8) (i : Nat) (hi1 : 1 ≤ i) (hi2 : i ≤ s.length)
    (dp : Table) (h : EditInv s t i 1 dp) :
    ∃ dp1, (List.range' 1 t.length).foldlM (editStep s t i) dp = some dp1
      ∧ EditInv s t (i + 1) 1 dp1 := by
  obtain ⟨dp1, h1, hI⟩ := foldlM_range_inv (editStep s t i) (fun k dp => EditInv s t i k dp)
    t.length 1 dp h
    (fun dp k hk1 hk2 hk => editStep_spec s t i k hi1 hi2 hk1 (by omega) dp hk)
  refine ⟨dp1, h1, hI.1, ?_⟩
  intro i1 j1 hi hj hr
  apply hI.2 i1 j1 hi hj
  rcases hr with hr | hr | hr | hr
  · rcases Nat.lt_or_ge i1 i with h2 | h2
    · exact Or.inl h2
    · exact Or.inr (Or.inl ⟨by omega, by omega⟩)
  · exact Or.inr (Or.inr (Or.inr (by omega)))
  · exact Or.inr (Or.inr (Or.inl hr))
  · exact Or.inr (Or.inr (Or.inr hr))

/-- The function `editDistanceDP` returns the value of the recurrence at
`(len(s), len(t))`, and no index is out of range. -/
theorem editDistanceDP_eq_levenshteinRec (s t : List UInt8) :
    editDistanceDP s t = some (levenshteinRec s t s.length t.length) := by
  have hd0 : TableDims s.length t.length
      (List.replicate (s.length + 1) (List.replicate (t.length + 1) (0 : Int))) := by
    refine ⟨by simp, ?_⟩
    intro row hrow
    rw [List.eq_of_mem_replicate hrow]; simp
  have hg0 : tableGet (List.replicate (s.length + 1) (List.replicate (t.length + 1) (0 : Int))) 0 0
      = some 0 := by
    simp [tableGet, List.getElem?_replicate]
  -- first column
  obtain ⟨dp1, h1, hd1, hc1⟩ := foldlM_range_inv (fun dp i => tableSet dp i 0 (i : Int))
    (fun k dp => TableDims s.length t.length dp ∧ ∀ i1, i1 < k → tableGet dp i1 0 = some (i1 : Int))
    s.length 1 _ ⟨hd0, fun i1 hi1 => by
      have : i1 = 0 := by omega
      subst this; exact hg0⟩
    (by
      rintro dp k hk1 hk2 ⟨hd, hv⟩
      obtain ⟨dp1, e1, hd1, hg1⟩ := tableSet_spec _ _ dp hd k 0 (by omega) (Nat.zero_le _) (k : Int)
      refine ⟨dp1, e1, hd1, ?_⟩
      intro i1 hi1
      rw [hg1]
      by_cases hik : i1 = k
      · subst hik; simp
      · rw [if_neg (fun h => hik h.1)]
        exact hv i1 (by omega))
  -- first row
  obtain ⟨dp2, h2, hd2, hc2, hr2⟩ := foldlM_range_inv (fun dp j => tableSet dp 0 j (j : Int))
    (fun k dp => TableDims s.length t.length dp
      ∧ (∀ i1, i1 ≤ s.length → tableGet dp i1 0 = some (i1 : Int))
      ∧ ∀ j1, j1 < k → tableGet dp 0 j1 = some (j1 : Int))
    t.length 1 dp1 ⟨hd1, fun i1 hi1 => hc1 i1 (by omega), fun j1 hj1 => by
      have : j1 = 0 := by omega
      subst this; exact hc1 0 (by omega)⟩
    (by
      rintro dp k hk1 hk2 ⟨hd, hc, hr⟩
      obtain ⟨dp1, e1, hd1, hg1⟩ := tableSet_spec _ _ dp hd 0 k (Nat.zero_le _) (by omega) (k : Int)
      refine ⟨dp1, e1, hd1, ?_, ?_⟩
      · intro i1 hi1
        rw [hg1, if_neg (fun h => by omega)]
        exact hc i1 hi1
      · intro j1 hj1
        rw [hg1]
        by_cases hjk : j1 = k
        · subst hjk; simp
        · rw [if_neg (fun h => hjk h.2)]
          exact hr j1 (by omega))
  -- the rows
  have hI : EditInv s t 1 1 dp2 := by
    refine ⟨hd2, ?_⟩
    intro i1 j1 hi hj hr
    have hcases : i1 = 0 ∨ j1 = 0 := by omega
    rcases hcases with h | h
    · subst h
      rw [levenshteinRec_zero_left]
      exact hr2 j1 (by omega)
    · subst h
      rw [levenshteinRec_zero_right]
      exact hc2 i1 hi
  obtain ⟨dp3, h3, hI3⟩ := foldlM_range_inv
    (fun dp i => (List.range' 1 t.length).foldlM (editStep s t i) dp)
    (fun k dp => EditInv s t k 1 dp) s.length 1 dp2 hI
    (fun dp k hk1 hk2 hk => editRow_spec s t k hk1 (by omega) dp hk)
  have hfin := hI3.2 s.length t.length (le_refl _) (le_refl _) (Or.inl (by omega))
  simp only [editDistanceDP, h1, h2, h3]
  exact hfin

/-- The recurrence between a string and itself is 0. -/
theorem levenshteinRec_self (s : List UInt8) :
    ∀ i, levenshteinRec s s i i = 0 := by
  intro i
  induction i with
  | zero => rfl
  | succ i ih => rw [levenshteinRec_succ, if_pos rfl, ih]

/-! ### The recurrence is the minimum number of edits -/

/-- Two lists with a last element are equal only when both parts are. -/
theorem snoc_inj {s s1 : List UInt8} {a a1 : UInt8} (h : s ++ [a] = s1 ++ [a1]) :
    s = s1 ∧ a = a1 := by
  have h1 := List.append_inj' h rfl
  exact ⟨h1.1, by simpa using h1.2⟩

/-- The first `n + 1` elements of a list. -/
theorem take_succ_of_lt (l : List UInt8) (n : Nat) (h : n < l.length) :
    l.take (n + 1) = l.take n ++ [l[n]] := by
  rw [List.take_succ, List.getElem?_eq_getElem h]
  rfl

/-- The lengths of two aligned strings differ by at most the number of edits. -/
theorem align_length {x y : List UInt8} {k : Nat} (h : Align x y k) :
    y.length ≤ x.length + k ∧ x.length ≤ y.length + k := by
  induction h with
  | nil => simp
  | keep s t a k _ ih => simp only [List.length_append, List.length_singleton]; omega
  | sub s t a b k _ ih => simp only [List.length_append, List.length_singleton]; omega
  | del s t a k _ ih => simp only [List.length_append, List.length_singleton]; omega
  | ins s t b k _ ih => simp only [List.length_append, List.length_singleton]; omega

/-- Dropping the last byte of the second string costs at most one more edit. -/
theorem align_drop_right {x y : List UInt8} {k : Nat} (h : Align x y k) :
    ∀ (t : List UInt8) (b : UInt8), y = t ++ [b] → ∃ k1, k1 ≤ k + 1 ∧ Align x t k1 := by
  induction h with
  | nil => intro t b e; exact absurd e.symm (by simp)
  | keep s t0 a k h _ =>
      intro t b e
      obtain ⟨rfl, rfl⟩ := snoc_inj e
      exact ⟨k + 1, le_rfl, Align.del s t0 a k h⟩
  | sub s t0 a b0 k h _ =>
      intro t b e
      obtain ⟨rfl, rfl⟩ := snoc_inj e
      exact ⟨k + 1, by omega, Align.del s t0 a k h⟩
  | del s y a k _ ih =>
      intro t b e
      obtain ⟨k1, hk1, h1⟩ := ih t b e
      exact ⟨k1 + 1, by omega, Align.del s t a k1 h1⟩
  | ins x t0 b0 k h _ =>
      intro t b e
      obtain ⟨rfl, rfl⟩ := snoc_inj e
      exact ⟨k, by omega, h⟩

/-- Dropping the last byte of the first string costs at most one more edit. -/
theorem align_drop_left {x y : List UInt8} {k : Nat} (h : Align x y k) :
    ∀ (s : List UInt8) (a : UInt8), x = s ++ [a] → ∃ k1, k1 ≤ k + 1 ∧ Align s y k1 := by
  induction h with
  | nil => intro s a e; exact absurd e.symm (by simp)
  | keep s0 t a0 k h _ =>
      intro s a e
      obtain ⟨rfl, rfl⟩ := snoc_inj e
      exact ⟨k + 1, le_rfl, Align.ins s0 t a0 k h⟩
  | sub s0 t a0 b k h _ =>
      intro s a e
      obtain ⟨rfl, rfl⟩ := snoc_inj e
      exact ⟨k + 1, by omega, Align.ins s0 t b k h⟩
  | del s0 y a0 k h _ =>
      intro s a e
      obtain ⟨rfl, rfl⟩ := snoc_inj e
      exact ⟨k, by omega, h⟩
  | ins x t b k _ ih =>
      intro s a e
      obtain ⟨k1, hk1, h1⟩ := ih s a e
      exact ⟨k1 + 1, by omega, Align.ins s t b k1 h1⟩

/-- Changing the last byte of the first string costs at most one more edit. -/
theorem align_change_last {x y : List UInt8} {k : Nat} (h : Align x y k) (a : UInt8) :
    ∀ (s : List UInt8) (b : UInt8), x = s ++ [b] →
      ∃ k1, k1 ≤ k + 1 ∧ Align (s ++ [a]) y k1 := by
  induction h with
  | nil => intro s b e; exact absurd e.symm (by simp)
  | keep s0 t a0 k h _ =>
      intro s b e
      obtain ⟨rfl, rfl⟩ := snoc_inj e
      exact ⟨k + 1, le_rfl, Align.sub s0 t a a0 k h⟩
  | sub s0 t a0 b0 k h _ =>
      intro s b e
      obtain ⟨rfl, rfl⟩ := snoc_inj e
      exact ⟨k + 1, by omega, Align.sub s0 t a b0 k h⟩
  | del s0 y a0 k h _ =>
      intro s b e
      obtain ⟨rfl, rfl⟩ := snoc_inj e
      exact ⟨k + 1, by omega, Align.del s0 y a k h⟩
  | ins x t b0 k _ ih =>
      intro s b e
      obtain ⟨k1, hk1, h1⟩ := ih s b e
      exact ⟨k1 + 1, by omega, Align.ins (s ++ [a]) t b0 k1 h1⟩

/-- An edit of the first string that costs at most one more edit still does
after a byte is appended to the string. -/
theorem align_snoc (s s1 : List UInt8) (c : UInt8)
    (hyp : ∀ (t : List UInt8) (k : Nat), Align s1 t k → ∃ k1, k1 ≤ k + 1 ∧ Align s t k1)
    {x y : List UInt8} {k : Nat} (h : Align x y k) :
    x = s1 ++ [c] → ∃ k1, k1 ≤ k + 1 ∧ Align (s ++ [c]) y k1 := by
  induction h with
  | nil => intro e; exact absurd e.symm (by simp)
  | keep s0 t a k h _ =>
      intro e
      obtain ⟨rfl, rfl⟩ := snoc_inj e
      obtain ⟨k1, hk1, h1⟩ := hyp t k h
      exact ⟨k1, hk1, Align.keep s t a k1 h1⟩
  | sub s0 t a b k h _ =>
      intro e
      obtain ⟨rfl, rfl⟩ := snoc_inj e
      obtain ⟨k1, hk1, h1⟩ := hyp t k h
      exact ⟨k1 + 1, by omega, Align.sub s t a b k1 h1⟩
  | del s0 y a k h _ =>
      intro e
      obtain ⟨rfl, rfl⟩ := snoc_inj e
      obtain ⟨k1, hk1, h1⟩ := hyp y k h
      exact ⟨k1 + 1, by omega, Align.del s y a k1 h1⟩
  | ins x t b k _ ih =>
      intro e
      obtain ⟨k1, hk1, h1⟩ := ih e
      exact ⟨k1 + 1, by omega, Align.ins (s ++ [c]) t b k1 h1⟩

/-- One edit of the first string costs at most one more edit. -/
theorem align_of_edit1 {s s1 : List UInt8} (h : Edit1 s s1) :
    ∀ (t : List UInt8) (k : Nat), Align s1 t k → ∃ k1, k1 ≤ k + 1 ∧ Align s t k1 := by
  induction h with
  | ins s b => intro t k h; exact align_drop_left h s b rfl
  | del s a => intro t k h; exact ⟨k + 1, le_rfl, Align.del s t a k h⟩
  | sub s a b => intro t k h; exact align_change_last h a s b rfl
  | snoc s s1 c _ ih => intro t k h; exact align_snoc s s1 c ih h rfl

/-- An edit between two parts of a string is one edit of the string. -/
theorem edit1_middle (l : List UInt8) (a b : UInt8) (r : List UInt8) :
    Edit1 (l ++ r) (l ++ b :: r) ∧ Edit1 (l ++ a :: r) (l ++ r)
      ∧ Edit1 (l ++ a :: r) (l ++ b :: r) := by
  induction r using List.reverseRecOn with
  | nil =>
      refine ⟨?_, ?_, ?_⟩
      · rw [List.append_nil]; exact Edit1.ins l b
      · rw [List.append_nil]; exact Edit1.del l a
      · exact Edit1.sub l a b
  | append_singleton r c ih =>
      have e1 : l ++ (r ++ [c]) = (l ++ r) ++ [c] := by simp
      have e2 : l ++ b :: (r ++ [c]) = (l ++ b :: r) ++ [c] := by simp
      have e3 : l ++ a :: (r ++ [c]) = (l ++ a :: r) ++ [c] := by simp
      rw [e1, e2, e3]
      exact ⟨Edit1.snoc _ _ c ih.1, Edit1.snoc _ _ c ih.2.1, Edit1.snoc _ _ c ih.2.2⟩

/-- What `applyEdit` does is one edit. -/
theorem edit1_of_applyEdit (e : EditOp) (s s1 : List UInt8) (h : applyEdit e s = some s1) :
    Edit1 s s1 := by
  cases e with
  | insert pos b =>
      simp only [applyEdit] at h
      split at h
      · simp only [Option.some.injEq] at h
        rw [← h]
        have h1 := (edit1_middle (s.take pos) b b (s.drop pos)).1
        rwa [List.take_append_drop] at h1
      · exact absurd h (by simp)
  | delete pos =>
      simp only [applyEdit] at h
      split at h
      · rename_i hp
        simp only [Option.some.injEq] at h
        rw [← h]
        have h1 := (edit1_middle (s.take pos) s[pos] s[pos] (s.drop (pos + 1))).2.1
        rwa [← List.drop_eq_getElem_cons hp, List.take_append_drop] at h1
      · exact absurd h (by simp)
  | substitute pos b =>
      simp only [applyEdit] at h
      split at h
      · rename_i hp
        simp only [Option.some.injEq] at h
        rw [← h]
        have h1 := (edit1_middle (s.take pos) s[pos] b (s.drop (pos + 1))).2.2
        rwa [← List.drop_eq_getElem_cons hp, List.take_append_drop] at h1
      · exact absurd h (by simp)

/-- The recurrence is never negative. -/
theorem levenshteinRec_nonneg (s t : List UInt8) : ∀ i j, 0 ≤ levenshteinRec s t i j := by
  intro i
  induction i with
  | zero => intro j; rw [levenshteinRec_zero_left]; omega
  | succ i ih =>
      intro j
      induction j with
      | zero => rw [levenshteinRec_zero_right]; omega
      | succ j ihj =>
          rw [levenshteinRec_succ]
          split
          · exact ih j
          · have h1 := ih (j + 1)
            have h2 := ih j
            have h3 : 0 ≤ min (levenshteinRec s t i (j + 1))
                (min (levenshteinRec s t i j) (levenshteinRec s t (i + 1) j)) :=
              le_min h1 (le_min h2 ihj)
            omega

/-- An alignment with as many edits as the recurrence says exists. -/
theorem align_of_levenshteinRec (s t : List UInt8) :
    ∀ i j, i ≤ s.length → j ≤ t.length →
      ∃ k : Nat, (k : Int) = levenshteinRec s t i j ∧ Align (s.take i) (t.take j) k := by
  intro i
  induction i with
  | zero =>
      intro j
      induction j with
      | zero => intro _ _; exact ⟨0, rfl, Align.nil⟩
      | succ j ihj =>
          intro hi hj
          obtain ⟨k, hk, h⟩ := ihj hi (by omega)
          refine ⟨k + 1, ?_, ?_⟩
          · rw [levenshteinRec_zero_left] at hk ⊢; omega
          · rw [take_succ_of_lt t j (by omega)]
            exact Align.ins _ _ _ k h
  | succ i ih =>
      intro j
      induction j with
      | zero =>
          intro hi hj
          obtain ⟨k, hk, h⟩ := ih 0 (by omega) hj
          refine ⟨k + 1, ?_, ?_⟩
          · rw [levenshteinRec_zero_right] at hk ⊢; omega
          · rw [take_succ_of_lt s i (by omega)]
            exact Align.del _ _ _ k h
      | succ j ihj =>
          intro hi hj
          have hsi : s[i]? = some s[i] := List.getElem?_eq_getElem (by omega)
          have htj : t[j]? = some t[j] := List.getElem?_eq_getElem (by omega)
          rw [levenshteinRec_succ, take_succ_of_lt s i (by omega), take_succ_of_lt t j (by omega)]
          by_cases heq : s[i]? = t[j]?
          · rw [if_pos heq]
            obtain ⟨k, hk, h⟩ := ih j (by omega) (by omega)
            have e : s[i] = t[j] := by
              rw [hsi, htj] at heq
              exact Option.some.inj heq
            refine ⟨k, hk, ?_⟩
            rw [e]
            exact Align.keep _ _ _ k h
          · rw [if_neg heq]
            obtain ⟨k1, hk1, h1⟩ := ih (j + 1) (by omega) hj
            obtain ⟨k2, hk2, h2⟩ := ih j (by omega) (by omega)
            obtain ⟨k3, hk3, h3⟩ := ihj hi (by omega)
            rw [take_succ_of_lt t j (by omega)] at h1
            rw [take_succ_of_lt s i (by omega)] at h3
            rcases le_total (levenshteinRec s t i (j + 1))
                (min (levenshteinRec s t i j) (levenshteinRec s t (i + 1) j)) with hc | hc
            · rw [min_eq_left hc]
              exact ⟨k1 + 1, by omega, Align.del _ _ _ k1 h1⟩
            · rw [min_eq_right hc]
              rcases le_total (levenshteinRec s t i j) (levenshteinRec s t (i + 1) j) with hd | hd
              · rw [min_eq_left hd]
                exact ⟨k2 + 1, by omega, Align.sub _ _ _ _ k2 h2⟩
              · rw [min_eq_right hd]
                exact ⟨k3 + 1, by omega, Align.ins _ _ _ k3 h3⟩

/-- No alignment has fewer edits than the recurrence says. -/
theorem levenshteinRec_le_of_align (s t : List UInt8) :
    ∀ i j, i ≤ s.length → j ≤ t.length → ∀ k, Align (s.take i) (t.take j) k →
      levenshteinRec s t i j ≤ (k : Int) := by
  intro i
  induction i with
  | zero =>
      intro j _ hj k h
      have hl := (align_length h).1
      rw [levenshteinRec_zero_left]
      simp only [List.take_zero, List.length_nil, List.length_take] at hl
      omega
  | succ i ih =>
      intro j
      induction j with
      | zero =>
          intro hi _ k h
          have hl := (align_length h).2
          rw [levenshteinRec_zero_right]
          simp only [List.take_zero, List.length_nil, List.length_take] at hl
          omega
      | succ j ihj =>
          intro hi hj k h
          have hsi : s[i]? = some s[i] := List.getElem?_eq_getElem (by omega)
          have htj : t[j]? = some t[j] := List.getElem?_eq_getElem (by omega)
          have hs1 := take_succ_of_lt s i (by omega)
          have ht1 := take_succ_of_lt t j (by omega)
          have hmin : min (levenshteinRec s t i (j + 1))
              (min (levenshteinRec s t i j) (levenshteinRec s t (i + 1) j))
                ≤ levenshteinRec s t i (j + 1)
              ∧ min (levenshteinRec s t i (j + 1))
              (min (levenshteinRec s t i j) (levenshteinRec s t (i + 1) j))
                ≤ levenshteinRec s t i j
              ∧ min (levenshteinRec s t i (j + 1))
              (min (levenshteinRec s t i j) (levenshteinRec s t (i + 1) j))
                ≤ levenshteinRec s t (i + 1) j :=
            ⟨min_le_left _ _, le_trans (min_le_right _ _) (min_le_left _ _),
              le_trans (min_le_right _ _) (min_le_right _ _)⟩
          rw [levenshteinRec_succ]
          generalize hx : s.take (i + 1) = x at h
          generalize hy : t.take (j + 1) = y at h
          cases h with
          | nil =>
              rw [hs1] at hx
              exact absurd hx (List.append_ne_nil_of_right_ne_nil _ (List.cons_ne_nil _ _))
          | keep s0 t0 a k h0 =>
              rw [hs1] at hx
              rw [ht1] at hy
              obtain ⟨rfl, e1⟩ := snoc_inj hx
              obtain ⟨rfl, e2⟩ := snoc_inj hy
              rw [if_pos (by rw [hsi, htj, e1, e2])]
              exact ih j (by omega) (by omega) k h0
          | sub s0 t0 a b k0 h0 =>
              rw [hs1] at hx
              rw [ht1] at hy
              obtain ⟨rfl, e1⟩ := snoc_inj hx
              obtain ⟨rfl, e2⟩ := snoc_inj hy
              have h2 := ih j (by omega) (by omega) k0 h0
              split
              · push_cast; omega
              · push_cast; omega
          | del s0 y0 a k0 h0 =>
              rw [hs1] at hx
              obtain ⟨rfl, e1⟩ := snoc_inj hx
              rw [← hy] at h0
              have h1 := ih (j + 1) (by omega) hj k0 h0
              split
              · rw [ht1] at h0
                obtain ⟨k1, hk1, h3⟩ := align_drop_right h0 _ _ rfl
                have h2 := ih j (by omega) (by omega) k1 h3
                push_cast; omega
              · push_cast; omega
          | ins x0 t0 b k0 h0 =>
              rw [ht1] at hy
              obtain ⟨rfl, e2⟩ := snoc_inj hy
              rw [← hx] at h0
              have h1 := ihj hi (by omega) k0 h0
              split
              · rw [hs1] at h0
                obtain ⟨k1, hk1, h3⟩ := align_drop_left h0 _ _ rfl
                have h2 := ih j (by omega) (by omega) k1 h3
                push_cast; omega
              · push_cast; omega

/-- An edit keeps what follows the string. -/
theorem applyEdit_append (e : EditOp) (s s1 r : List UInt8) (h : applyEdit e s = some s1) :
    applyEdit e (s ++ r) = some (s1 ++ r) := by
  cases e with
  | insert pos b =>
      simp only [applyEdit] at h ⊢
      split at h
      · rename_i hp
        simp only [Option.some.injEq] at h
        rw [if_pos (by rw [List.length_append]; omega), ← h,
          List.take_append_of_le_length hp, List.drop_append_of_le_length hp]
        simp
      · exact absurd h (by simp)
  | delete pos =>
      simp only [applyEdit] at h ⊢
      split at h
      · rename_i hp
        simp only [Option.some.injEq] at h
        rw [if_pos (by rw [List.length_append]; omega), ← h,
          List.take_append_of_le_length (le_of_lt hp),
          List.drop_append_of_le_length (by omega)]
        simp
      · exact absurd h (by simp)
  | substitute pos b =>
      simp only [applyEdit] at h ⊢
      split at h
      · rename_i hp
        simp only [Option.some.injEq] at h
        rw [if_pos (by rw [List.length_append]; omega), ← h,
          List.take_append_of_le_length (le_of_lt hp),
          List.drop_append_of_le_length (by omega)]
        simp
      · exact absurd h (by simp)

/-- A sequence of edits keeps what follows the string. -/
theorem applyEdits_append_right (es : List EditOp) (r : List UInt8) :
    ∀ s t, applyEdits es s = some t → applyEdits es (s ++ r) = some (t ++ r) := by
  induction es with
  | nil => intro s t h; simp only [applyEdits, Option.some.injEq] at h ⊢; rw [h]
  | cons e es ih =>
      intro s t h
      simp only [applyEdits] at h ⊢
      cases he : applyEdit e s with
      | none => rw [he] at h; exact absurd h (by simp)
      | some s1 =>
          rw [he] at h
          rw [applyEdit_append e s s1 r he]
          exact ih s1 t h

/-- A sequence of edits followed by one more. -/
theorem applyEdits_concat (es : List EditOp) (e : EditOp) :
    ∀ s t u, applyEdits es s = some t → applyEdit e t = some u →
      applyEdits (es ++ [e]) s = some u := by
  induction es with
  | nil =>
      intro s t u h he
      simp only [applyEdits, Option.some.injEq] at h
      subst h
      simp only [List.nil_append, applyEdits, he]
  | cons e0 es ih =>
      intro s t u h he
      simp only [applyEdits, List.cons_append] at h ⊢
      cases h0 : applyEdit e0 s with
      | none => rw [h0] at h; exact absurd h (by simp)
      | some s1 =>
          rw [h0] at h
          exact ih s1 t u h he

/-- An alignment gives a sequence of as many edits. -/
theorem edits_of_align {s t : List UInt8} {k : Nat} (h : Align s t k) :
    ∃ es, es.length = k ∧ applyEdits es s = some t := by
  induction h with
  | nil => exact ⟨[], rfl, rfl⟩
  | keep s t a k _ ih =>
      obtain ⟨es, hl, he⟩ := ih
      exact ⟨es, hl, applyEdits_append_right es [a] s t he⟩
  | sub s t a b k _ ih =>
      obtain ⟨es, hl, he⟩ := ih
      refine ⟨es ++ [EditOp.substitute t.length b], by simp [hl], ?_⟩
      refine applyEdits_concat es _ (s ++ [a]) (t ++ [a]) _
        (applyEdits_append_right es [a] s t he) ?_
      simp [applyEdit]
  | del s t a k _ ih =>
      obtain ⟨es, hl, he⟩ := ih
      refine ⟨es ++ [EditOp.delete t.length], by simp [hl], ?_⟩
      refine applyEdits_concat es _ (s ++ [a]) (t ++ [a]) _
        (applyEdits_append_right es [a] s t he) ?_
      simp [applyEdit]
  | ins s t b k _ ih =>
      obtain ⟨es, hl, he⟩ := ih
      refine ⟨es ++ [EditOp.insert t.length b], by simp [hl], ?_⟩
      refine applyEdits_concat es _ s t _ he ?_
      simp [applyEdit]

/-- No sequence of edits turning `s` into `t` is shorter than the recurrence
says. -/
theorem levenshteinRec_le_length_edits (es : List EditOp) :
    ∀ s t, applyEdits es s = some t →
      levenshteinRec s t s.length t.length ≤ (es.length : Int) := by
  induction es with
  | nil =>
      intro s t h
      simp only [applyEdits, Option.some.injEq] at h
      subst h
      rw [levenshteinRec_self]
      simp
  | cons e es ih =>
      intro s t h
      simp only [applyEdits] at h
      cases he : applyEdit e s with
      | none => rw [he] at h; exact absurd h (by simp)
      | some s1 =>
          rw [he] at h
          have h1 := ih s1 t h
          obtain ⟨k, hk, hA⟩ := align_of_levenshteinRec s1 t s1.length t.length le_rfl le_rfl
          rw [List.take_length, List.take_length] at hA
          obtain ⟨k1, hk1, hB⟩ := align_of_edit1 (edit1_of_applyEdit e s s1 he) t k hA
          have h2 := levenshteinRec_le_of_align s t s.length t.length le_rfl le_rfl k1
            (by rw [List.take_length, List.take_length]; exact hB)
          simp only [List.length_cons]
          push_cast
          omega

/-- C14: for all byte strings `s` and `t`, `editDistanceDP(s, t)` returns, with
every table index in range, the distance `d(len(s), len(t))` defined by
`d(0, j) = j`, `d(i, 0) = i`, `d(i, j) = d(i-1, j-1)` when `s[i-1] = t[j-1]` and
`1 + min(d(i-1, j), d(i-1, j-1), d(i, j-1))` otherwise; this distance is the
minimum number of single-byte insertions, deletions and substitutions turning
`s` into `t` (some sequence of that many edits does, and none with fewer); in
particular `editDistanceDP("", t) = len(t)`, `editDistanceDP(s, "") = len(s)`,
`editDistanceDP(s, s) = 0` and `editDistanceDP("kitten", "sitting") = 3`. -/
theorem editDistanceDP_correct (s t : List UInt8) :
    editDistanceDP s t = some (levenshteinRec s t s.length t.length)
      ∧ (∀ j, levenshteinRec s t 0 j = (j : Int))
      ∧ (∀ i, levenshteinRec s t i 0 = (i : Int))
      ∧ (∀ i j, levenshteinRec s t (i + 1) (j + 1) =
          if s[i]? = t[j]? then levenshteinRec s t i j
          else 1 + min (levenshteinRec s t i (j + 1))
            (min (levenshteinRec s t i j) (levenshteinRec s t (i + 1) j)))
      ∧ (∃ es : List EditOp, editDistanceDP s t = some (es.length : Int)
          ∧ applyEdits es s = some t)
      ∧ (∀ (es : List EditOp) (d : Int), applyEdits es s = some t →
          editDistanceDP s t = some d → d ≤ (es.length : Int))
      ∧ editDistanceDP [] t = some (t.length : Int)
      ∧ editDistanceDP s [] = some (s.length : Int)
      ∧ editDistanceDP s s = some 0
      ∧ editDistanceDP (bytes "kitten") (bytes "sitting") = some 3 := by
  refine ⟨editDistanceDP_eq_levenshteinRec s t, levenshteinRec_zero_left s t,
    levenshteinRec_zero_right s t, levenshteinRec_succ s t, ?_, ?_, ?_, ?_, ?_, by decide⟩
  · obtain ⟨k, hk, hA⟩ := align_of_levenshteinRec s t s.length t.length le_rfl le_rfl
    rw [List.take_length, List.take_length] at hA
    obtain ⟨es, hl, he⟩ := edits_of_align hA
    exact ⟨es, by rw [editDistanceDP_eq_levenshteinRec, hl, hk], he⟩
  · intro es d he hd
    rw [editDistanceDP_eq_levenshteinRec] at hd
    rw [← Option.some.inj hd]
    exact levenshteinRec_le_length_edits es s t he
  · rw [editDistanceDP_eq_levenshteinRec]; rfl
  · rw [editDistanceDP_eq_levenshteinRec, List.length_nil, levenshteinRec_zero_right]
  · rw [editDistanceDP_eq_levenshteinRec, levenshteinRec_self]

/-! ### Binary search tree -/

section
variable {K V : Type}

/-- The number of nodes is the number of keys. -/
theorem length_keys (t : TreeNode K V) : (keys t).length = numNodes t := by
  induction t with
  | nil => rfl
  | node l r k v n ihl ihr => simp [keys, numNodes, ihl, ihr]; omega

/-- With correct counts `size` is the number of nodes. -/
theorem size_eq_numNodes (t : TreeNode K V) (h : CountsOk t) : size t = (numNodes t : Int) := by
  cases t with
  | nil => rfl
  | node l r k v n => simp only [CountsOk] at h; simp [size, numNodes, h.2.2]

/-- The minimum node of a tree that is not nil has no left child. -/
theorem minTreeNode_shape (t : TreeNode K V) (h : t ≠ TreeNode.nil) :
    ∃ mr mk mv mn, minTreeNode t = TreeNode.node TreeNode.nil mr mk mv mn := by
  induction t with
  | nil => exact absurd rfl h
  | node l r k v n ihl ihr =>
      cases l with
      | nil => exact ⟨r, k, v, n, rfl⟩
      | node ll lr lk lv ln =>
          simp only [minTreeNode]
          exact ihl (by simp)

/-- The function `deleteMin` keeps the counts correct. -/
theorem countsOk_deleteMin (t : TreeNode K V) (h : CountsOk t) : CountsOk (deleteMin t) := by
  induction t with
  | nil => simp [deleteMin, CountsOk]
  | node l r k v n ihl ihr =>
      simp only [CountsOk] at h
      cases l with
      | nil => simp only [deleteMin]; exact h.2.1
      | node ll lr lk lv ln =>
          simp only [deleteMin, CountsOk]
          refine ⟨ihl h.1, h.2.1, ?_⟩
          rw [size_eq_numNodes _ (ihl h.1), size_eq_numNodes _ h.2.1]; push_cast; ring

/-- The function `deleteMax` keeps the counts correct. -/
theorem countsOk_deleteMax (t : TreeNode K V) (h : CountsOk t) : CountsOk (deleteMax t) := by
  induction t with
  | nil => simp [deleteMax, CountsOk]
  | node l r k v n ihl ihr =>
      simp only [CountsOk] at h
      cases r with
      | nil => simp only [deleteMax]; exact h.1
      | node rl rr rk rv rn =>
          simp only [deleteMax, CountsOk]
          refine ⟨h.1, ihr h.2.1, ?_⟩
          rw [size_eq_numNodes _ (ihr h.2.1), size_eq_numNodes _ h.1]; push_cast; ring

/-- The function `choose` returns the node whose key is at position `i` of the
keys in order. -/
theorem choose_key (t : TreeNode K V) (h : CountsOk t) :
    ∀ i : Int, 0 ≤ i → i < size t → nodeKey (choose t i) = (keys t)[i.toNat]? := by
  induction t with
  | nil => intro i h0 h1; simp [size] at h1; omega
  | node l r k v n ihl ihr =>
      intro i h0 h1
      simp only [CountsOk] at h
      have hsl : size l = ((keys l).length : Int) := by
        rw [size_eq_numNodes l h.1, length_keys]
      have hsr : size r = ((keys r).length : Int) := by
        rw [size_eq_numNodes r h.2.1, length_keys]
      have hn : n = (keys l).length + (keys r).length + 1 := by
        rw [h.2.2, length_keys, length_keys]; push_cast; ring
      simp only [size] at h1
      simp only [choose, keys]
      by_cases c1 : i < size l
      · rw [if_pos c1, ihl h.1 i h0 c1, List.getElem?_append_left (by omega)]
      · rw [if_neg c1]
        by_cases c2 : i > size l
        · rw [if_pos c2, ihr h.2.1 _ (by omega) (by omega),
            List.getElem?_append_right (by omega)]
          have e : i.toNat - (keys l).length = (i - size l - 1).toNat + 1 := by omega
          rw [e, List.getElem?_cons_succ]
        · rw [if_neg c2]
          have e : i.toNat = (keys l).length := by omega
          rw [List.getElem?_append_right (by omega), e]
          simp [nodeKey]

end

section
variable {K V : Type} [comparable.Comparable K]

/-- The function `put` keeps the counts correct. -/
theorem countsOk_put (t : TreeNode K V) (key : K) (value : V) (h : CountsOk t) :
    CountsOk (put t key value) := by
  induction t with
  | nil => simp [put, NewTreeNode, CountsOk, numNodes]
  | node l r k v n ihl ihr =>
      simp only [CountsOk] at h
      simp only [put]
      split
      · simp only [CountsOk]
        refine ⟨ihl h.1, h.2.1, ?_⟩
        rw [size_eq_numNodes _ (ihl h.1), size_eq_numNodes _ h.2.1]; push_cast; ring
      · split
        · simp only [CountsOk]
          refine ⟨h.1, ihr h.2.1, ?_⟩
          rw [size_eq_numNodes _ (ihr h.2.1), size_eq_numNodes _ h.1]; push_cast; ring
        · simp only [CountsOk]
          refine ⟨h.1, h.2.1, ?_⟩
          rw [size_eq_numNodes _ h.1, size_eq_numNodes _ h.2.1]; push_cast; ring

/-- The function `deleteKey` keeps the counts correct. -/
theorem countsOk_deleteKey (t : TreeNode K V) (key : K) (h : CountsOk t) :
    CountsOk (deleteKey t key) := by
  induction t with
  | nil => simp [deleteKey, CountsOk]
  | node l r k v n ihl ihr =>
      simp only [CountsOk] at h
      simp only [deleteKey]
      split
      · simp only [CountsOk]
        refine ⟨ihl h.1, h.2.1, ?_⟩
        rw [size_eq_numNodes _ (ihl h.1), size_eq_numNodes _ h.2.1]; push_cast; ring
      · split
        · simp only [CountsOk]
          refine ⟨h.1, ihr h.2.1, ?_⟩
          rw [size_eq_numNodes _ (ihr h.2.1), size_eq_numNodes _ h.1]; push_cast; ring
        · split
          · exact h.2.1
          · exact h.1
          · rename_i hl hr
            obtain ⟨mr, mk, mv, mn, hm⟩ := minTreeNode_shape r (by
              intro e; exact hr e)
            rw [hm]
            simp only [CountsOk]
            refine ⟨trivial, countsOk_deleteMin r h.2.1, ?_⟩
            rw [size_eq_numNodes _ (countsOk_deleteMin r h.2.1)]
            simp [size, numNodes]

/-- Every operation keeps the counts correct. -/
theorem countsOk_apply (t : BST K V) (op : TreeOp K V) (h : CountsOk t.root) :
    CountsOk (t.apply op).root := by
  cases op with
  | put key value => exact countsOk_put t.root key value h
  | delete key => exact countsOk_deleteKey t.root key h
  | deleteMin =>
      simp only [BST.apply, BST.DeleteMin]
      split
      · exact h
      · exact countsOk_deleteMin t.root h
  | deleteMax =>
      simp only [BST.apply, BST.DeleteMax]
      split
      · exact h
      · exact countsOk_deleteMax t.root h

/-- Every sequence of operations keeps the counts correct. -/
theorem countsOk_foldl (ops : List (TreeOp K V)) :
    ∀ t : BST K V, CountsOk t.root → CountsOk (ops.foldl BST.apply t).root := by
  induction ops with
  | nil => intro t h; exact h
  | cons op ops ih => intro t h; exact ih _ (countsOk_apply t op h)

/-- The counts of every tree built from the empty tree by a sequence of `Put`,
`Delete`, `DeleteMin` and `DeleteMax` are correct, whatever `CompareTo` returns:
the field `n` of each node is the number of nodes of the subtree rooted at it,
and `Size()` is the number of nodes of the tree. -/
theorem Size_counts_nodes (ops : List (TreeOp K V)) :
    CountsOk (BST.build ops).root
      ∧ (BST.build ops).Size = (numNodes (BST.build ops).root : Int) := by
  have h0 : CountsOk (BST.empty : BST K V).root := trivial
  have h1 : CountsOk (BST.build ops).root := countsOk_foldl ops _ h0
  exact ⟨h1, size_eq_numNodes _ h1⟩

/-- A key found by `contains` is still found after a `put`. -/
theorem contains_put_of_contains (t : TreeNode K V) (key : K) (value : V) (x : K)
    (h : contains t x = true) : contains (put t key value) x = true := by
  induction t with
  | nil => simp [contains] at h
  | node l r k v n ihl ihr =>
      simp only [contains] at h
      simp only [put]
      split
      · simp only [contains]
        split
        · rename_i hx
          rw [if_pos hx] at h
          exact ihl h
        · rename_i hx
          rw [if_neg hx] at h
          exact h
      · split
        · simp only [contains]
          split
          · rename_i hx
            rw [if_pos hx] at h
            exact h
          · rename_i hx
            rw [if_neg hx] at h
            split
            · rename_i hy
              rw [if_pos hy] at h
              exact ihr h
            · rfl
        · simp only [contains]
          exact h

/-- The key put is found afterwards, when its comparison with itself is zero. -/
theorem contains_put_self (t : TreeNode K V) (key : K) (value : V)
    (h0 : comparable.Comparable.CompareTo key key = 0) :
    contains (put t key value) key = true := by
  induction t with
  | nil => simp [put, NewTreeNode, contains, h0]
  | node l r k v n ihl ihr =>
      simp only [put]
      split
      · rename_i h1
        simp only [contains, if_pos h1]
        exact ihl
      · rename_i h1
        split
        · rename_i h2
          simp only [contains, if_neg h1, if_pos h2]
          exact ihr
        · rename_i h2
          simp only [contains, if_neg h1, if_neg h2]

/-- A key found by `contains` compares as zero with a key of the tree. -/
theorem exists_of_contains (t : TreeNode K V) (key : K) (h : contains t key = true) :
    ∃ x ∈ keys t, comparable.Comparable.CompareTo key x = 0 := by
  induction t with
  | nil => simp [contains] at h
  | node l r k v n ihl ihr =>
      simp only [contains] at h
      simp only [keys, List.mem_append, List.mem_cons]
      split at h
      · obtain ⟨x, hx, e⟩ := ihl h
        exact ⟨x, Or.inl hx, e⟩
      · rename_i h1
        split at h
        · obtain ⟨x, hx, e⟩ := ihr h
          exact ⟨x, Or.inr (Or.inr hx), e⟩
        · rename_i h2
          exact ⟨k, Or.inr (Or.inl rfl), by omega⟩

/-- The keys after a `put`: the same when the key is found, one more key
otherwise. -/
theorem keys_put (t : TreeNode K V) (key : K) (value : V) :
    (contains t key = true → keys (put t key value) = keys t)
      ∧ (contains t key = false → (keys (put t key value)).Perm (key :: keys t)) := by
  induction t with
  | nil =>
      constructor
      · intro h; simp [contains] at h
      · intro _; simp [put, NewTreeNode, keys]
  | node l r k v n ihl ihr =>
      simp only [contains, put]
      split
      · simp only [keys]
        constructor
        · intro h; rw [ihl.1 h]
        · intro h
          exact ((ihl.2 h).append_right (k :: keys r)).trans (by simp)
      · split
        · simp only [keys]
          constructor
          · intro h; rw [ihr.1 h]
          · intro h
            have h1 : (keys l ++ k :: keys (put r key value)).Perm
                (keys l ++ k :: key :: keys r) :=
              List.Perm.append_left _ (List.Perm.cons k (ihr.2 h))
            refine h1.trans ?_
            have h2 : (keys l ++ k :: key :: keys r).Perm (key :: (keys l ++ k :: keys r)) := by
              have e : keys l ++ k :: key :: keys r = (keys l ++ [k]) ++ key :: keys r := by simp
              have e2 : keys l ++ k :: keys r = (keys l ++ [k]) ++ keys r := by simp
              rw [e, e2]
              exact List.perm_middle
            exact h2
        · simp only [keys]
          constructor
          · intro _; trivial
          · intro h; simp at h

end

section
variable {K V : Type} [LinearOrder K]

/-- The parts of an ordered tree. -/
theorem ordered_node (l r : TreeNode K V) (k : K) (v : V) (n : Int)
    (h : Ordered (TreeNode.node l r k v n)) :
    Ordered l ∧ Ordered r ∧ (∀ x ∈ keys l, x < k) ∧ (∀ y ∈ keys r, k < y) := by
  unfold Ordered at h ⊢
  simp only [keys] at h
  rw [List.pairwise_append, List.pairwise_cons] at h
  exact ⟨h.1, h.2.1.2, fun x hx => h.2.2 x hx k (List.mem_cons_self _ _), h.2.1.1⟩

/-- Building an ordered tree from ordered parts. -/
theorem ordered_node_of (l r : TreeNode K V) (k : K) (v : V) (n : Int)
    (hl : Ordered l) (hr : Ordered r) (h1 : ∀ x ∈ keys l, x < k) (h2 : ∀ y ∈ keys r, k < y) :
    Ordered (TreeNode.node l r k v n) := by
  unfold Ordered at hl hr ⊢
  simp only [keys]
  rw [List.pairwise_append, List.pairwise_cons]
  refine ⟨hl, ⟨h2, hr⟩, ?_⟩
  intro x hx y hy
  rw [List.mem_cons] at hy
  rcases hy with hy | hy
  · subst hy; exact h1 x hx
  · exact lt_trans (h1 x hx) (h2 y hy)

/-- In a strictly increasing list the number of elements below the element at
position `i` is `i`. -/
theorem countP_lt_getElem (l : List K) (hl : l.Pairwise (fun a b => a < b)) :
    ∀ (i : Nat) (hi : i < l.length), l.countP (fun x => decide (x < l[i])) = i := by
  induction l with
  | nil => intro i hi; simp at hi
  | cons a l ih =>
      rw [List.pairwise_cons] at hl
      intro i hi
      cases i with
      | zero =>
          simp only [List.getElem_cons_zero, List.countP_cons, lt_self_iff_false, decide_False]
          simp only [Bool.false_eq_true, if_false, add_zero]
          rw [List.countP_eq_zero]
          intro y hy
          simp only [decide_eq_true_eq]
          exact not_lt_of_lt (hl.1 y hy)
      | succ i =>
          simp only [List.getElem_cons_succ, List.countP_cons]
          have hi2 : i < l.length := by simpa using hi
          rw [ih hl.2 i hi2]
          have : a < l[i] := hl.1 _ (List.getElem_mem hi2)
          simp [this]

end

section
variable {K V : Type} [comparable.Comparable K] [LinearOrder K]

/-- The function `rank` counts the keys below the key asked for, when the
comparisons of that key with the keys of the tree agree with the order. -/
theorem rank_eq_countP (t : TreeNode K V) (key : K) (h : WellFormed t)
    (ha : ∀ x ∈ keys t, Agrees key x) :
    rank t key = ((keys t).countP (fun x => decide (x < key)) : Int) := by
  induction t with
  | nil => simp [rank, keys]
  | node l r k v n ihl ihr =>
      obtain ⟨ho, hc⟩ := h
      obtain ⟨hol, hor, hlt, hgt⟩ := ordered_node l r k v n ho
      simp only [CountsOk] at hc
      have hsl : size l = ((keys l).length : Int) := by
        rw [size_eq_numNodes l hc.1, length_keys]
      have hal : ∀ x ∈ keys l, Agrees key x := fun x hx =>
        ha x (by simp only [keys, List.mem_append]; exact Or.inl hx)
      have har : ∀ x ∈ keys r, Agrees key x := fun x hx =>
        ha x (by simp only [keys, List.mem_append, List.mem_cons]; exact Or.inr (Or.inr hx))
      have hak : Agrees key k :=
        ha k (by simp [keys])
      simp only [rank, keys, List.countP_append, List.countP_cons, hak.1, hak.2]
      by_cases h1 : key < k
      · rw [if_pos h1, ihl ⟨hol, hc.1⟩ hal]
        have hk : ¬ k < key := not_lt_of_lt h1
        have hr0 : (keys r).countP (fun x => decide (x < key)) = 0 := by
          rw [List.countP_eq_zero]
          intro y hy
          simp only [decide_eq_true_eq]
          exact not_lt_of_lt (lt_trans h1 (hgt y hy))
        simp [hk, hr0]
      · rw [if_neg h1]
        by_cases h2 : k < key
        · rw [if_pos h2, ihr ⟨hor, hc.2.1⟩ har, hsl]
          have hl0 : (keys l).countP (fun x => decide (x < key)) = (keys l).length := by
            rw [List.countP_eq_length]
            intro x hx
            simp only [decide_eq_true_eq]
            exact lt_trans (hlt x hx) h2
          simp [h2, hl0]
          ring
        · rw [if_neg h2, hsl]
          have hkk : key = k := le_antisymm (not_lt.1 h2) (not_lt.1 h1)
          subst hkk
          have hl0 : (keys l).countP (fun x => decide (x < key)) = (keys l).length := by
            rw [List.countP_eq_length]
            intro x hx
            simp only [decide_eq_true_eq]
            exact hlt x hx
          have hr0 : (keys r).countP (fun x => decide (x < key)) = 0 := by
            rw [List.countP_eq_zero]
            intro y hy
            simp only [decide_eq_true_eq]
            exact not_lt_of_lt (hgt y hy)
          simp [hl0, hr0]

/-- The function `put` keeps the keys ordered and adds the key put to them,
when the comparisons of that key with the keys of the tree agree with the
order. -/
theorem put_keys (t : TreeNode K V) (key : K) (value : V) (h : Ordered t)
    (ha : ∀ x ∈ keys t, Agrees key x) :
    Ordered (put t key value) ∧ ∀ x, x ∈ keys (put t key value) ↔ x = key ∨ x ∈ keys t := by
  induction t with
  | nil => simp [put, NewTreeNode, Ordered, keys]
  | node l r k v n ihl ihr =>
      obtain ⟨hol, hor, hlt, hgt⟩ := ordered_node l r k v n h
      have hal : ∀ x ∈ keys l, Agrees key x := fun x hx =>
        ha x (by simp only [keys, List.mem_append]; exact Or.inl hx)
      have har : ∀ x ∈ keys r, Agrees key x := fun x hx =>
        ha x (by simp only [keys, List.mem_append, List.mem_cons]; exact Or.inr (Or.inr hx))
      have hak : Agrees key k :=
        ha k (by simp [keys])
      simp only [put, hak.1, hak.2]
      by_cases h1 : key < k
      · rw [if_pos h1]
        obtain ⟨i1, i2⟩ := ihl hol hal
        constructor
        · apply ordered_node_of _ _ _ _ _ i1 hor _ hgt
          intro x hx
          rcases (i2 x).1 hx with e | e
          · rw [e]; exact h1
          · exact hlt x e
        · intro x
          simp only [keys, List.mem_append, List.mem_cons, i2]
          tauto
      · rw [if_neg h1]
        by_cases h2 : k < key
        · rw [if_pos h2]
          obtain ⟨i1, i2⟩ := ihr hor har
          constructor
          · apply ordered_node_of _ _ _ _ _ hol i1 hlt
            intro y hy
            rcases (i2 y).1 hy with e | e
            · rw [e]; exact h2
            · exact hgt y e
          · intro x
            simp only [keys, List.mem_append, List.mem_cons, i2]
            tauto
        · rw [if_neg h2]
          have hkk : key = k := le_antisymm (not_lt.1 h2) (not_lt.1 h1)
          subst hkk
          constructor
          · exact ordered_node_of _ _ _ _ _ hol hor hlt hgt
          · intro x
            simp only [keys, List.mem_append, List.mem_cons]
            tauto

/-- A sequence of `Put` keeps the tree well formed and adds the keys put, when
the comparisons of the keys put with the keys of the tree and with each other
agree with the order. -/
theorem puts_keys (puts : List (K × V)) :
    ∀ t : BST K V, WellFormed t.root →
      (∀ p ∈ puts, ∀ x, x ∈ keys t.root ∨ x ∈ puts.map Prod.fst → Agrees p.1 x) →
      WellFormed (puts.foldl (fun t p => t.Put p.1 p.2) t).root
        ∧ ∀ x, x ∈ keys (puts.foldl (fun t p => t.Put p.1 p.2) t).root ↔
            x ∈ keys t.root ∨ x ∈ puts.map Prod.fst := by
  induction puts with
  | nil => intro t h _; simp [h]
  | cons p puts ih =>
      intro t h ha
      obtain ⟨h1, h2⟩ := put_keys t.root p.1 p.2 h.1
        (fun x hx => ha p (List.mem_cons_self _ _) x (Or.inl hx))
      obtain ⟨i1, i2⟩ := ih (t.Put p.1 p.2) ⟨h1, countsOk_put t.root p.1 p.2 h.2⟩ (by
        intro q hq x hx
        apply ha q (List.mem_cons_of_mem _ hq) x
        rcases hx with hx | hx
        · simp only [BST.Put, h2] at hx
          rcases hx with hx | hx
          · right; rw [hx]; simp
          · left; exact hx
        · right; simp only [List.map_cons, List.mem_cons]; right; exact hx)
      refine ⟨i1, ?_⟩
      intro x
      simp only [List.foldl_cons, List.map_cons, List.mem_cons]
      rw [i2]
      simp only [BST.Put, h2]
      tauto

/-- On a well-formed binary search tree (ordered keys, correct subtree counts),
for a key `k` whose comparisons with the keys of the tree agree with the order,
`Rank(k)` is the number of keys of the tree that are strictly less than `k`. -/
theorem Rank_eq_number_of_smaller_keys (t : BST K V) (h : WellFormed t.root) (k : K)
    (ha : ∀ x ∈ keys t.root, Agrees k x) :
    t.Rank k = (((keys t.root).filter (fun x => decide (x < k))).length : Int) := by
  unfold BST.Rank
  rw [rank_eq_countP t.root k h ha, List.countP_eq_length_filter]

/-- On a well-formed binary search tree of size `n`, `Choose(i)` is nil when
`i < 0` or `i >= n`, and for `0 <= i < n` it is a node whose key is the key at
position `i` of the keys in increasing order; when the comparisons between the
keys of the tree agree with the order, `Rank` of that key is `i`, and for every
key `k` of the tree `Choose(Rank(k))` is a node with key `k`. -/
theorem Choose_Rank_inverse (t : BST K V) (h : WellFormed t.root) :
    (∀ i : Int, i < 0 ∨ i ≥ t.Size → t.Choose i = TreeNode.nil)
      ∧ (∀ i : Int, 0 ≤ i → i < t.Size →
          ∃ k, nodeKey (t.Choose i) = some k ∧ (keys t.root)[i.toNat]? = some k)
      ∧ ((∀ a ∈ keys t.root, ∀ b ∈ keys t.root, Agrees a b) →
          (∀ i : Int, 0 ≤ i → i < t.Size →
            ∃ k, nodeKey (t.Choose i) = some k ∧ t.Rank k = i)
          ∧ (∀ k ∈ keys t.root, nodeKey (t.Choose (t.Rank k)) = some k)) := by
  have hlen : t.Size = ((keys t.root).length : Int) := by
    unfold BST.Size
    rw [size_eq_numNodes t.root h.2, length_keys]
  have hchoose : ∀ (i : Int) (hi : i.toNat < (keys t.root).length), 0 ≤ i → i < t.Size →
      nodeKey (t.Choose i) = some ((keys t.root)[i.toNat]) := by
    intro i hi h0 h1
    unfold BST.Choose
    rw [if_neg (by omega), choose_key t.root h.2 i h0 h1, List.getElem?_eq_getElem hi]
  refine ⟨?_, ?_, ?_⟩
  · intro i hi
    unfold BST.Choose
    rw [if_pos hi]
  · intro i h0 h1
    have hi : i.toNat < (keys t.root).length := by omega
    exact ⟨_, hchoose i hi h0 h1, List.getElem?_eq_getElem hi⟩
  · intro ha
    have hrank : ∀ (j : Nat) (hj : j < (keys t.root).length),
        t.Rank ((keys t.root)[j]) = (j : Int) := by
      intro j hj
      unfold BST.Rank
      rw [rank_eq_countP t.root _ h (fun x hx => ha _ (List.getElem_mem hj) x hx),
        countP_lt_getElem (keys t.root) h.1 j hj]
    constructor
    · intro i h0 h1
      have hi : i.toNat < (keys t.root).length := by omega
      refine ⟨(keys t.root)[i.toNat], hchoose i hi h0 h1, ?_⟩
      rw [hrank i.toNat hi]
      omega
    · intro k hk
      obtain ⟨j, hj, hjk⟩ := List.getElem_of_mem hk
      have hr : t.Rank k = (j : Int) := by rw [← hjk]; exact hrank j hj
      have hc := hchoose (j : Int) (by simpa using hj) (by omega) (by omega)
      rw [hr, hc]
      simp only [Int.toNat_ofNat, hjk]

end

section
variable {K V : Type} [comparable.Comparable K]

/-- One `put` on a tree in which every key is found by `contains`: the keys stay
distinct and found, and the key put is added to them, when that key compares as
zero with itself and with no other key of the tree. -/
theorem put_found (t : TreeNode K V) (key : K) (value : V)
    (hN : (keys t).Nodup) (hF : ∀ x ∈ keys t, contains t x = true)
    (hz : ∀ x, x = key ∨ x ∈ keys t → ZeroIffEq key x) :
    (keys (put t key value)).Nodup
      ∧ (∀ x ∈ keys (put t key value), contains (put t key value) x = true)
      ∧ ∀ x, x ∈ keys (put t key value) ↔ x = key ∨ x ∈ keys t := by
  have h0 : comparable.Comparable.CompareTo key key = 0 := (hz key (Or.inl rfl)).2 rfl
  cases hc : contains t key with
  | true =>
      obtain ⟨x, hx, e⟩ := exists_of_contains t key hc
      have hkx : key = x := (hz x (Or.inr hx)).1 e
      have hk : key ∈ keys t := by rw [hkx]; exact hx
      rw [(keys_put t key value).1 hc]
      refine ⟨hN, fun y hy => contains_put_of_contains t key value y (hF y hy), ?_⟩
      intro y
      constructor
      · intro hy; exact Or.inr hy
      · intro hy
        rcases hy with hy | hy
        · rw [hy]; exact hk
        · exact hy
  | false =>
      have hp := (keys_put t key value).2 hc
      have hk : key ∉ keys t := by
        intro hk
        rw [hF key hk] at hc
        exact absurd hc (by simp)
      refine ⟨hp.nodup_iff.2 (List.nodup_cons.2 ⟨hk, hN⟩), ?_, ?_⟩
      · intro y hy
        rcases List.mem_cons.1 (hp.mem_iff.1 hy) with e | e
        · rw [e]; exact contains_put_self t key value h0
        · exact contains_put_of_contains t key value y (hF y e)
      · intro y
        rw [hp.mem_iff, List.mem_cons]

/-- A sequence of `Put` on a tree in which every key is found: the keys stay
distinct and the keys put are added to them, when a key put compares as zero
with itself and with no other key. -/
theorem puts_found (puts : List (K × V)) :
    ∀ t : BST K V, (keys t.root).Nodup → (∀ x ∈ keys t.root, contains t.root x = true) →
      (∀ p ∈ puts, ∀ x, x ∈ keys t.root ∨ x ∈ puts.map Prod.fst → ZeroIffEq p.1 x) →
      (keys (puts.foldl (fun t p => t.Put p.1 p.2) t).root).Nodup
        ∧ ∀ x, x ∈ keys (puts.foldl (fun t p => t.Put p.1 p.2) t).root ↔
            x ∈ keys t.root ∨ x ∈ puts.map Prod.fst := by
  induction puts with
  | nil => intro t hN _ _; simp [hN]
  | cons p puts ih =>
      intro t hN hF hz
      obtain ⟨h1, h2, h3⟩ := put_found t.root p.1 p.2 hN hF (by
        intro x hx
        apply hz p (List.mem_cons_self _ _) x
        rcases hx with hx | hx
        · right; rw [hx]; simp
        · left; exact hx)
      obtain ⟨i1, i2⟩ := ih (t.Put p.1 p.2) h1 h2 (by
        intro q hq x hx
        apply hz q (List.mem_cons_of_mem _ hq) x
        rcases hx with hx | hx
        · simp only [BST.Put, h3] at hx
          rcases hx with hx | hx
          · right; rw [hx]; simp
          · left; exact hx
        · right; simp only [List.map_cons, List.mem_cons]; right; exact hx)
      refine ⟨i1, ?_⟩
      intro x
      simp only [List.foldl_cons, List.map_cons, List.mem_cons]
      rw [i2]
      simp only [BST.Put, h3]
      tauto

/-- After a sequence of `Put` only, `Size()` is the number of distinct keys put,
when the comparison of two keys put is zero exactly for equal keys. -/
theorem Size_after_puts [DecidableEq K] (puts : List (K × V))
    (hz : ∀ a ∈ puts.map Prod.fst, ∀ b ∈ puts.map Prod.fst, ZeroIffEq a b) :
    (puts.foldl (fun t p => t.Put p.1 p.2) BST.empty).Size =
      ((puts.map Prod.fst).toFinset.card : Int) := by
  obtain ⟨hN, hk⟩ := puts_found puts (BST.empty : BST K V) List.nodup_nil
    (by intro x hx; simp [BST.empty, keys] at hx)
    (by
      intro p hp x hx
      apply hz p.1 (List.mem_map_of_mem _ hp) x
      rcases hx with hx | hx
      · simp [BST.empty, keys] at hx
      · exact hx)
  have hc : CountsOk (puts.foldl (fun t p => t.Put p.1 p.2) (BST.empty : BST K V)).root := by
    have : ∀ (l : List (K × V)) (t : BST K V), CountsOk t.root →
        CountsOk (l.foldl (fun t p => t.Put p.1 p.2) t).root := by
      intro l
      induction l with
      | nil => intro t h; exact h
      | cons p l ih => intro t h; exact ih _ (countsOk_put t.root p.1 p.2 h)
    exact this puts _ trivial
  unfold BST.Size
  rw [size_eq_numNodes _ hc, ← length_keys, ← List.toFinset_card_of_nodup hN]
  congr 2
  ext x
  simp only [List.mem_toFinset]
  rw [hk]
  simp [BST.empty, keys]

end

/-- The comparison of two `Int` keys agrees with their order when their
difference is in the range of `int`. -/
theorem Int_agrees (a b : Int) (h1 : -(2 ^ 63) ≤ a - b) (h2 : a - b < 2 ^ 63) :
    Agrees a b := by
  have hw : comparable.wrapInt (a - b) = a - b := by
    unfold comparable.wrapInt
    omega
  unfold Agrees
  simp only [comparable.Comparable.CompareTo, comparable.Int.CompareTo, hw]
  constructor
  · split
    · simp; omega
    · split
      · simp; omega
      · simp; omega
  · split
    · simp; omega
    · split
      · simp; omega
      · simp; omega

/-- The comparison of two `Int` keys in the range of `int` is zero exactly when
they are equal, wrap-around or not. -/
theorem Int_zeroIffEq (a b : Int) (ha1 : -(2 ^ 63) ≤ a) (ha2 : a < 2 ^ 63)
    (hb1 : -(2 ^ 63) ≤ b) (hb2 : b < 2 ^ 63) : ZeroIffEq a b := by
  unfold ZeroIffEq
  simp only [comparable.Comparable.CompareTo, comparable.Int.CompareTo, comparable.wrapInt]
  split
  · simp; omega
  · split
    · simp; omega
    · simp; omega

/-- The comparison of two `Float64` keys, neither a NaN, is zero exactly when
they are equal. -/
theorem Float64_zeroIffEq (a b : comparable.Float64)
    (ha : a ≠ comparable.Float64.nan) (hb : b ≠ comparable.Float64.nan) : ZeroIffEq a b := by
  unfold ZeroIffEq
  cases a with
  | nan => exact absurd rfl ha
  | negInf =>
      cases b <;>
        simp_all [comparable.Comparable.CompareTo, comparable.Float64.CompareTo,
          comparable.Float64.sub, comparable.Float64.ltZero, comparable.Float64.gtZero]
  | posInf =>
      cases b <;>
        simp_all [comparable.Comparable.CompareTo, comparable.Float64.CompareTo,
          comparable.Float64.sub, comparable.Float64.ltZero, comparable.Float64.gtZero]
  | finite x =>
      cases b with
      | nan => exact absurd rfl hb
      | negInf =>
          simp [comparable.Comparable.CompareTo, comparable.Float64.CompareTo,
            comparable.Float64.sub, comparable.Float64.ltZero, comparable.Float64.gtZero]
      | posInf =>
          simp [comparable.Comparable.CompareTo, comparable.Float64.CompareTo,
            comparable.Float64.sub, comparable.Float64.ltZero, comparable.Float64.gtZero]
      | finite y =>
          simp only [comparable.Comparable.CompareTo, comparable.Float64.CompareTo,
            comparable.Float64.sub, comparable.Float64.ltZero, comparable.Float64.gtZero,
            decide_eq_true_eq, comparable.Float64.finite.injEq]
          split
          · rename_i h
            constructor
            · intro e; omega
            · intro e; rw [e] at h; simp at h
          · split
            · rename_i h1 h2
              constructor
              · intro e; omega
              · intro e; rw [e] at h2; simp at h2
            · rename_i h1 h2
              constructor
              · intro _; linarith
              · intro _; rfl

/-- The shape of the tree with keys 2, 1, 3. -/
theorem tree213_root :
    tree213.root =
      TreeNode.node (TreeNode.node TreeNode.nil TreeNode.nil 1 "one" 1)
        (TreeNode.node TreeNode.nil TreeNode.nil 3 "three" 1) 2 "two" 3 := by
  decide

/-- The tree with keys 2, 1, 3 is well formed. -/
theorem tree213_wellFormed : WellFormed tree213.root := by
  rw [tree213_root]
  constructor
  · unfold Ordered
    decide
  · simp [CountsOk, numNodes]

/-- In the tree with keys 1, 2, 3 the rank of 3 is 2. -/
theorem Rank_eq_number_of_smaller_keys_witness :
    tree213.Rank 3 = (((keys tree213.root).filter (fun x => decide (x < 3))).length : Int) :=
  Rank_eq_number_of_smaller_keys tree213 tree213_wellFormed 3 (by
    rw [tree213_root]
    intro x hx
    simp only [keys, List.nil_append, List.cons_append, List.mem_cons, List.mem_nil_iff,
      or_false] at hx
    rcases hx with e | e | e <;> subst e <;> exact Int_agrees _ _ (by decide) (by decide))

/-- In the tree with keys 1, 2, 3, `Choose(Rank(2))` is the node with key 2. -/
theorem Choose_Rank_inverse_witness :
    nodeKey (tree213.Choose (tree213.Rank 2)) = some 2 :=
  ((Choose_Rank_inverse tree213 tree213_wellFormed).2.2 (by
    rw [tree213_root]
    intro a ha b hb
    simp only [keys, List.nil_append, List.cons_append, List.mem_cons, List.mem_nil_iff,
      or_false] at ha hb
    rcases ha with e | e | e <;> subst e <;> rcases hb with e | e | e <;> subst e <;>
      exact Int_agrees _ _ (by decide) (by decide))).2 2 (by rw [tree213_root]; simp [keys])

/-- C15 (the code departs from the claim): in the well-formed tree with keys
1, 2, 3 (root 2, children 1 and 3), `Delete(2)` removes a node with two
children.  The minimum node 3 of the right subtree takes its place, its `right`
is set, its `left` is not: the result is the single node 3.  Key 1 is lost
(`Contains(1)` is false, `Get(1)` is nil) and `Size()` is 1, not 2. -/
theorem Delete_two_children_loses_left_subtree :
    tree213.root =
        TreeNode.node (TreeNode.node TreeNode.nil TreeNode.nil 1 "one" 1)
          (TreeNode.node TreeNode.nil TreeNode.nil 3 "three" 1) 2 "two" 3
      ∧ (tree213.Delete 2).root = TreeNode.node TreeNode.nil TreeNode.nil 3 "three" 1
      ∧ tree213.Contains 1 = true
      ∧ (tree213.Delete 2).Contains 1 = false
      ∧ tree213.Get 1 = some "one"
      ∧ (tree213.Delete 2).Get 1 = none
      ∧ tree213.Size = 3
      ∧ (tree213.Delete 2).Size = 1 := by
  decide

/-- C16 (the code departs from the claim): the tree built by `Put(Int(1), "one")`
holds the single key 1 and is well formed, and no key of it is less than the
least `int`, `-9223372036854775808`; yet `Rank` of that key is 1, not 0: the
subtraction in `Int.CompareTo` wraps around, `CompareTo` returns 1, and `rank`
counts the key 1 as smaller. -/
theorem Rank_of_least_int_counts_greater_key :
    treeOne.root = TreeNode.node TreeNode.nil TreeNode.nil 1 "one" 1
      ∧ WellFormed treeOne.root
      ∧ treeOne.Size = (numNodes treeOne.root : Int)
      ∧ comparable.Comparable.CompareTo (-9223372036854775808 : Int) 1 = 1
      ∧ treeOne.Rank (-9223372036854775808) = 1
      ∧ ((keys treeOne.root).filter (fun x => decide (x < -9223372036854775808))).length = 0 := by
  have hroot : treeOne.root = TreeNode.node TreeNode.nil TreeNode.nil 1 "one" 1 := by decide
  refine ⟨hroot, ?_, by decide, by decide, by decide, by decide⟩
  rw [hroot]
  constructor
  · unfold Ordered
    decide
  · simp [CountsOk, numNodes]

/-- C17 (the code departs from the claim): the tree with root key 1 and the
least `int` as the key of its left child is well formed, of size 2, and
`Choose(0)` is the node of the least `int`; yet `Rank` of that key is 2, not 0,
and `Choose(Rank(k))` is nil, not the node of `k`: the subtraction in
`Int.CompareTo` wraps around at the root. -/
theorem Choose_of_Rank_misses_least_int :
    keys treeMinOne.root = [-9223372036854775808, 1]
      ∧ WellFormed treeMinOne.root
      ∧ treeMinOne.Size = 2
      ∧ numNodes treeMinOne.root = 2
      ∧ nodeKey (treeMinOne.Choose 0) = some (-9223372036854775808)
      ∧ treeMinOne.Rank (-9223372036854775808) = 2
      ∧ treeMinOne.Choose (treeMinOne.Rank (-9223372036854775808)) = TreeNode.nil := by
  refine ⟨by decide, ?_, by decide, by decide, by decide, by decide, by decide⟩
  constructor
  · unfold Ordered
    decide
  · simp [treeMinOne, CountsOk, numNodes]

/-- C19 (the code departs from the claim): after `Put(Float64(1.0), "one")` and
`Put(Float64(NaN), "nan")`, two distinct keys have been put, yet the tree holds
one node, with key 1.0 and the value put with NaN, and `Size()` is 1:
`Float64.CompareTo` returns 0 when a key is NaN, so `put` takes the two keys for
equal. -/
theorem Put_of_NaN_updates_another_key :
    treeOneNaN.root =
        TreeNode.node TreeNode.nil TreeNode.nil (comparable.Float64.finite 1) "nan" 1
      ∧ treeOneNaN.Size = 1
      ∧ ([comparable.Float64.finite 1, comparable.Float64.nan].toFinset.card = 2)
      ∧ comparable.Comparable.CompareTo comparable.Float64.nan (comparable.Float64.finite 1) = 0
      ∧ comparable.Comparable.CompareTo (comparable.Float64.finite 1) comparable.Float64.nan = 0 := by
  refine ⟨by decide, by decide, by decide, by decide, by decide⟩

/-! ### Union-find -/

/-- One step of the search for the root. -/
theorem rootFuel_step (f : Nat) (pa : List Nat) (i : Nat) :
    rootFuel (f + 1) pa i =
      if pa.getD i 0 = i then i else rootFuel f pa (pa.getD i 0) := rfl

/-- With enough fuel for the ranks left above `i`, one more unit of fuel does
not change the root found. -/
theorem rootFuel_succ (pa rk : List Nat) (h : Forest pa rk) :
    ∀ (f i : Nat), i < pa.length → 256 ≤ f + rk.getD i 0 →
      rootFuel (f + 1) pa i = rootFuel f pa i := by
  intro f
  induction f with
  | zero =>
      intro i hi hf
      have := h.2.2.2 i hi
      omega
  | succ f ih =>
      intro i hi hf
      rw [rootFuel_step (f + 1) pa i, rootFuel_step f pa i]
      by_cases hr : pa.getD i 0 = i
      · rw [if_pos hr, if_pos hr]
      · rw [if_neg hr, if_neg hr]
        have := h.2.2.1 i hi hr
        exact ih _ (h.2.1 i hi) (by omega)

/-- With enough fuel the root found is the one found with fuel 256. -/
theorem rootFuel_eq (pa rk : List Nat) (h : Forest pa rk) (i : Nat) (hi : i < pa.length) :
    ∀ (k f : Nat), 256 ≤ f + rk.getD i 0 → rootFuel (f + k) pa i = rootFuel f pa i := by
  intro k
  induction k with
  | zero => intro f _; rfl
  | succ k ih =>
      intro f hf
      rw [← Nat.add_assoc, rootFuel_succ pa rk h (f + k) i hi (by omega)]
      exact ih f hf

/-- The root of `i` is `i` when `i` is its own parent, and the root of its
parent otherwise. -/
theorem rootFuel_unfold (pa rk : List Nat) (h : Forest pa rk) (i : Nat) (hi : i < pa.length) :
    rootFuel 256 pa i =
      if pa.getD i 0 = i then i else rootFuel 256 pa (pa.getD i 0) := by
  by_cases hr : pa.getD i 0 = i
  · rw [if_pos hr]
    show rootFuel (255 + 1) pa i = i
    rw [rootFuel_step, if_pos hr]
  · rw [if_neg hr]
    have h1 : rootFuel 256 pa i = rootFuel 255 pa (pa.getD i 0) := by
      show rootFuel (255 + 1) pa i = _
      rw [rootFuel_step, if_neg hr]
    rw [h1]
    have hlt := h.2.2.1 i hi hr
    exact (rootFuel_succ pa rk h 255 _ (h.2.1 i hi) (by omega)).symm

/-- The root of an element is an element that is its own parent, of rank at
least the rank of the element. -/
theorem rootFuel_isRoot (pa rk : List Nat) (h : Forest pa rk) :
    ∀ (m i : Nat), i < pa.length → 256 ≤ m + rk.getD i 0 →
      rootFuel 256 pa i < pa.length
        ∧ pa.getD (rootFuel 256 pa i) 0 = rootFuel 256 pa i
        ∧ rk.getD i 0 ≤ rk.getD (rootFuel 256 pa i) 0 := by
  intro m
  induction m with
  | zero =>
      intro i hi hm
      have := h.2.2.2 i hi
      omega
  | succ m ih =>
      intro i hi hm
      rw [rootFuel_unfold pa rk h i hi]
      by_cases hr : pa.getD i 0 = i
      · rw [if_pos hr]
        exact ⟨hi, hr, le_refl _⟩
      · rw [if_neg hr]
        have hlt := h.2.2.1 i hi hr
        obtain ⟨a, b, c⟩ := ih (pa.getD i 0) (h.2.1 i hi) (by omega)
        exact ⟨a, b, by omega⟩

/-- The root of an element: an index, its own parent, of rank at least the
rank of the element. -/
theorem root_spec (pa rk : List Nat) (h : Forest pa rk) (i : Nat) (hi : i < pa.length) :
    rootFuel 256 pa i < pa.length
      ∧ pa.getD (rootFuel 256 pa i) 0 = rootFuel 256 pa i
      ∧ rk.getD i 0 ≤ rk.getD (rootFuel 256 pa i) 0 :=
  rootFuel_isRoot pa rk h 256 i hi (by omega)

/-- Redirecting the link of `p` to an element `g` of higher rank in the same
tree keeps the forest and every root. -/
theorem forest_set_link (pa rk : List Nat) (h : Forest pa rk) (p g : Nat)
    (hp : p < pa.length) (hg : g < pa.length) (hrk : rk.getD p 0 < rk.getD g 0)
    (hroot : rootFuel 256 pa g = rootFuel 256 pa p) :
    Forest (pa.set p g) rk
      ∧ ∀ x, x < pa.length → rootFuel 256 (pa.set p g) x = rootFuel 256 pa x := by
  have hget : ∀ i, (pa.set p g).getD i 0 = if i = p then g else pa.getD i 0 := by
    intro i
    by_cases hip : i = p
    · subst hip
      rw [if_pos rfl, List.getD_eq_getElem _ _ (by simpa using hp)]
      simp
    · rw [if_neg hip]
      simp only [List.getD_eq_getElem?_getD]
      rw [List.getElem?_set_ne (fun e => hip e.symm)]
  have hF : Forest (pa.set p g) rk := by
    refine ⟨by simpa using h.1, ?_, ?_, ?_⟩
    · intro i hi
      rw [List.length_set] at hi ⊢
      rw [hget]
      split
      · exact hg
      · exact h.2.1 i hi
    · intro i hi hne
      rw [List.length_set] at hi
      rw [hget] at hne ⊢
      by_cases hip : i = p
      · subst hip; simpa using hrk
      · rw [if_neg hip] at hne ⊢
        exact h.2.2.1 i hi hne
    · intro i hi
      rw [List.length_set] at hi
      exact h.2.2.2 i hi
  refine ⟨hF, ?_⟩
  have key : ∀ (m x : Nat), x < pa.length → 256 ≤ m + rk.getD x 0 →
      rootFuel 256 (pa.set p g) x = rootFuel 256 pa x := by
    intro m
    induction m with
    | zero =>
        intro x hx hm
        have := h.2.2.2 x hx
        omega
    | succ m ih =>
        intro x hx hm
        rw [rootFuel_unfold _ rk hF x (by simpa using hx), hget]
        by_cases hxp : x = p
        · subst hxp
          rw [if_pos rfl]
          have hne : g ≠ x := fun e => by rw [e] at hrk; omega
          rw [if_neg hne, ih g hg (by omega), hroot]
        · rw [if_neg hxp, rootFuel_unfold pa rk h x hx]
          by_cases hr : pa.getD x 0 = x
          · rw [if_pos hr, if_pos hr]
          · rw [if_neg hr, if_neg hr]
            have hlt := h.2.2.1 x hx hr
            exact ih _ (h.2.1 x hx) (by omega)
  intro x hx
  exact key 256 x hx (by omega)

/-- Reading a slice inside its bounds. -/
theorem getElem?_eq_some_getD (l : List Nat) (i : Nat) (hi : i < l.length) :
    l[i]? = some (l.getD i 0) := by
  rw [List.getElem?_eq_getElem hi, List.getD_eq_getElem _ _ hi]

/-- Reading a slice after a write. -/
theorem getD_set (l : List Nat) (p g i : Nat) (hp : p < l.length) :
    (l.set p g).getD i 0 = if i = p then g else l.getD i 0 := by
  by_cases hip : i = p
  · subst hip
    rw [if_pos rfl, List.getD_eq_getElem _ _ (by simpa using hp)]
    simp
  · rw [if_neg hip]
    simp only [List.getD_eq_getElem?_getD]
    rw [List.getElem?_set_ne (fun e => hip e.symm)]

/-- The loop of `find`, given enough fuel, returns the root, keeps the forest,
every root and the set of roots. -/
theorem findLoop_spec (rk : List Nat) :
    ∀ (fuel : Nat) (pa : List Nat) (p : Nat), Forest pa rk → p < pa.length →
      256 ≤ fuel + rk.getD p 0 →
      ∃ pa1, findLoop fuel pa p = some (some (rootFuel 256 pa p, pa1))
        ∧ Forest pa1 rk ∧ pa1.length = pa.length
        ∧ (∀ x, x < pa.length → rootFuel 256 pa1 x = rootFuel 256 pa x)
        ∧ (∀ x, x < pa.length → (pa1.getD x 0 = x ↔ pa.getD x 0 = x)) := by
  intro fuel
  induction fuel with
  | zero =>
      intro pa p h hp hf
      have := h.2.2.2 p hp
      omega
  | succ fuel ih =>
      intro pa p h hp hf
      rw [findLoop, getElem?_eq_some_getD pa p hp]
      simp only
      by_cases hr : p = pa.getD p 0
      · rw [if_pos hr]
        refine ⟨pa, ?_, h, rfl, fun _ _ => rfl, fun _ _ => Iff.rfl⟩
        rw [rootFuel_unfold pa rk h p hp, if_pos hr.symm]
      · rw [if_neg hr]
        have hr1 : pa.getD p 0 ≠ p := fun e => hr e.symm
        have hpp := h.2.1 p hp
        have hg := h.2.1 _ hpp
        rw [getElem?_eq_some_getD pa _ hpp]
        simp only
        have hrk1 := h.2.2.1 p hp hr1
        have hrk2 : rk.getD (pa.getD p 0) 0 ≤ rk.getD (pa.getD (pa.getD p 0) 0) 0 := by
          by_cases hq : pa.getD (pa.getD p 0) 0 = pa.getD p 0
          · rw [hq]
          · exact le_of_lt (h.2.2.1 _ hpp hq)
        have hroot : rootFuel 256 pa (pa.getD (pa.getD p 0) 0) = rootFuel 256 pa p := by
          rw [rootFuel_unfold pa rk h p hp, if_neg hr1, rootFuel_unfold pa rk h _ hpp]
          by_cases hq : pa.getD (pa.getD p 0) 0 = pa.getD p 0
          · rw [if_pos hq, hq, rootFuel_unfold pa rk h _ hpp, if_pos hq]
          · rw [if_neg hq]
        obtain ⟨hF, hsame⟩ := forest_set_link pa rk h p _ hp hg (by omega) hroot
        obtain ⟨pa1, e1, hF1, hl1, hs1, hr1x⟩ :=
          ih (pa.set p (pa.getD (pa.getD p 0) 0)) (pa.getD (pa.getD p 0) 0) hF
            (by rw [List.length_set]; exact hg) (by omega)
        rw [List.length_set] at hl1 hs1 hr1x
        refine ⟨pa1, ?_, hF1, hl1, ?_, ?_⟩
        · rw [e1, hsame _ hg, hroot]
        · intro x hx
          rw [hs1 x hx, hsame x hx]
        · intro x hx
          rw [hr1x x hx, getD_set pa _ _ x hp]
          by_cases hxp : x = p
          · subst hxp
            rw [if_pos rfl]
            constructor
            · intro e; rw [e] at hrk2; omega
            · intro e; exact absurd e hr1
          · rw [if_neg hxp]

/-- Changing the links without changing any root, nor which elements are
roots, keeps the invariant. -/
theorem inv_of_same_roots (u : UF) (h : u.Inv) (pa1 : List Nat) (hF : Forest pa1 u.rank)
    (hl : pa1.length = u.parent.length)
    (hs : ∀ x, x < u.parent.length → rootFuel 256 pa1 x = rootFuel 256 u.parent x)
    (hr : ∀ x, x < u.parent.length → (pa1.getD x 0 = x ↔ u.parent.getD x 0 = x)) :
    UF.Inv { u with parent := pa1 } := by
  obtain ⟨h1, h2, h3, h4⟩ := h
  have hts : ∀ r, UF.treeSize { u with parent := pa1 } r = u.treeSize r := by
    intro r
    unfold UF.treeSize UF.root
    simp only [hl]
    congr 1
    apply Finset.filter_congr
    intro x hx
    rw [Finset.mem_range] at hx
    rw [hs x hx]
  refine ⟨hF, by simpa [hl] using h2, ?_, ?_⟩
  · intro r hr1 hr2
    simp only [hl] at hr1
    simp only at hr2
    rw [hts]
    exact h3 r hr1 ((hr r hr1).1 hr2)
  · simp only [h4]
    congr 1
    unfold UF.numRoots
    simp only [hl]
    congr 1
    apply Finset.filter_congr
    intro x hx
    rw [Finset.mem_range] at hx
    exact (hr x hx).symm

/-- The method `find` on an index out of range returns the error and leaves the
structure as it is. -/
theorem find_invalid (fuel : Nat) (u : UF) (p : Int)
    (hp : p < 0 ∨ p ≥ (u.parent.length : Int)) :
    u.find fuel p =
      Ret.returned 0 (some (UFError.indexOutOfRange p ((u.parent.length : Int) - 1))) u := by
  simp [UF.find, UF.validate, hp]

/-- The method `find` on a valid index, given enough fuel, returns the root,
keeps the invariant, the ranks, the count, every root and the set of roots. -/
theorem find_valid (fuel : Nat) (hf : 256 ≤ fuel) (u : UF) (h : u.Inv) (p : Int)
    (hp0 : 0 ≤ p) (hp1 : p < (u.parent.length : Int)) :
    ∃ pa1, u.find fuel p = Ret.returned (u.root p.toNat) none { u with parent := pa1 }
      ∧ UF.Inv { u with parent := pa1 }
      ∧ pa1.length = u.parent.length
      ∧ (∀ x, x < u.parent.length → rootFuel 256 pa1 x = rootFuel 256 u.parent x)
      ∧ (∀ x, x < u.parent.length → (pa1.getD x 0 = x ↔ u.parent.getD x 0 = x)) := by
  obtain ⟨pa1, e1, hF, hl, hs, hr⟩ :=
    findLoop_spec u.rank fuel u.parent p.toNat h.1 (by omega) (by omega)
  refine ⟨pa1, ?_, inv_of_same_roots u h pa1 hF hl hs hr, hl, hs, hr⟩
  have hv : ¬ (p < 0 ∨ p ≥ (u.parent.length : Int)) := by omega
  simp [UF.find, UF.validate, hv, e1, UF.root]

/-- Linking the root `b` below the root `a`, with ranks `rk1` that differ from
`rk` at `a` only and put `b` below `a`: the forest is kept, and the elements of
the tree of `b` get the root `a`. -/
theorem forest_link (pa rk rk1 : List Nat) (h : Forest pa rk) (a b : Nat)
    (ha : a < pa.length) (hb : b < pa.length)
    (hra : pa.getD a 0 = a) (hab : a ≠ b)
    (hrb : pa.getD b 0 = b)
    (hlen : rk1.length = rk.length)
    (hsame : ∀ i, i ≠ a → rk1.getD i 0 = rk.getD i 0)
    (hge : rk.getD a 0 ≤ rk1.getD a 0) (h256 : rk1.getD a 0 < 256)
    (hlt : rk1.getD b 0 < rk1.getD a 0) :
    Forest (pa.set b a) rk1
      ∧ ∀ x, x < pa.length →
          rootFuel 256 (pa.set b a) x =
            if rootFuel 256 pa x = b then a else rootFuel 256 pa x := by
  have hge1 : ∀ i, rk.getD i 0 ≤ rk1.getD i 0 := by
    intro i
    by_cases hia : i = a
    · subst hia; exact hge
    · rw [hsame i hia]
  have hF : Forest (pa.set b a) rk1 := by
    refine ⟨by rw [List.length_set, hlen, h.1], ?_, ?_, ?_⟩
    · intro i hi
      rw [List.length_set] at hi ⊢
      rw [getD_set pa b a i hb]
      split
      · exact ha
      · exact h.2.1 i hi
    · intro i hi hne
      rw [List.length_set] at hi
      rw [getD_set pa b a i hb] at hne ⊢
      by_cases hib : i = b
      · subst hib; simpa using hlt
      · rw [if_neg hib] at hne ⊢
        have hia : i ≠ a := fun e => by rw [e] at hne; exact hne hra
        rw [hsame i hia]
        exact lt_of_lt_of_le (h.2.2.1 i hi hne) (hge1 _)
    · intro i hi
      rw [List.length_set] at hi
      by_cases hia : i = a
      · subst hia; exact h256
      · rw [hsame i hia]; exact h.2.2.2 i hi
  refine ⟨hF, ?_⟩
  have hroota : rootFuel 256 (pa.set b a) a = a := by
    rw [rootFuel_unfold _ rk1 hF a (by rw [List.length_set]; exact ha), getD_set pa b a a hb,
      if_neg hab, if_pos hra]
  have key : ∀ (m x : Nat), x < pa.length → 256 ≤ m + rk1.getD x 0 →
      rootFuel 256 (pa.set b a) x =
        if rootFuel 256 pa x = b then a else rootFuel 256 pa x := by
    intro m
    induction m with
    | zero =>
        intro x hx hm
        have := hF.2.2.2 x (by rw [List.length_set]; exact hx)
        omega
    | succ m ih =>
        intro x hx hm
        by_cases hxb : x = b
        · subst hxb
          rw [rootFuel_unfold _ rk1 hF x (by rw [List.length_set]; exact hx),
            getD_set pa x a x hb, if_pos rfl, if_neg hab, hroota,
            rootFuel_unfold pa rk h x hx, if_pos hrb, if_pos rfl]
        · rw [rootFuel_unfold _ rk1 hF x (by rw [List.length_set]; exact hx),
            getD_set pa b a x hb, if_neg hxb, rootFuel_unfold pa rk h x hx]
          by_cases hr : pa.getD x 0 = x
          · rw [if_pos hr, if_pos hr, if_neg hxb]
          · rw [if_neg hr, if_neg hr]
            have hlt2 := hF.2.2.1 x (by rw [List.length_set]; exact hx)
              (by rw [getD_set pa b a x hb, if_neg hxb]; exact hr)
            rw [getD_set pa b a x hb, if_neg hxb] at hlt2
            exact ih _ (h.2.1 x hx) (by omega)
  intro x hx
  have := hF.2.2.2 x (by rw [List.length_set]; exact hx)
  exact key 256 x hx (by omega)

/-- The tree of a root is not larger than the whole structure. -/
theorem treeSize_le (u : UF) (r : Nat) : u.treeSize r ≤ u.parent.length := by
  unfold UF.treeSize
  calc ((Finset.range u.parent.length).filter (fun i => u.root i = r)).card
      ≤ (Finset.range u.parent.length).card := Finset.card_filter_le _ _
    _ = u.parent.length := Finset.card_range _

/-- Linking the root `b` below the root `a` keeps the invariant when the new
rank of `a` is covered by the two trees; one root disappears. -/
theorem inv_link (u : UF) (h : u.Inv) (rk1 : List Nat) (a b : Nat)
    (ha : a < u.parent.length) (hb : b < u.parent.length)
    (hra : u.parent.getD a 0 = a) (hab : a ≠ b) (hrb : u.parent.getD b 0 = b)
    (hlen : rk1.length = u.rank.length)
    (hsame : ∀ i, i ≠ a → rk1.getD i 0 = u.rank.getD i 0)
    (hge : u.rank.getD a 0 ≤ rk1.getD a 0)
    (hlt : rk1.getD b 0 < rk1.getD a 0)
    (hsize : 2 ^ rk1.getD a 0 ≤ u.treeSize a + u.treeSize b) :
    UF.Inv { parent := u.parent.set b a, rank := rk1, count := u.count - 1 }
      ∧ ∀ x, x < u.parent.length →
          UF.root { parent := u.parent.set b a, rank := rk1, count := u.count - 1 } x =
            if u.root x = b then a else u.root x := by
  obtain ⟨h1, h2, h3, h4⟩ := h
  have hdisj : Disjoint ((Finset.range u.parent.length).filter (fun i => u.root i = a))
      ((Finset.range u.parent.length).filter (fun i => u.root i = b)) := by
    rw [Finset.disjoint_filter]
    intro x _ e1 e2
    exact hab (e1.symm.trans e2)
  have hsum : u.treeSize a + u.treeSize b ≤ u.parent.length := by
    unfold UF.treeSize
    rw [← Finset.card_union_of_disjoint hdisj]
    calc _ ≤ (Finset.range u.parent.length).card :=
          Finset.card_le_card (Finset.union_subset (Finset.filter_subset _ _)
            (Finset.filter_subset _ _))
      _ = u.parent.length := Finset.card_range _
  have h256 : rk1.getD a 0 < 256 := by
    by_contra hc
    have h63 : (2 : Nat) ^ 63 ≤ 2 ^ rk1.getD a 0 := Nat.pow_le_pow_right (by norm_num) (by omega)
    omega
  obtain ⟨hF, hroot⟩ := forest_link u.parent u.rank rk1 h1 a b ha hb hra hab hrb hlen hsame
    hge h256 hlt
  have hroot1 : ∀ x, x < u.parent.length →
      UF.root { parent := u.parent.set b a, rank := rk1, count := u.count - 1 } x =
        if u.root x = b then a else u.root x := hroot
  refine ⟨⟨hF, by simpa using h2, ?_, ?_⟩, hroot1⟩
  · intro r hr1 hr2
    simp only [List.length_set] at hr1
    simp only at hr2
    rw [getD_set u.parent b a r hb] at hr2
    have hrb1 : r ≠ b := fun e => by
      rw [if_pos e] at hr2; exact hab (hr2.trans e)
    rw [if_neg hrb1] at hr2
    by_cases hra1 : r = a
    · subst hra1
      have hts : UF.treeSize { parent := u.parent.set b r, rank := rk1, count := u.count - 1 } r
          = u.treeSize r + u.treeSize b := by
        unfold UF.treeSize
        rw [← Finset.card_union_of_disjoint hdisj]
        congr 1
        ext x
        simp only [List.length_set, Finset.mem_filter, Finset.mem_range, Finset.mem_union]
        constructor
        · rintro ⟨hx, e⟩
          rw [hroot1 x hx] at e
          by_cases hxb : u.root x = b
          · exact Or.inr ⟨hx, hxb⟩
          · rw [if_neg hxb] at e; exact Or.inl ⟨hx, e⟩
        · rintro (⟨hx, e⟩ | ⟨hx, e⟩)
          · refine ⟨hx, ?_⟩
            rw [hroot1 x hx, e, if_neg hab]
          · refine ⟨hx, ?_⟩
            rw [hroot1 x hx, if_pos e]
      rw [hts]
      exact hsize
    · have hts : UF.treeSize { parent := u.parent.set b a, rank := rk1, count := u.count - 1 } r
          = u.treeSize r := by
        unfold UF.treeSize
        congr 1
        simp only [List.length_set]
        apply Finset.filter_congr
        intro x hx
        rw [Finset.mem_range] at hx
        rw [hroot1 x hx]
        by_cases hxb : u.root x = b
        · rw [if_pos hxb]
          constructor
          · intro e; exact absurd e.symm hra1
          · intro e; exact absurd (hxb.symm.trans e).symm hrb1
        · rw [if_neg hxb]
      rw [hts]
      simp only
      rw [hsame r hra1]
      exact h3 r hr1 hr2
  · simp only [h4]
    have hmem : b ∈ (Finset.range u.parent.length).filter (fun i => u.parent.getD i 0 = i) := by
      rw [Finset.mem_filter, Finset.mem_range]
      exact ⟨hb, hrb⟩
    have herase : (Finset.range (u.parent.set b a).length).filter
          (fun i => (u.parent.set b a).getD i 0 = i)
        = ((Finset.range u.parent.length).filter (fun i => u.parent.getD i 0 = i)).erase b := by
      ext x
      simp only [List.length_set, Finset.mem_filter, Finset.mem_range, Finset.mem_erase]
      rw [getD_set u.parent b a x hb]
      by_cases hxb : x = b
      · subst hxb
        simp [hab]
      · simp [hxb]
    unfold UF.numRoots
    simp only
    rw [herase, Finset.card_erase_of_mem hmem]
    have hpos : 0 < ((Finset.range u.parent.length).filter
        (fun i => u.parent.getD i 0 = i)).card := Finset.card_pos.2 ⟨b, hmem⟩
    omega

/-- The root of an element of a structure that satisfies the invariant. -/
theorem UF.root_isRoot (u : UF) (h : u.Inv) (i : Nat) (hi : i < u.parent.length) :
    u.root i < u.parent.length ∧ u.parent.getD (u.root i) 0 = u.root i :=
  ⟨(root_spec u.parent u.rank h.1 i hi).1, (root_spec u.parent u.rank h.1 i hi).2.1⟩

/-- What `Union` does, given enough fuel, on a structure that satisfies the
invariant: it returns, keeps the invariant and the number of elements; with an
index out of range it returns an error and keeps `count`; with valid indices it
returns nil, keeps `count` when the two elements have the same root and
decreases it by one otherwise. -/
theorem Union_spec (fuel : Nat) (hf : 256 ≤ fuel) (u : UF) (h : u.Inv) (p q : Int) :
    ∃ err u1, u.Union fuel p q = Ret.returned () err u1 ∧ u1.Inv
      ∧ u1.parent.length = u.parent.length
      ∧ ((p < 0 ∨ p ≥ (u.parent.length : Int) ∨ q < 0 ∨ q ≥ (u.parent.length : Int)) →
          err ≠ none ∧ u1.count = u.count)
      ∧ (0 ≤ p → p < (u.parent.length : Int) → 0 ≤ q → q < (u.parent.length : Int) →
          err = none
            ∧ (u.root p.toNat = u.root q.toNat → u1.count = u.count)
            ∧ (u.root p.toNat ≠ u.root q.toNat → u1.count = u.count - 1)) := by
  by_cases hp : p < 0 ∨ p ≥ (u.parent.length : Int)
  · refine ⟨some (UFError.indexOutOfRange p ((u.parent.length : Int) - 1)), u, ?_, h, rfl,
      fun _ => ⟨by simp, rfl⟩, fun a b _ _ => by omega⟩
    unfold UF.Union
    rw [find_invalid fuel u p hp]
  · have hp0 : 0 ≤ p := by omega
    have hp1 : p < (u.parent.length : Int) := by omega
    obtain ⟨pa1, e1, hI1, hl1, hs1, hr1⟩ := find_valid fuel hf u h p hp0 hp1
    by_cases hq : q < 0 ∨ q ≥ (u.parent.length : Int)
    · refine ⟨some (UFError.indexOutOfRange q ((pa1.length : Int) - 1)),
        { u with parent := pa1 }, ?_, hI1, hl1, fun _ => ⟨by simp, rfl⟩,
        fun _ _ a b => by omega⟩
      unfold UF.Union
      rw [e1]
      simp only
      rw [find_invalid fuel _ q (by simpa [hl1] using hq)]
    · have hq0 : 0 ≤ q := by omega
      have hq1 : q < (u.parent.length : Int) := by omega
      obtain ⟨pa2, e2, hI2, hl2, hs2, hr2⟩ :=
        find_valid fuel hf { u with parent := pa1 } hI1 q hq0 (by simpa [hl1] using hq1)
      simp only at e2 hI2 hl2 hs2 hr2
      rw [hl1] at hl2 hs2 hr2
      have hrootQ : UF.root { u with parent := pa1 } q.toNat = u.root q.toNat :=
        hs1 q.toNat (by omega)
      rw [hrootQ] at e2
      obtain ⟨hP1, hP2⟩ := u.root_isRoot h p.toNat (by omega)
      obtain ⟨hQ1, hQ2⟩ := u.root_isRoot h q.toNat (by omega)
      have hP3 : pa2.getD (u.root p.toNat) 0 = u.root p.toNat :=
        (hr2 _ hP1).2 ((hr1 _ hP1).2 hP2)
      have hQ3 : pa2.getD (u.root q.toNat) 0 = u.root q.toNat :=
        (hr2 _ hQ1).2 ((hr1 _ hQ1).2 hQ2)
      -- the structure after the two calls of find
      have hroot2 : ∀ x, x < u.parent.length →
          UF.root { u with parent := pa2 } x = u.root x := by
        intro x hx
        exact (hs2 x hx).trans (hs1 x hx)
      by_cases heq : u.root p.toNat = u.root q.toNat
      · refine ⟨none, { u with parent := pa2 }, ?_, hI2, hl2, fun hc => by omega,
          fun _ _ _ _ => ⟨rfl, fun _ => rfl, fun hne => absurd heq hne⟩⟩
        unfold UF.Union
        rw [e1]
        simp only
        rw [e2]
        simp only
        rw [if_pos heq]
      · have hrl : u.rank.length = u.parent.length := h.1.1
        have hrP : u.rank[u.root p.toNat]? = some (u.rank.getD (u.root p.toNat) 0) :=
          getElem?_eq_some_getD _ _ (by omega)
        have hrQ : u.rank[u.root q.toNat]? = some (u.rank.getD (u.root q.toNat) 0) :=
          getElem?_eq_some_getD _ _ (by omega)
        have hsP := hI2.2.2.1 (u.root p.toNat) (by simpa [hl2] using hP1) hP3
        have hsQ := hI2.2.2.1 (u.root q.toNat) (by simpa [hl2] using hQ1) hQ3
        simp only at hsP hsQ
        have hU : u.Union fuel p q =
            if u.rank.getD (u.root p.toNat) 0 < u.rank.getD (u.root q.toNat) 0 then
              Ret.returned () none
                { parent := pa2.set (u.root p.toNat) (u.root q.toNat), rank := u.rank,
                  count := u.count - 1 }
            else if u.rank.getD (u.root p.toNat) 0 > u.rank.getD (u.root q.toNat) 0 then
              Ret.returned () none
                { parent := pa2.set (u.root q.toNat) (u.root p.toNat), rank := u.rank,
                  count := u.count - 1 }
            else
              Ret.returned () none
                { parent := pa2.set (u.root q.toNat) (u.root p.toNat),
                  rank := u.rank.set (u.root p.toNat)
                    ((u.rank.getD (u.root p.toNat) 0 + 1) % 256),
                  count := u.count - 1 } := by
          unfold UF.Union
          rw [e1]
          simp only
          rw [e2]
          simp only
          rw [if_neg heq, hrP, hrQ]
          simp only
          rw [if_pos ⟨by omega, by omega⟩]
        rw [hU]
        by_cases c1 : u.rank.getD (u.root p.toNat) 0 < u.rank.getD (u.root q.toNat) 0
        · rw [if_pos c1]
          obtain ⟨hI3, _⟩ := inv_link { u with parent := pa2 } hI2 u.rank
            (u.root q.toNat) (u.root p.toNat) (by simpa [hl2] using hQ1)
            (by simpa [hl2] using hP1) hQ3 (fun e => heq e.symm) hP3 rfl (fun _ _ => rfl)
            (le_refl _) c1 (by omega)
          exact ⟨none, _, rfl, hI3, by simp [hl2], fun hc => by omega,
            fun _ _ _ _ => ⟨rfl, fun e => absurd e heq, fun _ => rfl⟩⟩
        · rw [if_neg c1]
          by_cases c2 : u.rank.getD (u.root p.toNat) 0 > u.rank.getD (u.root q.toNat) 0
          · rw [if_pos c2]
            obtain ⟨hI3, _⟩ := inv_link { u with parent := pa2 } hI2 u.rank
              (u.root p.toNat) (u.root q.toNat) (by simpa [hl2] using hP1)
              (by simpa [hl2] using hQ1) hP3 heq hQ3 rfl (fun _ _ => rfl)
              (le_refl _) c2 (by omega)
            exact ⟨none, _, rfl, hI3, by simp [hl2], fun hc => by omega,
              fun _ _ _ _ => ⟨rfl, fun e => absurd e heq, fun _ => rfl⟩⟩
          · rw [if_neg c2]
            have hrq : u.rank.getD (u.root q.toNat) 0 = u.rank.getD (u.root p.toNat) 0 := by omega
            have hn63 : u.parent.length < 2 ^ 63 := h.2.1
            have hts := treeSize_le { u with parent := pa2 } (u.root p.toNat)
            simp only [hl2] at hts
            have hsmall : u.rank.getD (u.root p.toNat) 0 < 63 := by
              by_contra hc
              have : (2 : Nat) ^ 63 ≤ 2 ^ u.rank.getD (u.root p.toNat) 0 :=
                Nat.pow_le_pow_right (by norm_num) (by omega)
              omega
            have hmod : (u.rank.getD (u.root p.toNat) 0 + 1) % 256
                = u.rank.getD (u.root p.toNat) 0 + 1 := Nat.mod_eq_of_lt (by omega)
            rw [hmod]
            have hgP : (u.rank.set (u.root p.toNat) (u.rank.getD (u.root p.toNat) 0 + 1)).getD
                (u.root p.toNat) 0 = u.rank.getD (u.root p.toNat) 0 + 1 := by
              rw [getD_set _ _ _ _ (by omega), if_pos rfl]
            obtain ⟨hI3, _⟩ := inv_link { u with parent := pa2 } hI2
              (u.rank.set (u.root p.toNat) (u.rank.getD (u.root p.toNat) 0 + 1))
              (u.root p.toNat) (u.root q.toNat) (by simpa [hl2] using hP1)
              (by simpa [hl2] using hQ1) hP3 heq hQ3 (by simp)
              (fun i hi => by
                simp only
                rw [getD_set _ _ _ _ (by omega), if_neg hi])
              (by simp only; rw [hgP]; omega)
              (by
                rw [hgP, getD_set _ _ _ _ (by omega), if_neg (fun e => heq e.symm)]
                omega)
              (by
                rw [hgP, pow_succ]
                rw [hrq] at hsQ
                omega)
            exact ⟨none, _, rfl, hI3, by simp [hl2], fun hc => by omega,
              fun _ _ _ _ => ⟨rfl, fun e => absurd e heq, fun _ => rfl⟩⟩

/-- The empty forest of `NewUF` satisfies the invariant. -/
theorem NewUF_inv (n : Int) (h0 : 0 ≤ n) (hn : n < 2 ^ 63) :
    ∃ u0, NewUF n = Except.ok u0 ∧ u0.Inv ∧ (u0.parent.length : Int) = n := by
  have hget : ∀ i, i < n.toNat → (List.range n.toNat).getD i 0 = i := by
    intro i hi
    rw [List.getD_eq_getElem _ _ (by simpa using hi), List.getElem_range]
  have hF : Forest (List.range n.toNat) (List.replicate n.toNat 0) := by
    refine ⟨by simp, ?_, ?_, ?_⟩
    · intro i hi
      rw [List.length_range] at hi ⊢
      rw [hget i hi]; exact hi
    · intro i hi hne
      rw [List.length_range] at hi
      exact absurd (hget i hi) hne
    · intro i hi
      rw [List.length_range] at hi
      rw [List.getD_eq_getElem _ _ (by simpa using hi)]
      simp
  refine ⟨{ parent := List.range n.toNat, rank := List.replicate n.toNat 0, count := n }, ?_,
    ⟨hF, ?_, ?_, ?_⟩, ?_⟩
  · simp [NewUF, not_lt.2 h0]
  · simp only [List.length_range]
    have : ((n.toNat : Nat) : Int) < 2 ^ 63 := by rw [Int.toNat_of_nonneg h0]; exact hn
    exact_mod_cast this
  · intro r hr _
    simp only [List.length_range] at hr
    have h1 : (List.replicate n.toNat 0).getD r 0 = 0 := by
      rw [List.getD_eq_getElem _ _ (by simpa using hr)]
      simp
    simp only [h1, pow_zero]
    unfold UF.treeSize
    apply Finset.card_pos.2
    refine ⟨r, ?_⟩
    rw [Finset.mem_filter, Finset.mem_range]
    refine ⟨by simpa using hr, ?_⟩
    unfold UF.root
    simp only
    rw [rootFuel_unfold _ _ hF r (by simpa using hr), if_pos (hget r hr)]
  · unfold UF.numRoots
    simp only [List.length_range]
    rw [Finset.filter_true_of_mem (fun i hi => hget i (Finset.mem_range.1 hi)),
      Finset.card_range, Int.toNat_of_nonneg h0]
  · simp [Int.toNat_of_nonneg h0]

/-- The number of components is the number of roots. -/
theorem components_eq_numRoots (u : UF) (h : u.Inv) : u.components = u.numRoots := by
  unfold UF.components UF.numRoots
  congr 1
  ext r
  simp only [Finset.mem_image, Finset.mem_range, Finset.mem_filter]
  constructor
  · rintro ⟨x, hx, e⟩
    rw [← e]
    exact u.root_isRoot h x hx
  · rintro ⟨hr, e⟩
    refine ⟨r, hr, ?_⟩
    unfold UF.root
    rw [rootFuel_unfold _ _ h.1 r hr, if_pos e]

/-- With the invariant, `Count()` is the number of components. -/
theorem Count_eq_components_of_inv (u : UF) (h : u.Inv) : u.Count = (u.components : Int) := by
  rw [components_eq_numRoots u h]
  exact h.2.2.2

/-- A sequence of `Union` calls, given enough fuel, never panics nor runs out of
fuel, and keeps the invariant and the number of elements. -/
theorem unions_inv (fuel : Nat) (hf : 256 ≤ fuel) (calls : List (Int × Int)) :
    ∀ u : UF, u.Inv →
      ∃ u1, UF.unions fuel u calls = some u1 ∧ u1.Inv ∧ u1.parent.length = u.parent.length := by
  induction calls with
  | nil => intro u h; exact ⟨u, rfl, h, rfl⟩
  | cons c calls ih =>
      intro u h
      obtain ⟨p, q⟩ := c
      obtain ⟨err, u1, e1, hI1, hl1, _⟩ := Union_spec fuel hf u h p q
      obtain ⟨u2, e2, hI2, hl2⟩ := ih u1 hI1
      refine ⟨u2, ?_, hI2, hl2.trans hl1⟩
      simp only [UF.unions, e1]
      exact e2

/-- The method `Connected` on valid indices, given enough fuel, returns whether
the two elements have the same root. -/
theorem Connected_spec (fuel : Nat) (hf : 256 ≤ fuel) (u : UF) (h : u.Inv) (p q : Int)
    (hp0 : 0 ≤ p) (hp1 : p < (u.parent.length : Int))
    (hq0 : 0 ≤ q) (hq1 : q < (u.parent.length : Int)) :
    ∃ u1, u.Connected fuel p q =
      Ret.returned (decide (u.root p.toNat = u.root q.toNat)) none u1 := by
  obtain ⟨pa1, e1, hI1, hl1, hs1, hr1⟩ := find_valid fuel hf u h p hp0 hp1
  obtain ⟨pa2, e2, hI2, hl2, hs2, hr2⟩ :=
    find_valid fuel hf { u with parent := pa1 } hI1 q hq0 (by simpa [hl1] using hq1)
  have hrootQ : UF.root { u with parent := pa1 } q.toNat = u.root q.toNat :=
    hs1 q.toNat (by omega)
  rw [hrootQ] at e2
  refine ⟨{ parent := pa2, rank := u.rank, count := u.count }, ?_⟩
  unfold UF.Connected
  rw [e1]
  simp only
  rw [e2]

/-- C18: for every `n` with `0 <= n` that an `int` holds and every sequence of
`Union` calls, valid or failing, made on `NewUF(n)` with enough fuel: every call
returns, and in the structure reached `Count()` is the number of connected
components, the number of distinct roots of `0, ..., n-1`, where `Connected(p, q)`
answers whether `p` and `q` have the same root; a further `Union(p, q)` that
returns nil leaves `Count()` unchanged when `p` and `q` were connected and
decreases it by exactly one when they were not, and after it `Count()` is again
the number of components. -/
theorem Count_eq_components (n : Int) (h0 : 0 ≤ n) (hn : n < 2 ^ 63)
    (calls : List (Int × Int)) (fuel : Nat) (hf : 256 ≤ fuel) :
    ∃ u0 u, NewUF n = Except.ok u0 ∧ UF.unions fuel u0 calls = some u
      ∧ (u.parent.length : Int) = n
      ∧ u.Count = (u.components : Int)
      ∧ (∀ p q : Int, 0 ≤ p → p < n → 0 ≤ q → q < n →
          ∃ u1, u.Connected fuel p q =
            Ret.returned (decide (u.root p.toNat = u.root q.toNat)) none u1)
      ∧ (∀ p q : Int, ∃ err u1, u.Union fuel p q = Ret.returned () err u1
          ∧ u1.Count = (u1.components : Int)
          ∧ (err = none →
              (u.root p.toNat = u.root q.toNat → u1.Count = u.Count)
                ∧ (u.root p.toNat ≠ u.root q.toNat → u1.Count = u.Count - 1))) := by
  obtain ⟨u0, e0, hI0, hl0⟩ := NewUF_inv n h0 hn
  obtain ⟨u, e1, hI, hl⟩ := unions_inv fuel hf calls u0 hI0
  have hlen : (u.parent.length : Int) = n := by rw [hl]; exact hl0
  refine ⟨u0, u, e0, e1, hlen, Count_eq_components_of_inv u hI, ?_, ?_⟩
  · intro p q hp0 hp1 hq0 hq1
    exact Connected_spec fuel hf u hI p q hp0 (by omega) hq0 (by omega)
  · intro p q
    obtain ⟨err, u1, e2, hI1, _, hbad, hgood⟩ := Union_spec fuel hf u hI p q
    refine ⟨err, u1, e2, Count_eq_components_of_inv u1 hI1, ?_⟩
    intro herr
    by_cases hv : p < 0 ∨ p ≥ (u.parent.length : Int) ∨ q < 0 ∨ q ≥ (u.parent.length : Int)
    · exact absurd herr (hbad hv).1
    · exact (hgood (by omega) (by omega) (by omega) (by omega)).2

/-- C18 at a concrete input: five elements and the calls `Union(0, 1)`,
`Union(7, 1)` (failing), `Union(1, 0)`, `Union(3, 4)`. -/
theorem Count_eq_components_witness :
    ∃ u0 u, NewUF 5 = Except.ok u0
      ∧ UF.unions 256 u0 [(0, 1), (7, 1), (1, 0), (3, 4)] = some u
      ∧ u.Count = (u.components : Int) :=
  match Count_eq_components 5 (by decide) (by decide) [(0, 1), (7, 1), (1, 0), (3, 4)] 256
      (by decide) with
  | ⟨u0, u, h1, h2, _, h4, _⟩ => ⟨u0, u, h1, h2, h4⟩

/-- The method `find` at a root returns it and changes nothing. -/
theorem find_at_root (fuel : Nat) (u : UF) (a : Nat) (ha : a < u.parent.length)
    (hr : u.parent.getD a 0 = a) :
    u.find (fuel + 1) (a : Int) = Ret.returned a none u := by
  have hv : u.validate (a : Int) = none := by
    unfold UF.validate
    simp only
    rw [if_neg (by omega)]
  have hg : u.parent[a]? = some a := by
    rw [getElem?_eq_some_getD _ _ ha, hr]
  unfold UF.find
  rw [hv]
  simp only [Int.toNat_ofNat, findLoop, hg, if_true]

/-- The method `Union` on two distinct roots of the same rank `k`, `k + 1 < 256`:
the second is linked below the first, whose rank becomes `k + 1`. -/
theorem Union_roots (fuel : Nat) (u : UF) (a b k : Nat)
    (ha : a < u.parent.length) (hb : b < u.parent.length)
    (hlen : u.rank.length = u.parent.length)
    (hra : u.parent.getD a 0 = a) (hrb : u.parent.getD b 0 = b) (hab : a ≠ b)
    (hka : u.rank.getD a 0 = k) (hkb : u.rank.getD b 0 = k) (hk : k + 1 < 256) :
    u.Union (fuel + 1) (a : Int) (b : Int) =
      Ret.returned () none
        { parent := u.parent.set b a, rank := u.rank.set a (k + 1), count := u.count - 1 } := by
  have h1 : u.rank[a]? = some k := by
    rw [getElem?_eq_some_getD _ _ (by omega), hka]
  have h2 : u.rank[b]? = some k := by
    rw [getElem?_eq_some_getD _ _ (by omega), hkb]
  unfold UF.Union
  rw [find_at_root fuel u a ha hra]
  simp only
  rw [find_at_root fuel u b hb hrb]
  simp only [if_neg hab, h1, h2, lt_irrefl, if_false]
  rw [if_pos ⟨ha, hb⟩, Nat.mod_eq_of_lt hk]

/-- A sequence of calls split in two. -/
theorem unions_append (fuel : Nat) (xs ys : List (Int × Int)) :
    ∀ u : UF, UF.unions fuel u (xs ++ ys)
      = (UF.unions fuel u xs).bind (fun u1 => UF.unions fuel u1 ys) := by
  induction xs with
  | nil => intro u; rfl
  | cons c xs ih =>
      intro u
      obtain ⟨p, q⟩ := c
      simp only [List.cons_append, UF.unions]
      cases hU : u.Union fuel p q with
      | returned v e u1 => simp only; exact ih u1
      | panic => rfl
      | running => rfl

/-- The calls `binomialCalls k base` on a structure where the elements
`base, ..., base + 2^k - 1` are singletons of rank 0 make `base` a root of rank
`k` and change nothing outside this block. -/
theorem binomialCalls_spec (fuel : Nat) (k : Nat) :
    ∀ (base : Nat) (u : UF), k < 255 → u.rank.length = u.parent.length →
      base + 2 ^ k ≤ u.parent.length →
      (∀ i, base ≤ i → i < base + 2 ^ k → u.parent.getD i 0 = i ∧ u.rank.getD i 0 = 0) →
      ∃ u1, UF.unions (fuel + 1) u (binomialCalls k base) = some u1
        ∧ u1.parent.length = u.parent.length ∧ u1.rank.length = u.parent.length
        ∧ u1.parent.getD base 0 = base ∧ u1.rank.getD base 0 = k
        ∧ (∀ i, i < base ∨ base + 2 ^ k ≤ i →
            u1.parent.getD i 0 = u.parent.getD i 0 ∧ u1.rank.getD i 0 = u.rank.getD i 0) := by
  induction k with
  | zero =>
      intro base u _ hlen hb hs
      refine ⟨u, rfl, rfl, hlen, (hs base le_rfl (by simp)).1, (hs base le_rfl (by simp)).2,
        fun i _ => ⟨rfl, rfl⟩⟩
  | succ k ih =>
      intro base u hk hlen hb hs
      have hpow : 2 ^ (k + 1) = 2 ^ k + 2 ^ k := by rw [pow_succ]; omega
      have hpos : 0 < 2 ^ k := Nat.pow_pos (by decide)
      obtain ⟨u1, e1, hl1, hr1, hp1, hk1, ho1⟩ :=
        ih base u (by omega) hlen (by omega) (fun i h1 h2 => hs i h1 (by omega))
      obtain ⟨u2, e2, hl2, hr2, hp2, hk2, ho2⟩ :=
        ih (base + 2 ^ k) u1 (by omega) (by omega) (by omega) (fun i h1 h2 => by
          rw [(ho1 i (Or.inr h1)).1, (ho1 i (Or.inr h1)).2]
          exact hs i (by omega) (by omega))
      have hbase : u2.parent.getD base 0 = base ∧ u2.rank.getD base 0 = k := by
        rw [(ho2 base (Or.inl (by omega))).1, (ho2 base (Or.inl (by omega))).2]
        exact ⟨hp1, hk1⟩
      have e3 := Union_roots fuel u2 base (base + 2 ^ k) k (by omega) (by omega) (by omega)
        hbase.1 hp2 (by omega) hbase.2 hk2 (by omega)
      refine ⟨UF.mk (u2.parent.set (base + 2 ^ k) base) (u2.rank.set base (k + 1))
        (u2.count - 1), ?_, ?_, ?_, ?_, ?_, ?_⟩
      · show UF.unions (fuel + 1) u (binomialCalls k base ++ binomialCalls k (base + 2 ^ k)
          ++ [(((base : Nat) : Int), ((base + 2 ^ k : Nat) : Int))]) = some _
        rw [unions_append, unions_append, e1]
        simp only [Option.some_bind, e2, UF.unions, e3]
      · simp only [List.length_set]; omega
      · simp only [List.length_set]; omega
      · simp only
        rw [getD_set _ _ _ _ (by omega), if_neg (by omega)]
        exact hbase.1
      · simp only
        rw [getD_set _ _ _ _ (by omega), if_pos rfl]
      · intro i hi
        simp only
        rw [getD_set _ _ _ _ (by omega), if_neg (by omega),
          getD_set _ _ _ _ (by omega), if_neg (by omega),
          (ho2 i (by omega)).1, (ho2 i (by omega)).2, (ho1 i (by omega)).1, (ho1 i (by omega)).2]
        exact ⟨rfl, rfl⟩

/-- On `NewUF(n)` with `2^k <= n`, the calls `binomialCalls k 0` all return and
leave `rank[0] = k`. -/
theorem binomialCalls_on_NewUF (n : Int) (k : Nat) (hk : k < 255) (h : (2 : Int) ^ k ≤ n) :
    ∃ u0 u, NewUF n = Except.ok u0 ∧ UF.unions 256 u0 (binomialCalls k 0) = some u
      ∧ u.rank.getD 0 0 = k := by
  have hc : ((2 ^ k : Nat) : Int) ≤ n := by push_cast; exact h
  have h0 : 0 ≤ n := le_trans (by positivity) h
  have hN : 2 ^ k ≤ n.toNat := by omega
  obtain ⟨u1, e1, _, _, _, hk1, _⟩ := binomialCalls_spec 255 k 0
    { parent := List.range n.toNat, rank := List.replicate n.toNat 0, count := n } hk
    (by simp only [List.length_range, List.length_replicate])
    (by simp only [List.length_range]; omega) (by
      intro i _ hi
      have hi2 : i < n.toNat := by omega
      refine ⟨?_, ?_⟩
      · show (List.range n.toNat).getD i 0 = i
        rw [List.getD_eq_getElem _ _ (by simpa using hi2), List.getElem_range]
      · show (List.replicate n.toNat 0).getD i 0 = 0
        rw [List.getD_eq_getElem _ _ (by simpa using hi2)]
        simp)
  refine ⟨_, u1, ?_, e1, hk1⟩
  unfold NewUF
  rw [if_neg (not_lt.2 h0)]

/-- C20 (the code departs from the claim): on `NewUF(4294967296)`, which an
`int` of 64 bits allows, the `2^32 - 1` calls of `binomialCalls 32 0` all return
and leave `rank[0] = 32`, more than the 31 that the comment on the field `rank`
gives as the bound. -/
theorem rank_32_reached_on_2pow32_elements :
    ∃ u0 u, NewUF 4294967296 = Except.ok u0
      ∧ UF.unions 256 u0 (binomialCalls 32 0) = some u
      ∧ u.rank.getD 0 0 = 32 :=
  binomialCalls_on_NewUF 4294967296 32 (by decide) (by norm_num)

/-- With the invariant, `2^rank[i]` is at most the number of elements, for every
index `i`. -/
theorem pow_rank_le_length (u : UF) (h : u.Inv) (i : Nat) (hi : i < u.parent.length) :
    2 ^ u.rank.getD i 0 ≤ u.parent.length := by
  obtain ⟨hr, hroot, hle⟩ := root_spec u.parent u.rank h.1 i hi
  calc 2 ^ u.rank.getD i 0 ≤ 2 ^ u.rank.getD (rootFuel 256 u.parent i) 0 :=
        Nat.pow_le_pow_right (by decide) hle
    _ ≤ u.treeSize (rootFuel 256 u.parent i) := h.2.2.1 _ hr hroot
    _ ≤ u.parent.length := treeSize_le u _

/-- What holds of the ranks: for every `n` with `0 <= n` that an `int` holds and
every sequence of `Union` calls made on `NewUF(n)` with enough fuel, every call
returns and in the structure reached `2^rank[i] <= n` for every index `i`: the
rank is never more than 62, never more than 31 when `n < 2^32`, and the `uint8`
increment in `Union` never overflows; the tree rooted at a root `r` contains at
least `2^rank[r]` elements. -/
theorem rank_le_log2_of_n (n : Int) (h0 : 0 ≤ n) (hn : n < 2 ^ 63)
    (calls : List (Int × Int)) (fuel : Nat) (hf : 256 ≤ fuel) :
    ∃ u0 u, NewUF n = Except.ok u0 ∧ UF.unions fuel u0 calls = some u
      ∧ (∀ i, i < u.parent.length →
          2 ^ u.rank.getD i 0 ≤ n.toNat ∧ u.rank.getD i 0 ≤ 62
            ∧ (u.rank.getD i 0 + 1) % 256 = u.rank.getD i 0 + 1
            ∧ (n < 2 ^ 32 → u.rank.getD i 0 ≤ 31))
      ∧ (∀ r, r < u.parent.length → u.parent.getD r 0 = r →
          2 ^ u.rank.getD r 0 ≤ u.treeSize r) := by
  obtain ⟨u0, e0, hI0, hl0⟩ := NewUF_inv n h0 hn
  obtain ⟨u, e1, hI, hl⟩ := unions_inv fuel hf calls u0 hI0
  have hlen : u.parent.length = n.toNat := by omega
  refine ⟨u0, u, e0, e1, ?_, hI.2.2.1⟩
  intro i hi
  have hp := pow_rank_le_length u hI i hi
  have h62 : u.rank.getD i 0 ≤ 62 := by
    by_contra hc
    have h1 : 2 ^ 63 ≤ 2 ^ u.rank.getD i 0 := Nat.pow_le_pow_right (by decide) (by omega)
    have h2 := hI.2.1
    omega
  refine ⟨by omega, h62, Nat.mod_eq_of_lt (by omega), ?_⟩
  intro h32
  by_contra hc
  have h1 : 2 ^ 32 ≤ 2 ^ u.rank.getD i 0 := Nat.pow_le_pow_right (by decide) (by omega)
  omega

/-- The bound on the ranks at a concrete input: eight elements and seven calls
that build one tree of rank 3. -/
theorem rank_le_log2_of_n_witness :
    ∃ u0 u, NewUF 8 = Except.ok u0 ∧ UF.unions 256 u0 (binomialCalls 3 0) = some u
      ∧ (∀ i, i < u.parent.length → u.rank.getD i 0 ≤ 62) :=
  match rank_le_log2_of_n 8 (by decide) (by decide) (binomialCalls 3 0) 256 (by decide) with
  | ⟨u0, u, h1, h2, h3, _⟩ => ⟨u0, u, h1, h2, fun i hi => (h3 i hi).2.1⟩

end algs

namespace graph

/-! ### Digraph -/

/-- An `int` in range is not changed by the reduction. -/
theorem wrapInt_of_range (x : Int) (h0 : -(2 ^ 63) ≤ x) (h1 : x < 2 ^ 63) : wrapInt x = x := by
  unfold wrapInt
  omega

/-- Appending `w` to one adjacency list adds one entry `w` to the entries. -/
theorem flatten_set_perm (l : List (List Int)) (w : Int) :
    ∀ (i : Nat) (row : List Int), l[i]? = some row →
      (l.set i (row ++ [w])).flatten.Perm (w :: l.flatten) := by
  induction l with
  | nil => intro i row h; simp at h
  | cons r l ih =>
      intro i row h
      cases i with
      | zero =>
          simp only [List.getElem?_cons_zero, Option.some.injEq] at h
          subst h
          simp only [List.set_cons_zero, List.flatten_cons, List.append_assoc,
            List.singleton_append]
          exact List.perm_middle
      | succ i =>
          simp only [List.getElem?_cons_succ] at h
          simp only [List.set_cons_succ, List.flatten_cons]
          exact ((ih i row h).append_left r).trans List.perm_middle

/-- The method `AddEdge` with an endpoint out of range returns an error wrapping
`ErrVertexOutOfRange` and leaves the graph as it is. -/
theorem AddEdge_invalid (g : Digraph) (x y : Int)
    (h : x < 0 ∨ x ≥ g.v ∨ y < 0 ∨ y ≥ g.v) :
    ∃ err, g.AddEdge x y = Ret.returned (some err) g
      ∧ errorsIs err Error.ErrVertexOutOfRange = true := by
  by_cases hx : x < 0 ∨ x ≥ g.v
  · refine ⟨Error.vertexNotBetween x (wrapInt (g.v - 1)) Error.ErrVertexOutOfRange, ?_, ?_⟩
    · simp only [Digraph.AddEdge, Digraph.validateVertex, if_pos hx]
    · simp [errorsIs]
  · have hy : y < 0 ∨ y ≥ g.v := by omega
    refine ⟨Error.vertexNotBetween y (wrapInt (g.v - 1)) Error.ErrVertexOutOfRange, ?_, ?_⟩
    · simp only [Digraph.AddEdge, Digraph.validateVertex, if_neg hx, if_pos hy]
    · simp [errorsIs]

/-- The method `AddEdge` with both endpoints in range, on a graph that satisfies
the invariant and has fewer than `2^63 - 1` edges, returns nil, appends `y` to
`adj[x]` and keeps the invariant. -/
theorem AddEdge_valid (g : Digraph) (hI : g.Inv) (x y : Int)
    (hx0 : 0 ≤ x) (hx1 : x < g.v) (hy0 : 0 ≤ y) (hy1 : y < g.v)
    (hb : g.adj.flatten.length + 1 < 2 ^ 63) :
    ∃ g1, g.AddEdge x y = Ret.returned none g1 ∧ g1.Inv ∧ g1.v = g.v
      ∧ g1.adj = g.adj.set x.toNat (g.adj.getD x.toNat [] ++ [y])
      ∧ g1.adj.flatten.length = g.adj.flatten.length + 1
      ∧ g1.e = g.e + 1 := by
  obtain ⟨hv, hla, hli, he, hin⟩ := hI
  have hxl : x.toNat < g.adj.length := by omega
  have hyl : y.toNat < g.v.toNat := by omega
  have hrow : g.adj[x.toNat]? = some (g.adj.getD x.toNat []) := by
    rw [List.getElem?_eq_getElem hxl, List.getD_eq_getElem _ _ hxl]
  have hd := hin y.toNat hyl
  have hyc : ((y.toNat : Nat) : Int) = y := Int.toNat_of_nonneg hy0
  rw [hyc] at hd
  have hperm := flatten_set_perm g.adj y x.toNat _ hrow
  have hlen : (g.adj.set x.toNat (g.adj.getD x.toNat [] ++ [y])).flatten.length
      = g.adj.flatten.length + 1 := by
    rw [hperm.length_eq, List.length_cons]
  have hcnt : g.adj.flatten.count y ≤ g.adj.flatten.length := List.count_le_length _ _
  have hw1 : wrapInt (g.e + 1) = g.e + 1 := wrapInt_of_range _ (by omega) (by omega)
  have hw2 : wrapInt (((g.adj.flatten.count y : Nat) : Int) + 1)
      = ((g.adj.flatten.count y : Nat) : Int) + 1 :=
    wrapInt_of_range _ (by omega) (by omega)
  refine ⟨Digraph.mk g.v (wrapInt (g.e + 1))
      (g.adj.set x.toNat (g.adj.getD x.toNat [] ++ [y]))
      (g.indegree.set y.toNat (wrapInt (((g.adj.flatten.count y : Nat) : Int) + 1))),
    ?_, ?_, rfl, rfl, hlen, hw1⟩
  · simp only [Digraph.AddEdge, Digraph.validateVertex, sliceGet]
    rw [if_neg (by omega), if_neg (by omega)]
    simp only [if_neg (not_lt.2 hx0), if_neg (not_lt.2 hy0), hrow, hd]
  · refine ⟨hv, ?_, ?_, ?_, ?_⟩
    · simp only [List.length_set]; exact hla
    · simp only [List.length_set]; exact hli
    · simp only
      rw [hw1, hlen, he]
      push_cast
      rfl
    · intro w hw
      simp only at hw ⊢
      rw [hperm.count_eq, hw2]
      by_cases hwy : w = y.toNat
      · subst hwy
        rw [List.getElem?_set_self (by omega), hyc, List.count_cons_self]
        push_cast
        rfl
      · rw [List.getElem?_set_ne (fun e => hwy e.symm), hin w hw,
          List.count_cons_of_ne (by omega)]

/-- The graph of `NewDigraph` satisfies the invariant. -/
theorem NewDigraph_inv (v : Int) (h0 : 0 ≤ v) :
    ∃ g0, NewDigraph v = Except.ok g0 ∧ g0.Inv ∧ g0.v = v ∧ g0.adj.flatten.length = 0 := by
  have hfl : ∀ n : Nat, (List.replicate n ([] : List Int)).flatten = [] := by
    intro n
    induction n with
    | zero => rfl
    | succ n ih => rw [List.replicate_succ, List.flatten_cons, ih]; rfl
  refine ⟨Digraph.mk v 0 (List.replicate v.toNat []) (List.replicate v.toNat 0),
    ?_, ⟨h0, ?_, ?_, ?_, ?_⟩, rfl, ?_⟩
  · simp only [NewDigraph, if_neg (not_lt.2 h0)]
  · simp
  · simp
  · simp only [hfl]; rfl
  · intro w hw
    simp only at hw ⊢
    rw [hfl, List.getElem?_eq_getElem (by simpa using hw)]
    simp
  · simp only [hfl]; rfl

/-- A sequence of `AddEdge` calls on a graph that satisfies the invariant, the
edges it has and the calls with both endpoints in range together being fewer
than `2^63`: no call panics, the invariant is kept, and the number of adjacency
entries grows by the number of calls that returned nil. -/
theorem addEdges_spec (calls : List (Int × Int)) :
    ∀ g : Digraph, g.Inv →
      g.adj.flatten.length + (calls.filter (inRange g.v)).length < 2 ^ 63 →
      ∃ g1 res, g.addEdges calls = some (g1, res) ∧ g1.Inv ∧ g1.v = g.v
        ∧ res.length = calls.length
        ∧ g1.adj.flatten.length = g.adj.flatten.length + nilCount res
        ∧ res = calls.map (fun c =>
            if c.1 < 0 ∨ c.1 ≥ g.v then g.validateVertex c.1 else g.validateVertex c.2) := by
  induction calls with
  | nil => intro g hI _; exact ⟨g, [], rfl, hI, rfl, rfl, rfl, rfl⟩
  | cons c calls ih =>
      intro g hI hb
      obtain ⟨x, y⟩ := c
      by_cases hv : x < 0 ∨ x ≥ g.v ∨ y < 0 ∨ y ≥ g.v
      · have hin : inRange g.v (x, y) = false := by
          simp only [inRange, decide_eq_false_iff_not]
          omega
        rw [List.filter_cons_of_neg (by rw [hin]; simp)] at hb
        obtain ⟨err, e1, _⟩ := AddEdge_invalid g x y hv
        obtain ⟨g2, res, e2, hI2, hv2, hl2, hn2, hr2⟩ := ih g hI hb
        refine ⟨g2, some err :: res, ?_, hI2, hv2, by simp [hl2], ?_, ?_⟩
        · simp only [Digraph.addEdges, e1, e2]
        · simp only [nilCount, List.filter_cons, Option.isNone_some] at hn2 ⊢
          exact hn2
        · simp only [List.map_cons, ← hr2]
          congr 1
          by_cases hx : x < 0 ∨ x ≥ g.v
          · simp only [Digraph.AddEdge, Digraph.validateVertex, if_pos hx, Ret.returned.injEq,
              Option.some.injEq, and_true] at e1
            simp only [Digraph.validateVertex, if_pos hx, e1]
          · have hy : y < 0 ∨ y ≥ g.v := by omega
            simp only [Digraph.AddEdge, Digraph.validateVertex, if_neg hx, if_pos hy,
              Ret.returned.injEq, Option.some.injEq, and_true] at e1
            simp only [Digraph.validateVertex, if_neg hx, if_pos hy, e1]
      · have hin : inRange g.v (x, y) = true := by
          simp only [inRange, decide_eq_true_eq]
          omega
        rw [List.filter_cons_of_pos hin, List.length_cons] at hb
        obtain ⟨g1, e1, hI1, hv1, _, hl1, _⟩ :=
          AddEdge_valid g hI x y (by omega) (by omega) (by omega) (by omega) (by omega)
        obtain ⟨g2, res, e2, hI2, hv2, hl2, hn2, hr2⟩ := ih g1 hI1 (by rw [hv1]; omega)
        refine ⟨g2, none :: res, ?_, hI2, hv2.trans hv1, by simp [hl2], ?_, ?_⟩
        · simp only [Digraph.addEdges, e1, e2]
        · simp only [nilCount, List.filter_cons, Option.isNone_none, if_true,
            List.length_cons] at hn2 ⊢
          omega
        · have hval : ∀ z, g1.validateVertex z = g.validateVertex z := by
            intro z
            simp only [Digraph.validateVertex, hv1]
          simp only [hval, hv1] at hr2
          simp only [List.map_cons, ← hr2]
          congr 1
          simp only [Digraph.validateVertex]
          rw [if_neg (by omega), if_neg (by omega)]

/-- An error of `validateVertex` wraps `ErrVertexOutOfRange`. -/
theorem validateVertex_wraps (g : Digraph) (z : Int) (err : Error)
    (h : g.validateVertex z = some err) : errorsIs err Error.ErrVertexOutOfRange = true := by
  unfold Digraph.validateVertex at h
  split at h
  · rw [← Option.some.inj h]
    simp [errorsIs]
  · exact absurd h (by simp)

/-- C21: for every `v >= 0` and every sequence of `AddEdge` calls made on
`NewDigraph(v)`, fewer than `2^63` of them with both endpoints in range (the
edges a machine can hold), no call panics, and in the graph reached
`indegree[w]` is the number of occurrences of `w` in all adjacency lists, for
every vertex `w`; `E()` is the total number of adjacency entries and the number
of calls that returned nil; every call that returned an error returned one
wrapping `ErrVertexOutOfRange`; and an `AddEdge` call with an endpoint outside
`[0, v)` returns an error wrapping `ErrVertexOutOfRange` and leaves the graph
(`adj`, `indegree`, `e`) as it is. -/
theorem AddEdge_keeps_indegree_and_E (v : Int) (h0 : 0 ≤ v) (calls : List (Int × Int))
    (hc : (calls.filter (inRange v)).length < 2 ^ 63) :
    ∃ g0 g res, NewDigraph v = Except.ok g0 ∧ g0.addEdges calls = some (g, res)
      ∧ res.length = calls.length
      ∧ g.V = v ∧ g.adj.length = v.toNat ∧ g.indegree.length = v.toNat
      ∧ (∀ w : Nat, (w : Int) < v →
          g.indegree[w]? = some ((g.adj.flatten.count (w : Int) : Nat) : Int))
      ∧ g.E = (g.adj.flatten.length : Int)
      ∧ g.E = (nilCount res : Int)
      ∧ (∀ err, some err ∈ res → errorsIs err Error.ErrVertexOutOfRange = true)
      ∧ (∀ x y : Int, x < 0 ∨ x ≥ v ∨ y < 0 ∨ y ≥ v →
          ∃ err, g.AddEdge x y = Ret.returned (some err) g
            ∧ errorsIs err Error.ErrVertexOutOfRange = true) := by
  obtain ⟨g0, e0, hI0, hv0, hl0⟩ := NewDigraph_inv v h0
  obtain ⟨g, res, e1, hI, hv, hl, hn, hr⟩ :=
    addEdges_spec calls g0 hI0 (by rw [hv0, hl0]; omega)
  have hgv : g.v = v := hv.trans hv0
  obtain ⟨_, hla, hli, he, hin⟩ := hI
  refine ⟨g0, g, res, e0, e1, hl, hgv, by rw [hla, hgv], by rw [hli, hgv], ?_, he, ?_, ?_, ?_⟩
  · intro w hw
    exact hin w (by omega)
  · show g.e = _
    rw [he, hn, hl0]
    simp
  · intro err hmem
    rw [hr, List.mem_map] at hmem
    obtain ⟨c, _, hc1⟩ := hmem
    split at hc1
    · exact validateVertex_wraps g0 c.1 err hc1
    · exact validateVertex_wraps g0 c.2 err hc1
  · intro x y hxy
    exact AddEdge_invalid g x y (by rw [hgv]; exact hxy)

/-- C21 at a concrete input: three vertices and the calls `AddEdge(0, 1)`,
`AddEdge(5, 1)` (failing), `AddEdge(2, 1)`, `AddEdge(0, 2)`. -/
theorem AddEdge_keeps_indegree_and_E_witness :
    ∃ g0 g res, NewDigraph 3 = Except.ok g0
      ∧ g0.addEdges [(0, 1), (5, 1), (2, 1), (0, 2)] = some (g, res)
      ∧ g.E = (g.adj.flatten.length : Int) ∧ g.E = (nilCount res : Int) :=
  match AddEdge_keeps_indegree_and_E 3 (by decide) [(0, 1), (5, 1), (2, 1), (0, 2)]
      (by decide) with
  | ⟨g0, g, res, h1, h2, _, _, _, _, _, h8, h9, _⟩ => ⟨g0, g, res, h1, h2, h8, h9⟩

end graph
